import Mathlib

/-!
# EVR bit table (timingApp/src/bitTable.cpp)

A shallow embedding of the bit table device support: the table of
event → action bits, the three record entry points `bitTableSetWords`,
`bitTableUpdate` and `bitTableRead`, and the properties of the rendered
word array.

Conventions of the embedding

* C `unsigned` / `epicsUInt32` values are natural numbers, reduced modulo
  `2^32` wherever the source arithmetic can wrap.
* `std::map<K, V>` is an association list kept strictly sorted by key
  (`StdMap`); the functions do not require sortedness, separate lemmas show
  that they preserve it.
* The mutex, the table name and the `IOSCANPVT` handle carry no data; a call
  to `scanIoRequest` is recorded as a boolean in the result of an entry point.
* `recGblSetSevrMsg` (EPICS base) raises the pending alarm severity `nsev` of
  the record to at least the given severity.
* A failed `assert` and a store outside the record buffer end the run of the
  program: the entry points return `none` there.
* Every record passed to an entry point has been bound by `bitTableInitRecord`
  (`dpvt` is not null); C++ exceptions are not modelled.
-/

namespace BitTbl

/-! ## Machine integers -/

/-- Reduction of a natural number to a C `unsigned` (32 bit). -/
def u32 (n : Nat) : Nat := n % 2 ^ 32

/-- Conversion of a C `int` to `unsigned`. -/
def toU32 (v : Int) : Nat := (v % (2 ^ 32 : Int)).toNat

/-! ## Alarm severities (alarm.h of EPICS base) -/

def NO_ALARM : Nat := 0
def MINOR_ALARM : Nat := 1
def MAJOR_ALARM : Nat := 2
def INVALID_ALARM : Nat := 3

/-! ## std::map -/

/-- A `std::map` with numeric keys: the entries in key order. -/
abbrev StdMap (V : Type) := List (Nat × V)

namespace StdMap

/-- Value stored under `key`, as `std::map::find`. -/
def find {V : Type} : StdMap V → Nat → Option V
  | [], _ => none
  | (k, v) :: m, key => if k = key then some v else find m key

/-- Removal of `key`, as `std::map::erase(key)`. -/
def erase {V : Type} : StdMap V → Nat → StdMap V
  | [], _ => []
  | (k, v) :: m, key => if k = key then erase m key else (k, v) :: erase m key

/-- Store `v` under `key`, keeping key order (assignment through a reference
obtained from the map, or insertion of a new node). -/
def put {V : Type} : StdMap V → Nat → V → StdMap V
  | [], key, v => [(key, v)]
  | (k, w) :: m, key, v =>
    if key < k then (key, v) :: (k, w) :: m
    else if key = k then (k, v) :: m
    else (k, w) :: put m key v

/-- The subscript `m[key]` of `std::map`: the stored value, or a newly
inserted default. Returns the map after the possible insertion and the value
referred to. -/
def index {V : Type} (m : StdMap V) (key : Nat) (dflt : V) : StdMap V × V :=
  match find m key with
  | some v => (m, v)
  | none => (put m key dflt, dflt)

/-- Keys strictly ascending: the representation invariant of `std::map`. -/
def sorted {V : Type} (m : StdMap V) : Prop :=
  List.Pairwise (fun x y => x.1 < y.1) m

instance {V : Type} (m : StdMap V) : Decidable (sorted m) := by
  unfold sorted; infer_instance

end StdMap

/-! ## Data model -/

/-- The mutable fields of `struct BitTable` (`nEvents` is the constant 256). -/
structure BitTable where
  /-- row size in bits -/
  bitsPerEvent : Nat
  /-- number of 32-bit words used to store the bits of a row -/
  wordsPerEvent : Nat
  /-- event, action, active -/
  table : StdMap (StdMap Bool)
  changing : Bool
deriving DecidableEq, Repr

/-- The constant member `nEvents`. -/
def nEvents : Nat := 256

/-- A newly constructed table. -/
def BitTable.init : BitTable :=
  { bitsPerEvent := 0, wordsPerEvent := 0, table := [], changing := false }

/-- The cell `(event, action)` of the map is present and active. -/
def cellActive (tab : StdMap (StdMap Bool)) (event action : Nat) : Bool :=
  match tab.find event with
  | some row => row.find action == some true
  | none => false

/-- The table contains `(event, action)`. -/
def BitTable.holds (t : BitTable) (event action : Nat) : Bool :=
  cellActive t.table event action

/-- The fields of `struct BitDev` that vary per record. -/
structure BitDev where
  action : Int
  prevEvent : Nat
deriving DecidableEq, Repr

/-- The fields of a longout record used by the device support. -/
structure LongoutRecord where
  val : Int
  nsev : Nat
deriving DecidableEq, Repr

/-- The fields of an aai record used by the device support; `NELM` is the
length of the buffer `bptr`. -/
structure AaiRecord where
  ftvlULong : Bool
  bptr : List Nat
  nord : Nat
  nsev : Nat
deriving DecidableEq, Repr

/-- Capacity of the record buffer. -/
def AaiRecord.nelm (r : AaiRecord) : Nat := r.bptr.length

/-- Alarm raised on a longout record: `recGblSetSevrMsg`. -/
def LongoutRecord.setSevr (r : LongoutRecord) (sevr : Nat) : LongoutRecord :=
  { r with nsev := max r.nsev sevr }

/-- Alarm raised on an aai record: `recGblSetSevrMsg`. -/
def AaiRecord.setSevr (r : AaiRecord) (sevr : Nat) : AaiRecord :=
  { r with nsev := max r.nsev sevr }

/-- Outcome of a longout entry point. -/
structure WriteResult where
  /-- returned status, 0 or -1 -/
  ret : Int
  prec : LongoutRecord
  table : BitTable
  pvt : BitDev
  /-- whether `scanIoRequest(onChange)` was called -/
  scan : Bool
deriving DecidableEq, Repr

/-! ## bitTableSetWords -/

/-- The rounding of `bitTableSetWords`: `nbit--; nbit |= 0x1f; nbit++`
followed by the division by 32, on `unsigned`. -/
def roundWords (nbit : Nat) : Nat :=
  let n1 := u32 (nbit + (2 ^ 32 - 1))
  let n2 := n1 ||| 0x1f
  let n3 := u32 (n2 + 1)
  n3 / 32

/-- Embedding of `bitTableSetWords`. -/
def bitTableSetWords (prec : LongoutRecord) (tbl : BitTable) (pvt : BitDev) : WriteResult :=
  if prec.val ≤ 0 then
    { ret := -1, prec := prec.setSevr INVALID_ALARM, table := tbl, pvt := pvt, scan := false }
  else
    let nbit := toU32 prec.val
    let nwords := roundWords nbit
    let change := !tbl.changing
    { ret := 0, prec := prec,
      table := { tbl with wordsPerEvent := nwords, bitsPerEvent := toU32 prec.val,
                          changing := true },
      pvt := pvt, scan := change }

/-! ## bitTableUpdate -/

/-- The block "clear previous" of `bitTableUpdate`: the cell of the previous
event is erased, an emptied row is removed, and `prevEvent` is reset.
`none`: the `assert(erased)` failed. -/
def clearPrevious (tab : StdMap (StdMap Bool)) (pvt : BitDev) :
    Option (StdMap (StdMap Bool) × BitDev) :=
  if pvt.prevEvent ≠ 0 then
    match tab.find pvt.prevEvent with
    | some row =>
      let erased := (row.find (toU32 pvt.action)).isSome
      let row1 := row.erase (toU32 pvt.action)
      if !erased then none
      else if row1.isEmpty then
        some (tab.erase pvt.prevEvent, { pvt with prevEvent := 0 })
      else
        some (tab.put pvt.prevEvent row1, { pvt with prevEvent := 0 })
    | none => some (tab, { pvt with prevEvent := 0 })
  else some (tab, pvt)

/-- The block "set new" of `bitTableUpdate` for a non-zero event: the cell
`table[newEvent][action]` is allocated with `false` when absent. Returns the
table after the block and whether the cell was found active (the duplicate
error); otherwise the cell has been set. -/
def setNew (tab : StdMap (StdMap Bool)) (newEvent action : Nat) :
    StdMap (StdMap Bool) × Bool :=
  let r1 := tab.index newEvent []
  let r2 := r1.2.index action false
  let tab2 := r1.1.put newEvent r2.1
  if r2.2 then (tab2, true)
  else (tab2.put newEvent (r2.1.put action true), false)

/-- The first statement of `bitTableUpdate`: a value outside 0..255 is
replaced by 0 in the record. -/
def coerceVal (prec : LongoutRecord) : LongoutRecord :=
  if prec.val < 0 ∨ prec.val > 255 then { prec with val := 0 } else prec

/-- Embedding of `bitTableUpdate`. `none`: the `assert(erased)` failed. -/
def bitTableUpdate (prec : LongoutRecord) (tbl : BitTable) (pvt : BitDev) :
    Option WriteResult :=
  let prec1 : LongoutRecord := coerceVal prec
  let newEvent := prec1.val.toNat % 256
  if pvt.action < 0 then
    some { ret := -1, prec := prec1.setSevr INVALID_ALARM, table := tbl, pvt := pvt,
           scan := false }
  else if newEvent = pvt.prevEvent then
    some { ret := 0, prec := prec1, table := tbl, pvt := pvt, scan := false }
  else
    match clearPrevious tbl.table pvt with
    | none => none
    | some (tab1, pvt1) =>
      let res : StdMap (StdMap Bool) × Bool :=
        if newEvent ≠ 0 then setNew tab1 newEvent (toU32 pvt.action) else (tab1, false)
      if res.2 then
        some { ret := -1, prec := prec1.setSevr INVALID_ALARM,
               table := { tbl with table := res.1 }, pvt := pvt1, scan := false }
      else
        some { ret := 0, prec := prec1,
               table := { tbl with table := res.1, changing := true },
               pvt := { pvt1 with prevEvent := newEvent }, scan := !tbl.changing }

/-! ## bitTableRead -/

/-- Outcome of the aai entry point. -/
structure ReadResult where
  /-- returned status, 0 or -1 -/
  ret : Int
  prec : AaiRecord
  table : BitTable
deriving DecidableEq, Repr

/-- The statement `val[idx] |= mask` inside a buffer of known length. -/
def orAt : List Nat → Nat → Nat → List Nat
  | [], _, _ => []
  | w :: ws, 0, mask => (w ||| mask) :: ws
  | w :: ws, i + 1, mask => w :: orAt ws i mask

/-- The call `memset(val, 0, nbytes)` on a buffer of 32-bit words, for a byte
count that is a multiple of four. -/
def memsetZero (val : List Nat) (nbytes : Nat) : List Nat :=
  List.replicate (min (nbytes / 4) val.length) 0 ++ val.drop (nbytes / 4)

/-- The word index computed by `bitTableRead` for an in-range action, in
`unsigned` arithmetic: `idx = wordsPerEvent - 1u - action/32u` and then
`idx += event*wordsPerEvent`. -/
def wordIndex (wordsPerEvent event action : Nat) : Nat :=
  let idx := action / 32
  let idx := u32 (u32 (wordsPerEvent + (2 ^ 32 - 1)) + (2 ^ 32 - idx))
  u32 (idx + u32 (event * wordsPerEvent))

/-- Body of the inner loop of `bitTableRead` for one `apair`. `none`: the
store would fall outside the record buffer. -/
def renderCell (wordsPerEvent bitsPerEvent event : Nat) (prec : AaiRecord)
    (apair : Nat × Bool) : Option AaiRecord :=
  if !apair.2 then some prec
  else if apair.1 ≥ bitsPerEvent then some (prec.setSevr MAJOR_ALARM)
  else
    let bit := apair.1 % 32
    let mask := u32 (1 <<< bit)
    let idx := wordIndex wordsPerEvent event apair.1
    if idx < prec.bptr.length then some { prec with bptr := orAt prec.bptr idx mask }
    else none

/-- The inner loop of `bitTableRead` over one row. -/
def renderRow (wordsPerEvent bitsPerEvent event : Nat) :
    StdMap Bool → AaiRecord → Option AaiRecord
  | [], prec => some prec
  | apair :: rest, prec =>
    match renderCell wordsPerEvent bitsPerEvent event prec apair with
    | none => none
    | some prec1 => renderRow wordsPerEvent bitsPerEvent event rest prec1

/-- The outer loop of `bitTableRead` over the rows of the table. -/
def renderTable (wordsPerEvent bitsPerEvent : Nat) :
    StdMap (StdMap Bool) → AaiRecord → Option AaiRecord
  | [], prec => some prec
  | epair :: rest, prec =>
    match renderRow wordsPerEvent bitsPerEvent epair.1 epair.2 prec with
    | none => none
    | some prec1 => renderTable wordsPerEvent bitsPerEvent rest prec1

/-- Embedding of `bitTableRead`. `none`: a store outside the record buffer. -/
def bitTableRead (prec : AaiRecord) (tbl : BitTable) : Option ReadResult :=
  if !prec.ftvlULong then
    some { ret := -1, prec := prec.setSevr INVALID_ALARM, table := tbl }
  else
    let tbl1 : BitTable := { tbl with changing := false }
    let cap := u32 (nEvents * tbl.wordsPerEvent)
    if prec.nelm < cap then
      some { ret := -1, prec := prec.setSevr INVALID_ALARM, table := tbl1 }
    else
      let prec1 : AaiRecord :=
        { prec with bptr := memsetZero prec.bptr (u32 (cap * 4)), nord := 0 }
      match renderTable tbl.wordsPerEvent tbl.bitsPerEvent tbl.table prec1 with
      | none => none
      | some prec2 => some { ret := 0, prec := { prec2 with nord := cap }, table := tbl1 }

/-! ## Well-formed tables -/

/-- Both levels of the map are `std::map`s (keys strictly ascending) and the
event keys are `uint8_t`. -/
def rowsWf (tab : StdMap (StdMap Bool)) : Prop :=
  tab.sorted ∧ ∀ p ∈ tab, p.1 < 256 ∧ p.2.sorted

instance (tab : StdMap (StdMap Bool)) : Decidable (rowsWf tab) := by
  unfold rowsWf; infer_instance

/-- No row is empty and every stored boolean is `true`. -/
def rowsFull (tab : StdMap (StdMap Bool)) : Prop :=
  ∀ p ∈ tab, p.2 ≠ [] ∧ ∀ q ∈ p.2, q.2 = true

instance (tab : StdMap (StdMap Bool)) : Decidable (rowsFull tab) := by
  unfold rowsFull; infer_instance

/-- Well-formed table state: the map is well formed and the two width fields
are related as `bitTableSetWords` leaves them, for a positive `int` width or
the initial zero. -/
def BitTable.wf (t : BitTable) : Prop :=
  rowsWf t.table ∧ t.bitsPerEvent < 2 ^ 31 ∧
  t.wordsPerEvent = (t.bitsPerEvent + 31) / 32

instance (t : BitTable) : Decidable t.wf := by
  unfold BitTable.wf; infer_instance

/-! ## A table with its records -/

/-- One table together with the private data of the longout records bound to
it. -/
structure Sys where
  table : BitTable
  devs : List BitDev
deriving DecidableEq, Repr

/-- State after `bitTableInitRecord` has bound one record per listed action to
a new table. -/
def Sys.init (actions : List Int) : Sys :=
  { table := BitTable.init,
    devs := actions.map (fun a => { action := a, prevEvent := 0 }) }

/-- A record being processed: record `i` written with value `val` through the
width or the update device support, or an aai record read. -/
inductive Op where
  | setWords (i : Nat) (val : Int)
  | update (i : Nat) (val : Int)
  | read (prec : AaiRecord)
deriving DecidableEq, Repr

/-- The written value is an `epicsInt32`. -/
def Op.typed : Op → Prop
  | .setWords _ val => -(2 ^ 31 : Int) ≤ val ∧ val < 2 ^ 31
  | .update _ val => -(2 ^ 31 : Int) ≤ val ∧ val < 2 ^ 31
  | .read _ => True

/-- One processing step. `none`: there is no record `i`, or the entry point
did not return. -/
def step (s : Sys) : Op → Option Sys
  | .setWords i val =>
    match s.devs[i]? with
    | none => none
    | some d =>
      let r := bitTableSetWords { val := val, nsev := 0 } s.table d
      some { table := r.table, devs := s.devs.set i r.pvt }
  | .update i val =>
    match s.devs[i]? with
    | none => none
    | some d =>
      match bitTableUpdate { val := val, nsev := 0 } s.table d with
      | none => none
      | some r => some { table := r.table, devs := s.devs.set i r.pvt }
  | .read prec =>
    match bitTableRead prec s.table with
    | none => none
    | some r => some { s with table := r.table }

/-- States reached from the initial one by processing records. -/
inductive Reachable (actions : List Int) : Sys → Prop where
  | init : Reachable actions (Sys.init actions)
  | step (s s1 : Sys) (op : Op) : Reachable actions s → op.typed →
      step s op = some s1 → Reachable actions s1

/-- Record `i` is bound with a non-negative action whose key is `action` and
is currently mapped to the non-zero event `event`: it owns that cell. -/
def Sys.owns (s : Sys) (i event action : Nat) : Prop :=
  ∃ d, s.devs[i]? = some d ∧ 0 ≤ d.action ∧ toU32 d.action = action ∧
    d.prevEvent = event ∧ event ≠ 0

/-- The table is well formed, holds no empty row and no inactive cell, and its
cells are exactly the cells owned by a record, each by one record only. -/
def Sys.inv (s : Sys) : Prop :=
  s.table.wf ∧ rowsFull s.table.table ∧
  (∀ e a, s.table.holds e a = true ↔ ∃ i, s.owns i e a) ∧
  (∀ i j e a, s.owns i e a → s.owns j e a → i = j)

/-! ## Sequences of calls and their scan requests -/

/-- What one processed record leaves behind: the state, the returned status
and whether `scanIoRequest` was called. -/
structure StepOut where
  sys : Sys
  ret : Int
  scan : Bool
deriving DecidableEq, Repr

/-- One processing step with its status and scan request; the state is the one
of `step`. -/
def stepOut (s : Sys) : Op → Option StepOut
  | .setWords i val =>
    match s.devs[i]? with
    | none => none
    | some d =>
      let r := bitTableSetWords { val := val, nsev := 0 } s.table d
      some { sys := { table := r.table, devs := s.devs.set i r.pvt }, ret := r.ret,
             scan := r.scan }
  | .update i val =>
    match s.devs[i]? with
    | none => none
    | some d =>
      match bitTableUpdate { val := val, nsev := 0 } s.table d with
      | none => none
      | some r =>
        some { sys := { table := r.table, devs := s.devs.set i r.pvt }, ret := r.ret,
               scan := r.scan }
  | .read prec =>
    match bitTableRead prec s.table with
    | none => none
    | some r => some { sys := { s with table := r.table }, ret := r.ret, scan := false }

/-- The step is a read of an unsigned aai record, which passes the element
type check of `bitTableRead`. -/
def Op.isRender : Op → Bool
  | .read prec => prec.ftvlULong
  | _ => false

/-- A sequence of processing steps; the trace lists the status and the scan
request of each step. -/
def runTrace : Sys → List Op → Option (Sys × List (Int × Bool))
  | s, [] => some (s, [])
  | s, op :: ops =>
    match stepOut s op with
    | none => none
    | some o =>
      match runTrace o.sys ops with
      | none => none
      | some r => some (r.1, (o.ret, o.scan) :: r.2)

/-- Number of scan requests in a trace. -/
def scanCount (tr : List (Int × Bool)) : Nat := (tr.filter (fun e => e.2)).length

/-! ## What the render loops do -/

/-- Some active, in-range cell of the row of `event` is rendered into bit `b`
of the word with index `i`. -/
def rowHit (wordsPerEvent bitsPerEvent event : Nat) (row : StdMap Bool) (i b : Nat) : Prop :=
  ∃ q ∈ row, q.2 = true ∧ q.1 < bitsPerEvent ∧
    wordIndex wordsPerEvent event q.1 = i ∧ q.1 % 32 = b

/-- Some active cell of the row is out of range. -/
def rowOor (bitsPerEvent : Nat) (row : StdMap Bool) : Prop :=
  ∃ q ∈ row, q.2 = true ∧ bitsPerEvent ≤ q.1

/-- Every store of the inner loop falls inside a buffer of `len` words. -/
def rowFits (wordsPerEvent bitsPerEvent event len : Nat) (row : StdMap Bool) : Prop :=
  ∀ q ∈ row, q.2 = true → q.1 < bitsPerEvent → wordIndex wordsPerEvent event q.1 < len

/-! ## Example states -/

/-- Two records with action 0, the first mapped to event 100 and the second to
event 255. -/
def exTwoEvents : Sys :=
  { table := { bitsPerEvent := 0, wordsPerEvent := 0,
               table := [(100, [(0, true)]), (255, [(0, true)])], changing := true },
    devs := [{ action := 0, prevEvent := 100 }, { action := 0, prevEvent := 255 }] }

/-- The empty table after `bitTableSetWords` with the width `2^27`. -/
def exWide : BitTable :=
  { bitsPerEvent := 2 ^ 27, wordsPerEvent := 2 ^ 22, table := [], changing := true }

/-- An aai record of `2^30` unsigned words whose buffer holds ones. -/
def exStale : AaiRecord :=
  { ftvlULong := true, bptr := List.replicate (2 ^ 30) 1, nord := 0, nsev := 0 }

/-- Width 4; actions 0 and 3 on event 100 and action 0 on event 255. -/
def exPacked : BitTable :=
  { bitsPerEvent := 4, wordsPerEvent := 1,
    table := [(100, [(0, true), (3, true)]), (255, [(0, true)])], changing := false }

/-- Width 4; actions 0, 3, 15 and 39 on event 100. -/
def exOutOfRange : BitTable :=
  { bitsPerEvent := 4, wordsPerEvent := 1,
    table := [(100, [(0, true), (3, true), (15, true), (39, true)])], changing := true }

/-- An aai record of 256 unsigned words, before processing. -/
def exRecord : AaiRecord :=
  { ftvlULong := true, bptr := List.replicate 256 0, nord := 0, nsev := 0 }

/-- An aai record of two unsigned words. -/
def exShort : AaiRecord :=
  { ftvlULong := true, bptr := [7, 7], nord := 0, nsev := 0 }

end BitTbl

/-!
# Event table (timingApp/src/eventTable.cpp)

A shallow embedding of the event log de-multiplexer: the log with its queues
and listener index, and the record entry points of the device support.

Conventions of the embedding, beyond those of the bit table

* An `EventQueue*` is the position of the queue in the list of queues of its
  log; queues are never removed.
* `std::list<epicsTime>` is a list of time stamps; a splice moves the elements.
* `std::multimap<uint8_t, EventQueue*>` is the list of its entries in key
  order, entries of equal key in insertion order.
* A C `double` is the rational number it holds. The product and the sum that
  `eventLogInput` computes on doubles are each rounded to the nearest double
  (IEEE 754 binary64, ties to the even significand, the range of the exponent
  not limited); a difference of two `epicsTime` values (EPICS base) is taken
  exactly. A conversion to `epicsUInt32` drops the fraction and is reduced
  modulo `2^32`.
* An `epicsTime` is the `epicsTimeStamp` pair it was made from.
* `scanIoRequest` on the scan list of a queue returns the mask of priorities at
  which a scan was queued; the mask is an input of the entry points that call
  it.
-/

namespace EvtTbl

/-! ## Time stamps -/

/-- An `epicsTimeStamp`, also standing for the `epicsTime` made from it. -/
structure TimeStamp where
  secPastEpoch : Nat
  nsec : Nat
deriving DecidableEq, Repr

/-- The constant of epicsTime.h. -/
def POSIX_TIME_AT_EPICS_EPOCH : Nat := 631152000

/-- A default constructed `epicsTime`. -/
def TimeStamp.zero : TimeStamp := { secPastEpoch := 0, nsec := 0 }

/-- The integer part of the binary logarithm, by halving at most `fuel`
times. -/
def log2Fuel : Nat → Nat → Nat
  | 0, _ => 0
  | fuel + 1, n => if n < 2 then 0 else log2Fuel fuel (n / 2) + 1

/-- The integer part of the binary logarithm of `n` (0 for `n = 0`). -/
def ilog2 (n : Nat) : Nat := log2Fuel n n

/-- The double nearest to the fraction `p / q` (`q` positive), as a fraction
whose denominator is a power of two: the quotient is scaled to a significand
of 53 bits, `2^52 ≤ a / b1 < 2^53`, which is rounded to the nearest integer,
a tie going to the even one. -/
def roundDouble (p q : Nat) : Nat × Nat :=
  if p = 0 then (0, 1)
  else
    let a := p * 2 ^ (ilog2 q + 53)
    let b := q * 2 ^ ilog2 p
    let b1 := if b * 2 ^ 53 ≤ a then 2 * b else b
    let m0 := a / b1
    let r := a % b1
    let m := if b1 < 2 * r ∨ (2 * r = b1 ∧ m0 % 2 = 1) then m0 + 1 else m0
    (m * (b1 / q), 2 ^ (ilog2 q + 53))

/-- The statement `ts.nsec = val[n+2]*log->nsecPerTick + 0.5`: the tick count
is converted to a double exactly, the product is rounded to a double, the sum
with 0.5 is rounded to a double, and the conversion to `epicsUInt32` drops the
fraction. -/
def nsecOf (nsecPerTick : ℚ) (ticks : Nat) : Nat :=
  let prod := roundDouble (ticks * nsecPerTick.num.toNat) nsecPerTick.den
  let sum := roundDouble (2 * prod.1 + prod.2) (2 * prod.2)
  BitTbl.u32 (sum.1 / sum.2)

/-- The time stamp that `eventLogInput` makes from the second and third word
of a triple: `val[n+1] - POSIX_TIME_AT_EPICS_EPOCH` in unsigned arithmetic and
the converted tick count. -/
def timeStampOf (nsecPerTick : ℚ) (secs ticks : Nat) : TimeStamp :=
  { secPastEpoch := BitTbl.u32 (secs + (2 ^ 32 - POSIX_TIME_AT_EPICS_EPOCH)),
    nsec := nsecOf nsecPerTick ticks }

/-- The difference `t - t0` of two `epicsTime` values, in seconds. -/
def timeDiff (t t0 : TimeStamp) : ℚ :=
  ((t.secPastEpoch : ℚ) - (t0.secPastEpoch : ℚ)) +
    ((t.nsec : ℚ) - (t0.nsec : ℚ)) / 1000000000

/-- Order of time stamps: by seconds, then by nanoseconds. -/
def TimeStamp.le (a b : TimeStamp) : Prop :=
  a.secPastEpoch < b.secPastEpoch ∨ (a.secPastEpoch = b.secPastEpoch ∧ a.nsec ≤ b.nsec)

instance (a b : TimeStamp) : Decidable (a.le b) := by
  unfold TimeStamp.le; infer_instance

/-! ## Data model -/

/-- The mutable fields of `struct EventQueue`. -/
structure EventQueue where
  unused : List TimeStamp
  que : List TimeStamp
  last : TimeStamp
  nLimit : Nat
  event : Nat
  /-- the onChange scan priorities in progress -/
  changing : Nat
deriving DecidableEq, Repr

/-- A newly constructed queue. -/
def EventQueue.init : EventQueue :=
  { unused := [], que := [], last := TimeStamp.zero, nLimit := 0, event := 0, changing := 0 }

/-- The mutable fields of `struct EventLog`; `listeners` refers to the queues
by their position in `queues`. -/
structure EventLog where
  nOverflows : Nat
  nsecPerTick : ℚ
  queues : List EventQueue
  listeners : List (Nat × Nat)
deriving DecidableEq, Repr

/-- A newly constructed log. -/
def EventLog.init : EventLog :=
  { nOverflows := 0, nsecPerTick := 1, queues := [], listeners := [] }

/-- The fields of `struct EventDev`: the queue and the autoclear flag. -/
structure EventDev where
  queue : Nat
  autoclear : Bool
deriving DecidableEq, Repr

/-! ## eventLogInitRecord: the device link -/

/-- The pieces that `epicsStrtok_r` with the delimiter `" "` finds after the
first space of the string, and the piece before it. -/
def splitSp : List Char → List Char × List (List Char)
  | [] => ([], [])
  | c :: cs =>
    if c = ' ' then
      ([], if (splitSp cs).1 = [] then (splitSp cs).2 else (splitSp cs).1 :: (splitSp cs).2)
    else (c :: (splitSp cs).1, (splitSp cs).2)

/-- The words of the link string, as the loop over `epicsStrtok_r` visits
them. -/
def tokenize (s : List Char) : List (List Char) :=
  if (splitSp s).1 = [] then (splitSp s).2 else (splitSp s).1 :: (splitSp s).2

/-- The lambda `cmd`: the rest of the word after the key, when the word starts
with it. -/
def cmd (word pref : List Char) : Option (List Char) :=
  if pref.isPrefixOf word then some (word.drop pref.length) else none

/-- Comparison with `epicsStrCaseCmp(val, lit)==0`, for a lower case
literal. -/
def caseEq (val lit : List Char) : Bool := val.map Char.toLower == lit

/-- The local variables `logName`, `queueName` and `autoclear`. -/
structure LinkParams where
  logName : List Char
  queueName : List Char
  autoclear : Bool
deriving DecidableEq, Repr

/-- The exceptions thrown by `eventLogInitRecord`. -/
inductive LinkError where
  | badAutoclear
  | unexpected
  | missingLog
deriving DecidableEq, Repr

/-- Body of the loop over the words of the link string. -/
def parseWord (st : LinkParams) (word : List Char) : Except LinkError LinkParams :=
  match cmd word ['l', 'o', 'g', '='] with
  | some val => .ok { st with logName := val }
  | none =>
    match cmd word ['q', 'u', 'e', 'u', 'e', '='] with
    | some val => .ok { st with queueName := val }
    | none =>
      match cmd word ['a', 'u', 't', 'o', 'c', 'l', 'e', 'a', 'r', '='] with
      | some val =>
        if caseEq val ['y', 'e', 's'] then .ok { st with autoclear := true }
        else if caseEq val ['n', 'o'] then .ok { st with autoclear := true }
        else .error LinkError.badAutoclear
      | none => .error LinkError.unexpected

/-- The loop over the words of the link string. -/
def parseWords : LinkParams → List (List Char) → Except LinkError LinkParams
  | st, [] => .ok st
  | st, word :: rest =>
    match parseWord st word with
    | .error e => .error e
    | .ok st1 => parseWords st1 rest

/-- The parsing part of `eventLogInitRecord`, up to the check of `logName`. -/
def parseLink (lstr : List Char) : Except LinkError LinkParams :=
  match parseWords { logName := [], queueName := [], autoclear := true } (tokenize lstr) with
  | .error e => .error e
  | .ok st => if st.logName = [] then .error LinkError.missingLog else .ok st

/-- The word is accepted by the loop over the words: it starts with `log=` or
with `queue=`, or it is `autoclear=` followed by `yes` or `no` in any case. -/
def wordAccepted (word : List Char) : Bool :=
  match cmd word ['l', 'o', 'g', '='] with
  | some _ => true
  | none =>
    match cmd word ['q', 'u', 'e', 'u', 'e', '='] with
    | some _ => true
    | none =>
      match cmd word ['a', 'u', 't', 'o', 'c', 'l', 'e', 'a', 'r', '='] with
      | some val => caseEq val ['y', 'e', 's'] || caseEq val ['n', 'o']
      | none => false

/-- The value of the last word that starts with the key `pref`, or `dflt` when
there is none. -/
def lastValue (pref : List Char) (words : List (List Char)) (dflt : List Char) : List Char :=
  ((words.filterMap (fun w => cmd w pref)).getLast?).getD dflt

/-- One entry of the map `eventLogs`: the name of the log, the names of its
queues in the order of `queues`, and the log. -/
structure LogEntry where
  name : List Char
  queueNames : List (List Char)
  log : EventLog
deriving DecidableEq, Repr

/-- Position of the first element equal to `x`, or the length of the list. -/
def indexIn (x : List Char) : List (List Char) → Nat
  | [] => 0
  | y :: ys => if y = x then 0 else indexIn x ys + 1

/-- The queue lookup of `EventQueue::getCreate` inside one log: the position of
the queue of that name, created when absent. -/
def LogEntry.getCreate (en : LogEntry) (queueName : List Char) : LogEntry × Nat :=
  if queueName ∈ en.queueNames then (en, indexIn queueName en.queueNames)
  else
    ({ en with queueNames := en.queueNames ++ [queueName],
               log := { en.log with queues := en.log.queues ++ [EventQueue.init] } },
     en.queueNames.length)

/-- Embedding of `EventQueue::getCreate` on the map of logs: the map after the
call, the position of the log and the position of the queue in it. -/
def getCreate : List LogEntry → List Char → List Char → List LogEntry × Nat × Nat
  | [], logName, queueName =>
    let r := LogEntry.getCreate { name := logName, queueNames := [], log := EventLog.init }
      queueName
    ([r.1], 0, r.2)
  | en :: rest, logName, queueName =>
    if en.name = logName then
      let r := en.getCreate queueName
      (r.1 :: rest, 0, r.2)
    else
      let r := getCreate rest logName queueName
      (en :: r.1, r.2.1 + 1, r.2.2)

/-- Outcome of `eventLogInitRecord`: the status, the map of logs, and the
private data attached to the record (position of the log, binding). -/
structure InitResult where
  ret : Int
  logs : List LogEntry
  dpvt : Option (Nat × EventDev)
deriving DecidableEq, Repr

/-- Embedding of `eventLogInitRecord`. -/
def eventLogInitRecord (lstr : List Char) (logs : List LogEntry) : InitResult :=
  match parseLink lstr with
  | .error _ => { ret := -1, logs := logs, dpvt := none }
  | .ok st =>
    let r := getCreate logs st.logName st.queueName
    { ret := 0, logs := r.1, dpvt := some (r.2.1, { queue := r.2.2, autoclear := st.autoclear }) }

/-! ## Records -/

/-- The fields of an aao record used by `eventLogInput`. -/
structure AaoRecord where
  ftvlULong : Bool
  bptr : List Nat
  nord : Nat
  nsev : Nat
deriving DecidableEq, Repr

/-- The fields of an ao record used by `eventLogSetMult`; `none` is a value
that is not finite. -/
structure AoRecord where
  val : Option ℚ
  nsev : Nat
deriving DecidableEq, Repr

/-- The fields of a longin record used by `eventLogOutLast`. -/
structure LonginRecord where
  val : Int
  time : TimeStamp
deriving DecidableEq, Repr

/-- The fields of an aai record of doubles used by `eventLogOutBuf`; `NELM` is
the length of the buffer. -/
structure AaiRecord where
  ftvlDouble : Bool
  bptr : List ℚ
  nord : Nat
  time : TimeStamp
  nsev : Nat
deriving DecidableEq, Repr

/-- Capacity of the record buffer. -/
def AaiRecord.nelm (r : AaiRecord) : Nat := r.bptr.length

/-! ## eventLogInput -/

/-- The triples visited by the loop `for(n=0; n+2<N; n+=3)`. -/
def triples : List Nat → List (Nat × Nat × Nat)
  | a :: b :: c :: rest => (a, b, c) :: triples rest
  | _ => []

/-- Body of the loop over the listeners for one queue: the time stamp is
recorded and queued when a free element is left, and a scan is requested when
none is in progress. -/
def EventQueue.receive (q : EventQueue) (ts : TimeStamp) (mask : Nat) : EventQueue :=
  let q1 : EventQueue := { q with last := ts }
  let q2 : EventQueue :=
    match q1.unused with
    | [] => q1
    | _ :: rest => { q1 with unused := rest, que := q1.que ++ [ts] }
  if q2.changing = 0 then { q2 with changing := mask } else q2

/-- State of `eventLogInput` inside the loops, with two observations: the
queues for which `scanIoRequest` was called, in call order, and the number of
times `nOverflows` was incremented. -/
structure InputState where
  log : EventLog
  requests : List Nat
  increments : Nat
deriving DecidableEq, Repr

/-- Body of the loop over the listeners of an event code, for the listener
whose queue is `qi`. -/
def deliver (ts : TimeStamp) (scan : Nat → Nat) (st : InputState) (qi : Nat) : InputState :=
  match st.log.queues[qi]? with
  | none => st
  | some q =>
    { log := { st.log with
        nOverflows := if q.unused.isEmpty then BitTbl.u32 (st.log.nOverflows + 1)
                      else st.log.nOverflows,
        queues := st.log.queues.set qi (q.receive ts (scan qi)) },
      requests := if q.changing = 0 then st.requests ++ [qi] else st.requests,
      increments := if q.unused.isEmpty then st.increments + 1 else st.increments }

/-- The queues between `lower_bound(evt)` and `upper_bound(evt)`. -/
def listenersOf (log : EventLog) (evt : Nat) : List Nat :=
  (log.listeners.filter (fun p => p.1 = evt)).map (fun p => p.2)

/-- Body of the loop over the triples. -/
def processTriple (scan : Nat → Nat) (st : InputState) (t : Nat × Nat × Nat) : InputState :=
  let evtst := t.1
  let evt := evtst &&& 0xff
  if evt = 0 then st
  else
    let st1 : InputState :=
      if evtst &&& 0x40000000 ≠ 0 then
        { st with log := { st.log with nOverflows := BitTbl.u32 (st.log.nOverflows + 1) },
                  increments := st.increments + 1 }
      else st
    let ts := timeStampOf st.log.nsecPerTick t.2.1 t.2.2
    (listenersOf st.log evt).foldl (deliver ts scan) st1

/-- Outcome of `eventLogInput`. -/
structure InputResult where
  ret : Int
  prec : AaoRecord
  log : EventLog
  requests : List Nat
  increments : Nat
deriving DecidableEq, Repr

/-- Embedding of `eventLogInput`; `scan qi` is what `scanIoRequest` returns for
the scan list of queue `qi` during the call. -/
def eventLogInput (prec : AaoRecord) (scan : Nat → Nat) (log : EventLog) : InputResult :=
  if !prec.ftvlULong then
    { ret := -1, prec := { prec with nsev := max prec.nsev BitTbl.INVALID_ALARM }, log := log,
      requests := [], increments := 0 }
  else
    let st := (triples (prec.bptr.take prec.nord)).foldl (processTriple scan)
      { log := log, requests := [], increments := 0 }
    { ret := 0, prec := prec, log := st.log, requests := st.requests,
      increments := st.increments }

/-! ## EventQueue::onChangeComplete -/

/-- Embedding of `EventQueue::onChangeComplete` for the queue `qi`. `none`: the
`assert(self->changing & mask)` failed. -/
def onChangeComplete (log : EventLog) (qi prio : Nat) : Option EventLog :=
  match log.queues[qi]? with
  | none => some log
  | some q =>
    let mask := BitTbl.u32 (1 <<< prio)
    if q.changing &&& mask = 0 then none
    else
      let q1 : EventQueue := { q with changing := q.changing &&& (2 ^ 32 - 1 - mask) }
      some { log with queues := log.queues.set qi q1 }

/-! ## eventLogSetEvent -/

/-- The loop of `eventLogSetEvent` over the listeners of the old event code:
the first entry that refers to the queue is erased. -/
def eraseListener : List (Nat × Nat) → Nat → Nat → List (Nat × Nat)
  | [], _, _ => []
  | p :: rest, evt, qi =>
    if p.1 = evt ∧ p.2 = qi then rest else p :: eraseListener rest evt qi

/-- The call `listeners.emplace(evt, queue)`: the entry goes after the entries
whose key is not greater. -/
def insertListener : List (Nat × Nat) → Nat → Nat → List (Nat × Nat)
  | [], evt, qi => [(evt, qi)]
  | p :: rest, evt, qi =>
    if evt < p.1 then (evt, qi) :: p :: rest else p :: insertListener rest evt qi

/-- Outcome of a longout entry point of the event table. -/
structure WriteResult where
  ret : Int
  prec : BitTbl.LongoutRecord
  log : EventLog
  /-- whether `scanIoRequest(queue->onChange)` was called -/
  scan : Bool
deriving DecidableEq, Repr

/-- Embedding of `eventLogSetEvent` for a binding to the queue `qi`. -/
def eventLogSetEvent (prec : BitTbl.LongoutRecord) (log : EventLog) (qi : Nat) : WriteResult :=
  let prec1 := BitTbl.coerceVal prec
  match log.queues[qi]? with
  | none => { ret := 0, prec := prec1, log := log, scan := false }
  | some q =>
    let log1 : EventLog :=
      if q.event ≠ 0 then
        { log with listeners := eraseListener log.listeners q.event qi,
                   queues := log.queues.set qi { q with event := 0 } }
      else log
    let q1 : EventQueue := if q.event ≠ 0 then { q with event := 0 } else q
    let log2 : EventLog :=
      if prec1.val ≠ 0 then
        { log1 with listeners := insertListener log1.listeners (prec1.val.toNat % 256) qi,
                    queues := log1.queues.set qi { q1 with event := prec1.val.toNat % 256 } }
      else log1
    { ret := 0, prec := prec1, log := log2, scan := false }

/-! ## eventLogSetMult -/

/-- Outcome of `eventLogSetMult`. -/
structure MultResult where
  ret : Int
  prec : AoRecord
  log : EventLog
deriving DecidableEq, Repr

/-- Embedding of `eventLogSetMult`. -/
def eventLogSetMult (prec : AoRecord) (log : EventLog) : MultResult :=
  match prec.val with
  | none =>
    { ret := -1, prec := { prec with nsev := max prec.nsev BitTbl.INVALID_ALARM }, log := log }
  | some v =>
    if v ≤ 0 then
      { ret := -1, prec := { prec with nsev := max prec.nsev BitTbl.INVALID_ALARM },
        log := log }
    else { ret := 0, prec := prec, log := { log with nsecPerTick := v } }

/-! ## eventLogClear -/

/-- Embedding of `eventLogClear` for a binding to the queue `qi`. -/
def eventLogClear (prec : BitTbl.LongoutRecord) (log : EventLog) (qi : Nat) : WriteResult :=
  match log.queues[qi]? with
  | none => { ret := 0, prec := prec, log := log, scan := false }
  | some q =>
    if prec.val = 0 ∨ q.que.isEmpty then { ret := 0, prec := prec, log := log, scan := false }
    else
      let q1 : EventQueue := { q with unused := q.unused ++ q.que, que := [] }
      { ret := 0, prec := prec, log := { log with queues := log.queues.set qi q1 },
        scan := true }

/-! ## eventLogOutLast -/

/-- Embedding of `eventLogOutLast` for a binding to the queue `qi`: the record
after the call (the status is 0 and the log is not written). -/
def eventLogOutLast (prec : LonginRecord) (log : EventLog) (qi : Nat) : LonginRecord :=
  match log.queues[qi]? with
  | none => prec
  | some q => { val := prec.val + 1, time := q.last }

/-! ## eventLogInitRecordOutBuf -/

/-- The block of `eventLogInitRecordOutBuf` after the binding: the free list of
the queue is grown to `nelm` elements. `none`: the `assert(queue->que.empty())`
failed. -/
def resizeUnused (nelm : Nat) (log : EventLog) (qi : Nat) : Option EventLog :=
  match log.queues[qi]? with
  | none => some log
  | some q =>
    if !q.que.isEmpty then none
    else if q.unused.length < nelm then
      let q1 : EventQueue :=
        { q with unused := q.unused ++ List.replicate (nelm - q.unused.length) TimeStamp.zero }
      some { log with queues := log.queues.set qi q1 }
    else some log

/-- The log of the entry of position `i` replaced. -/
def modifyEntry (logs : List LogEntry) (i : Nat) (lg : EventLog) : List LogEntry :=
  match logs[i]? with
  | none => logs
  | some en => logs.set i { en with log := lg }

/-- Embedding of `eventLogInitRecordOutBuf` for a record of `nelm` elements.
`none`: the assertion failed. -/
def eventLogInitRecordOutBuf (nelm : Nat) (lstr : List Char) (logs : List LogEntry) :
    Option InitResult :=
  let r := eventLogInitRecord lstr logs
  match r.dpvt with
  | none => some r
  | some pvt =>
    match r.logs[pvt.1]? with
    | none => some r
    | some en =>
      match resizeUnused nelm en.log pvt.2.queue with
      | none => none
      | some lg => some { r with logs := modifyEntry r.logs pvt.1 lg }

/-! ## eventLogOutBuf -/

/-- Outcome of `eventLogOutBuf`. -/
structure BufResult where
  ret : Int
  prec : AaiRecord
  log : EventLog
deriving DecidableEq, Repr

/-- Embedding of `eventLogOutBuf` for a binding to the queue `qi` with the
given autoclear flag. -/
def eventLogOutBuf (prec : AaiRecord) (autoclear : Bool) (log : EventLog) (qi : Nat) :
    BufResult :=
  if !prec.ftvlDouble then
    { ret := -1, prec := { prec with nsev := max prec.nsev BitTbl.INVALID_ALARM }, log := log }
  else
    match log.queues[qi]? with
    | none => { ret := 0, prec := prec, log := log }
    | some q =>
      match q.que with
      | [] => { ret := 0, prec := { prec with nord := 0 }, log := log }
      | t0 :: rest =>
        let n := min prec.nelm (t0 :: rest).length
        let vals := ((t0 :: rest).take n).map (fun t => timeDiff t t0)
        let prec1 : AaiRecord :=
          { prec with time := t0, bptr := vals ++ prec.bptr.drop n, nord := n }
        let q1 : EventQueue :=
          { q with unused := q.unused ++ (t0 :: rest).take n, que := (t0 :: rest).drop n }
        let log1 : EventLog :=
          if autoclear then { log with queues := log.queues.set qi q1 } else log
        { ret := 0, prec := prec1, log := log1 }

/-! ## Well-formed logs -/

/-- The event code of the queue `qi`, 0 when there is no such queue. -/
def EventLog.eventOf (log : EventLog) (qi : Nat) : Nat :=
  match log.queues[qi]? with
  | some q => q.event
  | none => 0

/-- Number of free elements of the queue `qi`, 0 when there is no such
queue. -/
def EventLog.free (log : EventLog) (qi : Nat) : Nat :=
  match log.queues[qi]? with
  | some q => q.unused.length
  | none => 0

/-- Number of elements of the two lists of the queue `qi`. -/
def EventLog.pool (log : EventLog) (qi : Nat) : Nat :=
  match log.queues[qi]? with
  | some q => q.unused.length + q.que.length
  | none => 0

/-- Well-formed log: the overflow counter is a `uint32_t`; no queue is listed
twice; every listener entry refers to a queue under the non-zero event code of
that queue; every queue with a non-zero event code is listed under it; and the
entries are in key order. -/
def EventLog.wf (log : EventLog) : Prop :=
  log.nOverflows < 2 ^ 32 ∧
  (log.listeners.map Prod.snd).Nodup ∧
  (∀ p ∈ log.listeners, p.1 ≠ 0 ∧ p.2 < log.queues.length ∧ log.eventOf p.2 = p.1) ∧
  (∀ qi ∈ List.range log.queues.length,
    log.eventOf qi ≠ 0 → (log.eventOf qi, qi) ∈ log.listeners) ∧
  log.listeners.Pairwise (fun a b => a.1 ≤ b.1)

instance (log : EventLog) : Decidable log.wf := by
  unfold EventLog.wf; infer_instance

/-- The log `log1` has the listener index, the number of queues and the event
codes of `log`. -/
def EventLog.sameIndex (log log1 : EventLog) : Prop :=
  log1.listeners = log.listeners ∧ log1.queues.length = log.queues.length ∧
  ∀ qj, log1.eventOf qj = log.eventOf qj

/-! ## A log with its outstanding scans -/

/-- The priorities named by a mask returned by `scanIoRequest`. -/
def prios (mask : Nat) : List Nat := (List.range 32).filter (fun i => mask.testBit i)

/-- A log together with the scans that were queued and have not completed yet,
as pairs of queue and priority. -/
structure EvSys where
  log : EventLog
  pending : List (Nat × Nat)
deriving DecidableEq, Repr

/-- The scans queued by the listed requests. -/
def scansOf (scan : Nat → Nat) (requests : List Nat) : List (Nat × Nat) :=
  requests.flatMap (fun qi => (prios (scan qi)).map (fun p => (qi, p)))

/-- A record being processed or a scan completing. `scan` and `mask` are what
`scanIoRequest` returns during the call. -/
inductive EvOp where
  | input (prec : AaoRecord) (scan : Nat → Nat)
  | setEvent (qi : Nat) (val : Int)
  | setMult (val : Option ℚ)
  | clear (qi : Nat) (val : Int) (mask : Nat)
  | outLast (qi : Nat) (prec : LonginRecord)
  | outBuf (qi : Nat) (autoclear : Bool) (prec : AaiRecord)
  | complete (qi : Nat) (prio : Nat)

/-- One step. `none`: the assertion of the completion callback failed, or a
completion was taken for a scan that is not outstanding. -/
def evStep (s : EvSys) : EvOp → Option EvSys
  | .input prec scan =>
    let r := eventLogInput prec scan s.log
    some { log := r.log, pending := s.pending ++ scansOf scan r.requests }
  | .setEvent qi val =>
    some { s with log := (eventLogSetEvent { val := val, nsev := 0 } s.log qi).log }
  | .setMult val =>
    some { s with log := (eventLogSetMult { val := val, nsev := 0 } s.log).log }
  | .clear qi val mask =>
    let r := eventLogClear { val := val, nsev := 0 } s.log qi
    some { log := r.log,
           pending := if r.scan then s.pending ++ (prios mask).map (fun p => (qi, p))
                      else s.pending }
  | .outLast _ _ => some s
  | .outBuf qi autoclear prec =>
    some { s with log := (eventLogOutBuf prec autoclear s.log qi).log }
  | .complete qi prio =>
    if (qi, prio) ∈ s.pending then
      match onChangeComplete s.log qi prio with
      | none => none
      | some lg => some { log := lg, pending := s.pending.erase (qi, prio) }
    else none

/-- States reached from `s0` by steps. -/
inductive EvReachable (s0 : EvSys) : EvSys → Prop where
  | init : EvReachable s0 s0
  | step (s s1 : EvSys) (op : EvOp) : EvReachable s0 s → evStep s op = some s1 →
      EvReachable s0 s1

/-- The state after the records have been bound: no queue is subscribed, no
scan is in progress or outstanding. -/
def EvSys.fresh (s : EvSys) : Prop :=
  s.log.nOverflows < 2 ^ 32 ∧ s.log.listeners = [] ∧ s.pending = [] ∧
  ∀ q ∈ s.log.queues, q.event = 0 ∧ q.changing = 0 ∧ q.que = []

instance (s : EvSys) : Decidable s.fresh := by
  unfold EvSys.fresh; infer_instance

/-- The states after a list of steps, `none` when one of them fails. -/
def evRun : EvSys → List EvOp → Option EvSys
  | s, [] => some s
  | s, op :: rest =>
    match evStep s op with
    | none => none
    | some s1 => evRun s1 rest

/-! ## Example states -/

/-- A queue with three free elements. -/
def exQueue : EventQueue :=
  { unused := [TimeStamp.zero, TimeStamp.zero, TimeStamp.zero], que := [],
    last := TimeStamp.zero, nLimit := 0, event := 0, changing := 0 }

/-- Two bound queues, nothing subscribed. -/
def exStart : EvSys :=
  { log := { nOverflows := 0, nsecPerTick := 1, queues := [exQueue, exQueue], listeners := [] },
    pending := [] }

/-- The log of the repository test after `mult` is 2, `code1` is 100 and
`code2` is 25. -/
def exSubscribed : EventLog :=
  { nOverflows := 0, nsecPerTick := 2,
    queues := [{ exQueue with event := 100 }, { exQueue with event := 25 }],
    listeners := [(25, 1), (100, 0)] }

/-- The batch "Push uninteresting" of the repository test. -/
def exUninteresting : AaoRecord :=
  { ftvlULong := true, bptr := [5, 10, 1, 0, 0, 0, 10, 11, 2, 0, 0, 0], nord := 12, nsev := 0 }

/-- The batch "Push both" of the repository test. -/
def exBoth : AaoRecord :=
  { ftvlULong := true,
    bptr := [25, 631152012, 1, 100, 631152012, 2, 100, 631152012, 3, 25, 631152012, 4],
    nord := 12, nsev := 0 }

/-- A batch whose second triple is ten seconds older than the first. -/
def exDecreasing : AaoRecord :=
  { ftvlULong := true, bptr := [100, 631152020, 0, 100, 631152010, 0], nord := 6, nsev := 0 }

/-- The log of the repository test after "Push both", the scan of both queues
being queued at priority 0. -/
def exPushed : EventLog :=
  { nOverflows := 0, nsecPerTick := 2,
    queues :=
      [{ unused := [TimeStamp.zero],
         que := [{ secPastEpoch := 12, nsec := 4 }, { secPastEpoch := 12, nsec := 6 }],
         last := { secPastEpoch := 12, nsec := 6 }, nLimit := 0, event := 100, changing := 1 },
       { unused := [TimeStamp.zero],
         que := [{ secPastEpoch := 12, nsec := 2 }, { secPastEpoch := 12, nsec := 8 }],
         last := { secPastEpoch := 12, nsec := 8 }, nLimit := 0, event := 25, changing := 1 }],
    listeners := [(25, 1), (100, 0)] }

/-- A log with one queue, subscribed to the code 100, that has one free
element. -/
def exTight : EventLog :=
  { nOverflows := 0, nsecPerTick := 1,
    queues := [{ unused := [TimeStamp.zero], que := [], last := TimeStamp.zero, nLimit := 0,
                 event := 100, changing := 0 }],
    listeners := [(100, 0)] }

/-- A batch of three triples of code 100, the first with bit 30 set. -/
def exBurst : AaoRecord :=
  { ftvlULong := true,
    bptr := [0x40000064, 631152001, 1, 100, 631152001, 2, 100, 631152001, 3],
    nord := 9, nsev := 0 }

/-- The double next below one half, `0.49999999999999994`:
`(2^53 - 1) / 2^54`. -/
def exBelowHalf : ℚ :=
  { num := 9007199254740991, den := 18014398509481984, den_nz := by decide,
    reduced := by decide }

/-- The record `buf1` of the repository test before it is processed. -/
def exBuf : AaiRecord :=
  { ftvlDouble := true, bptr := [0, 0, 0, 0, 0], nord := 0, time := TimeStamp.zero, nsev := 0 }

end EvtTbl

namespace BitTbl

namespace StdMap

variable {V : Type}

/-! ## Lemmas on std::map -/

theorem find_erase (m : StdMap V) (k key : Nat) :
    find (erase m k) key = if key = k then none else find m key := by
  induction m with
  | nil => simp [erase, find]
  | cons p m ih =>
    obtain ⟨k1, v1⟩ := p
    by_cases h1 : k1 = k
    · by_cases h2 : key = k
      · subst h2
        simpa [erase, find, h1] using ih
      · have h3 : ¬ k = key := fun h => h2 h.symm
        simp [erase, find, h1, h2, h3, ih]
    · by_cases h2 : key = k
      · subst h2
        simpa [erase, find, h1] using ih
      · by_cases h3 : k1 = key
        · simp [erase, find, h1, h2, h3]
        · simp [erase, find, h1, h2, h3, ih]

theorem find_put (m : StdMap V) (k key : Nat) (v : V) :
    find (put m k v) key = if key = k then some v else find m key := by
  induction m with
  | nil =>
    by_cases h : key = k
    · simp [put, find, h]
    · have h3 : ¬ k = key := fun h' => h h'.symm
      simp [put, find, h, h3]
  | cons p m ih =>
    obtain ⟨k1, v1⟩ := p
    by_cases hlt : k < k1
    · by_cases h : key = k
      · simp [put, find, hlt, h]
      · have h3 : ¬ k = key := fun h' => h h'.symm
        simp [put, find, hlt, h, h3]
    · by_cases heq : k = k1
      · subst heq
        by_cases h : key = k
        · simp [put, find, h]
        · have h3 : ¬ k = key := fun h' => h h'.symm
          simp [put, find, h, h3]
      · by_cases h : key = k
        · subst h
          have h3 : ¬ k1 = key := fun h' => heq h'.symm
          simp [put, find, hlt, heq, h3, ih]
        · by_cases h4 : k1 = key
          · subst h4
            simp [put, find, hlt, heq, h]
          · simp [put, find, hlt, heq, h, h4, ih]

theorem erase_of_find_none (m : StdMap V) (k : Nat) (h : find m k = none) : erase m k = m := by
  induction m with
  | nil => rfl
  | cons p m ih =>
    obtain ⟨k1, v1⟩ := p
    by_cases h1 : k1 = k
    · simp [find, h1] at h
    · simp only [find, h1, if_false] at h
      simp [erase, h1, ih h]

theorem erase_put (m : StdMap V) (k : Nat) (v : V) : erase (put m k v) k = erase m k := by
  induction m with
  | nil => simp [put, erase]
  | cons p m ih =>
    obtain ⟨k1, v1⟩ := p
    by_cases hlt : k < k1
    · have : ¬ k1 = k := by omega
      simp [put, erase, hlt, this]
    · by_cases heq : k = k1
      · subst heq
        simp [put, erase]
      · have : ¬ k1 = k := fun h => heq h.symm
        simp [put, erase, hlt, heq, this, ih]

theorem put_put (m : StdMap V) (k : Nat) (v w : V) : put (put m k v) k w = put m k w := by
  induction m with
  | nil => simp [put]
  | cons p m ih =>
    obtain ⟨k1, v1⟩ := p
    by_cases hlt : k < k1
    · simp [put, hlt]
    · by_cases heq : k = k1
      · subst heq
        simp [put]
      · simp [put, hlt, heq, ih]

theorem sorted_cons (p : Nat × V) (m : StdMap V) :
    sorted (p :: m) ↔ (∀ q ∈ m, p.1 < q.1) ∧ sorted m := by
  unfold sorted
  exact List.pairwise_cons

theorem mem_erase (m : StdMap V) (k : Nat) (q : Nat × V) :
    q ∈ erase m k ↔ q ∈ m ∧ q.1 ≠ k := by
  induction m with
  | nil => simp [erase]
  | cons p m ih =>
    obtain ⟨k1, v1⟩ := p
    by_cases h1 : k1 = k
    · simp only [erase, h1, if_true, ih, List.mem_cons]
      constructor
      · rintro ⟨h, hk⟩; exact ⟨Or.inr h, hk⟩
      · rintro ⟨h | h, hk⟩
        · subst h; exact absurd rfl hk
        · exact ⟨h, hk⟩
    · simp only [erase, h1, if_false, List.mem_cons, ih]
      constructor
      · rintro (h | ⟨h, hk⟩)
        · subst h; exact ⟨Or.inl rfl, h1⟩
        · exact ⟨Or.inr h, hk⟩
      · rintro ⟨h | h, hk⟩
        · exact Or.inl h
        · exact Or.inr ⟨h, hk⟩

theorem mem_put (m : StdMap V) (k : Nat) (v : V) (q : Nat × V) :
    q ∈ put m k v → q = (k, v) ∨ q ∈ m := by
  induction m with
  | nil => simp [put]
  | cons p m ih =>
    obtain ⟨k1, v1⟩ := p
    by_cases hlt : k < k1
    · simp only [put, hlt, if_true, List.mem_cons]
      intro h; exact h
    · by_cases heq : k = k1
      · subst heq
        simp only [put, lt_irrefl, if_false, if_true, List.mem_cons]
        rintro (h | h)
        · exact Or.inl h
        · exact Or.inr (Or.inr h)
      · simp only [put, hlt, heq, if_false, List.mem_cons]
        rintro (h | h)
        · exact Or.inr (Or.inl h)
        · rcases ih h with h | h
          · exact Or.inl h
          · exact Or.inr (Or.inr h)

theorem sorted_erase (m : StdMap V) (k : Nat) (h : sorted m) : sorted (erase m k) := by
  induction m with
  | nil => exact h
  | cons p m ih =>
    obtain ⟨k1, v1⟩ := p
    rw [sorted_cons] at h
    by_cases h1 : k1 = k
    · simp only [erase, h1, if_true]; exact ih h.2
    · simp only [erase, h1, if_false]
      rw [sorted_cons]
      exact ⟨fun q hq => h.1 q ((mem_erase m k q).1 hq).1, ih h.2⟩

theorem sorted_put (m : StdMap V) (k : Nat) (v : V) (h : sorted m) : sorted (put m k v) := by
  induction m with
  | nil => simp [put, sorted]
  | cons p m ih =>
    obtain ⟨k1, v1⟩ := p
    have h0 := h
    rw [sorted_cons] at h
    by_cases hlt : k < k1
    · simp only [put, hlt, if_true]
      rw [sorted_cons]
      refine ⟨?_, h0⟩
      intro q hq
      rcases List.mem_cons.1 hq with hq | hq
      · subst hq; exact hlt
      · exact lt_trans hlt (h.1 q hq)
    · by_cases heq : k = k1
      · subst heq
        simp only [put, lt_irrefl, if_false, if_true]
        rw [sorted_cons]
        exact h
      · simp only [put, hlt, heq, if_false]
        rw [sorted_cons]
        refine ⟨?_, ih h.2⟩
        intro q hq
        rcases mem_put m k v q hq with hq | hq
        · subst hq; show k1 < k; omega
        · exact h.1 q hq

theorem find_eq_some_iff (m : StdMap V) (hs : sorted m) (k : Nat) (v : V) :
    find m k = some v ↔ (k, v) ∈ m := by
  induction m with
  | nil => simp [find]
  | cons p m ih =>
    obtain ⟨k1, v1⟩ := p
    rw [sorted_cons] at hs
    by_cases h1 : k1 = k
    · subst h1
      simp only [find, if_true, List.mem_cons, Option.some.injEq, Prod.mk.injEq, true_and]
      constructor
      · intro h; exact Or.inl h.symm
      · rintro (h | h)
        · exact h.symm
        · exact absurd (hs.1 _ h) (lt_irrefl _)
    · simp only [find, h1, if_false, List.mem_cons, Prod.mk.injEq, ih hs.2]
      constructor
      · intro h; exact Or.inr h
      · rintro (h | h)
        · exact absurd h.1.symm h1
        · exact h

theorem put_of_find (m : StdMap V) (hs : sorted m) (k : Nat) (v : V) (h : find m k = some v) :
    put m k v = m := by
  induction m with
  | nil => simp [find] at h
  | cons p m ih =>
    obtain ⟨k1, v1⟩ := p
    rw [sorted_cons] at hs
    by_cases h1 : k1 = k
    · subst h1
      simp only [find, if_true, Option.some.injEq] at h
      subst h
      simp [put]
    · simp only [find, h1, if_false] at h
      have hm := (find_eq_some_iff m hs.2 k v).1 h
      have hlt : k1 < k := hs.1 _ hm
      have h2 : ¬ k < k1 := by omega
      have h3 : ¬ k = k1 := fun e => h1 e.symm
      simp [put, h2, h3, ih hs.2 h]

end StdMap

/-! ## The width rounding -/

theorem lor_31 (x : Nat) : x ||| 31 = x / 32 * 32 + 31 := by
  apply Nat.eq_of_testBit_eq
  intro i
  have h31 : (31:Nat) = 2^5 - 1 := by norm_num
  rw [Nat.testBit_or, Nat.mul_comm, show (32:Nat) = 2^5 by norm_num,
    Nat.testBit_mul_pow_two_add _ (by norm_num : 31 < 2^5)]
  rw [h31, Nat.testBit_two_pow_sub_one]
  by_cases h : i < 5
  · simp [h]
  · simp only [h, decide_False, Bool.or_false, if_false]
    rw [← Nat.shiftRight_eq_div_pow, Nat.testBit_shiftRight]
    congr 1
    omega

theorem land_not_31 (x : Nat) (hx : x < 2^32) : x &&& 0xFFFFFFE0 = x / 32 * 32 := by
  apply Nat.eq_of_testBit_eq
  intro i
  have hm : (0xFFFFFFE0 : Nat) = 2^5 * (2^27 - 1) + 0 := by norm_num
  rw [Nat.testBit_and, hm, Nat.testBit_mul_pow_two_add _ (by norm_num : 0 < 2^5)]
  rw [Nat.mul_comm, show (32:Nat) = 2^5 by norm_num, ← Nat.add_zero (2^5 * (x / 2^5)),
    Nat.testBit_mul_pow_two_add _ (by norm_num : 0 < 2^5)]
  by_cases h : i < 5
  · simp [h]
  · simp only [h, if_false, Nat.testBit_two_pow_sub_one]
    rw [← Nat.shiftRight_eq_div_pow, Nat.testBit_shiftRight]
    have e : 5 + (i - 5) = i := by omega
    rw [e]
    by_cases h2 : i - 5 < 27
    · simp [h2]
    · simp only [h2, decide_False, Bool.and_false]
      symm
      apply Nat.testBit_lt_two_pow
      calc x < 2^32 := hx
        _ ≤ 2^i := Nat.pow_le_pow_right (by norm_num) (by omega)

theorem roundWords_eq (n : Nat) (h0 : 0 < n) (h1 : n ≤ 2^31 - 1) :
    roundWords n = (n + 31) / 32 := by
  unfold roundWords u32
  simp only []
  have e1 : (n + (2^32 - 1)) % 2^32 = n - 1 := by omega
  rw [e1, lor_31]
  have e2 : ((n - 1) / 32 * 32 + 31 + 1) % 2^32 = (n-1)/32*32 + 32 := by omega
  rw [e2]
  omega

theorem toU32_of_nat (n : Nat) (h : n < 2^32) : toU32 (n : Int) = n := by
  unfold toU32
  have : ((n : Int) % (2^32 : Int)) = (n : Int) := by omega
  rw [this]; simp

theorem setWords_ok (prec : LongoutRecord) (tbl : BitTable) (pvt : BitDev) (n : Nat)
    (hval : prec.val = (n : Int)) (h0 : 0 < n) (h1 : n ≤ 2^31 - 1) :
    bitTableSetWords prec tbl pvt =
      { ret := 0, prec := prec,
        table := { tbl with wordsPerEvent := (n + 31) / 32, bitsPerEvent := n, changing := true },
        pvt := pvt, scan := !tbl.changing } := by
  unfold bitTableSetWords
  have hpos : ¬ prec.val ≤ 0 := by rw [hval]; omega
  simp only [hpos, if_false]
  rw [hval, toU32_of_nat n (by omega), roundWords_eq n h0 h1]

theorem setWords_wf (prec : LongoutRecord) (tbl : BitTable) (pvt : BitDev)
    (hty : -(2 ^ 31 : Int) ≤ prec.val ∧ prec.val < 2 ^ 31) (hwf : tbl.wf) :
    (bitTableSetWords prec tbl pvt).table.wf := by
  by_cases hpos : prec.val ≤ 0
  · simp only [bitTableSetWords, hpos, if_true]; exact hwf
  · have hn : prec.val = ((prec.val.toNat : Nat) : Int) := by
      rw [Int.toNat_of_nonneg]; omega
    have h0 : 0 < prec.val.toNat := by omega
    have h1 : prec.val.toNat ≤ 2^31 - 1 := by omega
    rw [setWords_ok prec tbl pvt _ hn h0 h1]
    exact ⟨hwf.1, by show prec.val.toNat < 2^31; omega, rfl⟩

/-! ## The two blocks of bitTableUpdate -/

theorem cellActive_put (tab : StdMap (StdMap Bool)) (e : Nat) (row : StdMap Bool) (e1 a1 : Nat) :
    cellActive (tab.put e row) e1 a1 =
      if e1 = e then (row.find a1 == some true) else cellActive tab e1 a1 := by
  unfold cellActive
  rw [StdMap.find_put]
  by_cases h : e1 = e <;> simp [h]

theorem cellActive_erase (tab : StdMap (StdMap Bool)) (e e1 a1 : Nat) :
    cellActive (tab.erase e) e1 a1 = if e1 = e then false else cellActive tab e1 a1 := by
  unfold cellActive
  rw [StdMap.find_erase]
  by_cases h : e1 = e <;> simp [h]

theorem setNew_eq (tab : StdMap (StdMap Bool)) (e a : Nat) :
    setNew tab e a =
      if cellActive tab e a then (tab.put e ((tab.find e).getD []), true)
      else (tab.put e (((tab.find e).getD []).put a true), false) := by
  unfold setNew StdMap.index cellActive
  cases hrow : StdMap.find tab e with
  | none =>
    simp [StdMap.find, StdMap.put_put, StdMap.put]
  | some row =>
    cases hcell : StdMap.find row a with
    | none => simp [hcell, StdMap.put_put]
    | some b =>
      cases b <;> simp [hcell, StdMap.put_put]

theorem cellActive_row (tab : StdMap (StdMap Bool)) (e a : Nat) :
    cellActive tab e a = (((tab.find e).getD []).find a == some true) := by
  unfold cellActive
  cases hrow : StdMap.find tab e with
  | none => simp [StdMap.find]
  | some row => simp

theorem cellActive_setNew (tab : StdMap (StdMap Bool)) (e a e1 a1 : Nat) :
    cellActive (setNew tab e a).1 e1 a1 =
      (cellActive tab e1 a1 || (decide (e1 = e) && decide (a1 = a))) := by
  rw [setNew_eq]
  cases hact : cellActive tab e a with
  | true =>
    simp only [if_true, cellActive_put]
    by_cases h : e1 = e
    · subst h
      simp only [if_true, decide_True, Bool.true_and]
      rw [cellActive_row] at hact ⊢
      by_cases h2 : a1 = a
      · subst h2; simp [hact]
      · simp [h2]
    · simp [h]
  | false =>
    simp only [Bool.false_eq_true, if_false, cellActive_put]
    by_cases h : e1 = e
    · subst h
      simp only [if_true, decide_True, Bool.true_and, StdMap.find_put]
      by_cases h2 : a1 = a
      · subst h2; simp
      · simp only [h2, if_false, decide_False, Bool.or_false]
        rw [cellActive_row]
    · simp [h]

theorem setNew_dup (tab : StdMap (StdMap Bool)) (e a : Nat) :
    (setNew tab e a).2 = cellActive tab e a := by
  rw [setNew_eq]
  cases hact : cellActive tab e a <;> simp

theorem clearPrevious_zero (tab : StdMap (StdMap Bool)) (pvt : BitDev) (h : pvt.prevEvent = 0) :
    clearPrevious tab pvt = some (tab, pvt) := by
  simp [clearPrevious, h]

theorem clearPrevious_spec (tab tab1 : StdMap (StdMap Bool)) (pvt pvt1 : BitDev)
    (hp : pvt.prevEvent ≠ 0) (h : clearPrevious tab pvt = some (tab1, pvt1)) :
    pvt1 = { pvt with prevEvent := 0 } ∧
    ∀ e1 a1, cellActive tab1 e1 a1 =
      (cellActive tab e1 a1 &&
        !(decide (e1 = pvt.prevEvent) && decide (a1 = toU32 pvt.action))) := by
  unfold clearPrevious at h
  rw [if_pos hp] at h
  cases hrow : StdMap.find tab pvt.prevEvent with
  | none =>
    rw [hrow] at h
    have h0 := Option.some.inj h
    have h1 : tab = tab1 := congrArg Prod.fst h0
    have h2 : _ = pvt1 := congrArg Prod.snd h0
    subst h1
    refine ⟨h2.symm, ?_⟩
    intro e1 a1
    by_cases he : e1 = pvt.prevEvent
    · subst he; simp [cellActive, hrow]
    · simp [he]
  | some row =>
    rw [hrow] at h
    simp only at h
    cases her : (StdMap.find row (toU32 pvt.action)).isSome with
    | false => simp [her] at h
    | true =>
      rw [her] at h
      simp only [Bool.not_true, Bool.false_eq_true, if_false] at h
      cases hemp : (StdMap.erase row (toU32 pvt.action)).isEmpty with
      | true =>
        rw [hemp] at h
        simp only [if_true] at h
        have h0 := Option.some.inj h
        have h1 : _ = tab1 := congrArg Prod.fst h0
        have h2 : _ = pvt1 := congrArg Prod.snd h0
        subst h1
        refine ⟨h2.symm, ?_⟩
        intro e1 a1
        rw [cellActive_erase]
        by_cases he : e1 = pvt.prevEvent
        · subst he
          simp only [if_true, decide_True, Bool.true_and]
          by_cases ha : a1 = toU32 pvt.action
          · simp [ha]
          · simp only [ha, decide_False, Bool.not_false, Bool.and_true]
            have hnil : StdMap.erase row (toU32 pvt.action) = [] := by
              simpa [List.isEmpty_iff] using hemp
            have hf := StdMap.find_erase row (toU32 pvt.action) a1
            rw [hnil] at hf
            simp only [ha, if_false] at hf
            simp [cellActive, hrow, ← hf, StdMap.find]
        · simp [he]
      | false =>
        rw [hemp] at h
        simp only [Bool.false_eq_true, if_false] at h
        have h0 := Option.some.inj h
        have h1 : _ = tab1 := congrArg Prod.fst h0
        have h2 : _ = pvt1 := congrArg Prod.snd h0
        subst h1
        refine ⟨h2.symm, ?_⟩
        intro e1 a1
        rw [cellActive_put]
        by_cases he : e1 = pvt.prevEvent
        · subst he
          simp only [if_true, decide_True, Bool.true_and, StdMap.find_erase]
          by_cases ha : a1 = toU32 pvt.action
          · simp [ha]
          · simp [ha, cellActive, hrow]
        · simp [he]

theorem clearPrevious_some (tab : StdMap (StdMap Bool)) (pvt : BitDev)
    (h : pvt.prevEvent ≠ 0 → cellActive tab pvt.prevEvent (toU32 pvt.action) = true) :
    ∃ tab1, clearPrevious tab pvt = some (tab1, { pvt with prevEvent := 0 }) := by
  by_cases hp : pvt.prevEvent = 0
  · refine ⟨tab, ?_⟩
    rw [clearPrevious_zero tab pvt hp]
    cases pvt
    simp at hp
    simp [hp]
  · have hc := h hp
    unfold cellActive at hc
    unfold clearPrevious
    rw [if_pos hp]
    cases hrow : StdMap.find tab pvt.prevEvent with
    | none => simp [hrow] at hc
    | some row =>
      simp only [hrow, beq_iff_eq] at hc
      simp only [hc, Option.isSome_some, Bool.not_true, Bool.false_eq_true, if_false]
      cases hemp : (StdMap.erase row (toU32 pvt.action)).isEmpty with
      | true => exact ⟨_, rfl⟩
      | false => exact ⟨_, rfl⟩

/-! ## bitTableUpdate as a whole -/

theorem newEvent_of_code (prec : LongoutRecord) (e : Nat) (he : e ≤ 255)
    (hval : prec.val = (e : Int)) : coerceVal prec = prec := by
  have : ¬ (prec.val < 0 ∨ prec.val > 255) := by rw [hval]; omega
  unfold coerceVal
  rw [if_neg this]

theorem coerceVal_val (prec : LongoutRecord) :
    (coerceVal prec).val = (((coerceVal prec).val.toNat : Nat) : Int) ∧
      (coerceVal prec).val.toNat ≤ 255 := by
  unfold coerceVal
  by_cases h : prec.val < 0 ∨ prec.val > 255
  · rw [if_pos h]; simp
  · rw [if_neg h]
    constructor
    · rw [Int.toNat_of_nonneg]; omega
    · omega

theorem coerceVal_congr (prec prec2 : LongoutRecord) (h : prec2.val = prec.val) :
    (coerceVal prec2).val = (coerceVal prec).val := by
  unfold coerceVal
  by_cases h1 : prec.val < 0 ∨ prec.val > 255
  · rw [if_pos h1, if_pos (by rw [h]; exact h1)]
  · rw [if_neg h1, if_neg (by rw [h]; exact h1)]; exact h

theorem update_coerceVal (prec : LongoutRecord) (tbl : BitTable) (pvt : BitDev) :
    bitTableUpdate prec tbl pvt = bitTableUpdate (coerceVal prec) tbl pvt := by
  have h := coerceVal_val prec
  unfold bitTableUpdate
  rw [newEvent_of_code (coerceVal prec) _ h.2 h.1]

theorem update_of_code (prec : LongoutRecord) (tbl : BitTable) (pvt : BitDev) (e : Nat)
    (ha : 0 ≤ pvt.action) (he : e ≤ 255) (hval : prec.val = (e : Int))
    (hne : e ≠ pvt.prevEvent) (tab1 : StdMap (StdMap Bool)) (pvt1 : BitDev)
    (hclear : clearPrevious tbl.table pvt = some (tab1, pvt1)) :
    bitTableUpdate prec tbl pvt =
      if e ≠ 0 ∧ cellActive tab1 e (toU32 pvt.action) = true then
        some { ret := -1, prec := prec.setSevr INVALID_ALARM,
               table := { tbl with table := (setNew tab1 e (toU32 pvt.action)).1 },
               pvt := pvt1, scan := false }
      else
        some { ret := 0, prec := prec,
               table := { tbl with
                 table := if e ≠ 0 then (setNew tab1 e (toU32 pvt.action)).1 else tab1,
                 changing := true },
               pvt := { pvt1 with prevEvent := e }, scan := !tbl.changing } := by
  unfold bitTableUpdate
  rw [newEvent_of_code prec e he hval]
  have hne1 : prec.val.toNat % 256 = e := by rw [hval]; simp; omega
  have hna : ¬ pvt.action < 0 := by omega
  simp only [hne1, hna, if_false, hne, hclear]
  by_cases h0 : e = 0
  · simp [h0]
  · simp only [ne_eq, h0, not_false_eq_true, if_true, true_and, setNew_dup]

theorem setNew_again (tab : StdMap (StdMap Bool)) (e a : Nat)
    (h : cellActive tab e a = true) :
    (setNew (setNew tab e a).1 e a).1 = (setNew tab e a).1 := by
  have h2 : cellActive (setNew tab e a).1 e a = true := by
    rw [cellActive_setNew]; simp
  rw [setNew_eq (setNew tab e a).1, h2]
  simp only [if_true]
  rw [setNew_eq tab, h]
  simp only [if_true, StdMap.find_put, Option.getD_some, StdMap.put_put]

theorem toU32_action (pvt : BitDev) (a : Nat) (hact : pvt.action = (a : Int)) (ha : a < 2 ^ 31) :
    toU32 pvt.action = a := by
  rw [hact]; exact toU32_of_nat a (by omega)

/-- C2. A duplicate update strands the binding. A binding with action `a`
mapped to the event `p ≠ 0` is updated to another non-zero event `e` whose cell
`(e, a)` is already in the table: the call returns the error status -1, the
cell `(p, a)` is gone, `(e, a)` is still present and `prevEvent` is 0. A later
update of that binding to an event `f` whose cell is free returns 0 and
inserts `(f, a)`. -/
theorem update_duplicate_strands (prec : LongoutRecord) (tbl : BitTable) (pvt : BitDev)
    (a e : Nat) (hact : pvt.action = (a : Int)) (ha : a < 2 ^ 31)
    (hp : pvt.prevEvent ≠ 0) (hmap : tbl.holds pvt.prevEvent a = true)
    (he0 : e ≠ 0) (hep : e ≠ pvt.prevEvent) (he : e ≤ 255) (hval : prec.val = (e : Int))
    (hdup : tbl.holds e a = true) :
    ∃ r, bitTableUpdate prec tbl pvt = some r ∧ r.ret = -1 ∧
      r.table.holds pvt.prevEvent a = false ∧ r.table.holds e a = true ∧
      r.pvt.prevEvent = 0 ∧ r.pvt.action = pvt.action ∧
      ∀ (prec2 : LongoutRecord) (f : Nat), f ≠ 0 → f ≤ 255 → prec2.val = (f : Int) →
        r.table.holds f a = false →
        ∃ r2, bitTableUpdate prec2 r.table r.pvt = some r2 ∧ r2.ret = 0 ∧
          r2.table.holds f a = true ∧ r2.pvt.prevEvent = f ∧ r2.table.holds e a = true := by
  have hkey := toU32_action pvt a hact ha
  have hnn : 0 ≤ pvt.action := by rw [hact]; omega
  obtain ⟨tab1, hclear⟩ := clearPrevious_some tbl.table pvt
    (fun _ => by rw [hkey]; exact hmap)
  obtain ⟨_, hcells⟩ := clearPrevious_spec tbl.table tab1 pvt _ hp hclear
  have hdup1 : cellActive tab1 e a = true := by
    rw [← hkey, hcells, hkey]
    have : cellActive tbl.table e a = true := hdup
    simp [this, hep]
  have hrun := update_of_code prec tbl pvt e hnn he hval hep tab1 _ hclear
  rw [hkey] at hrun
  rw [if_pos ⟨he0, hdup1⟩] at hrun
  refine ⟨_, hrun, rfl, ?_, ?_, rfl, rfl, ?_⟩
  · show cellActive (setNew tab1 e a).1 pvt.prevEvent a = false
    rw [cellActive_setNew, ← hkey, hcells]
    have : ¬ pvt.prevEvent = e := fun h => hep h.symm
    simp [this]
  · show cellActive (setNew tab1 e a).1 e a = true
    rw [cellActive_setNew]; simp
  · intro prec2 f hf0 hf hval2 hfree
    have hfree1 : cellActive (setNew tab1 e a).1 f a = false := hfree
    have hnn2 : 0 ≤ ({ pvt with prevEvent := 0 } : BitDev).action := hnn
    have hrun2 := update_of_code prec2
      { tbl with table := (setNew tab1 e a).1 } { pvt with prevEvent := 0 } f hnn2 hf hval2 hf0
      (setNew tab1 e a).1 { pvt with prevEvent := 0 } (clearPrevious_zero _ _ rfl)
    simp only [hkey] at hrun2
    rw [if_neg (by simp [hfree1])] at hrun2
    refine ⟨_, hrun2, rfl, ?_, rfl, ?_⟩
    · show cellActive (if f ≠ 0 then (setNew (setNew tab1 e a).1 f a).1 else _) f a = true
      rw [if_pos hf0, cellActive_setNew]; simp
    · show cellActive (if f ≠ 0 then (setNew (setNew tab1 e a).1 f a).1 else _) e a = true
      rw [if_pos hf0, cellActive_setNew, cellActive_setNew]; simp

theorem update_noop (prec : LongoutRecord) (tbl : BitTable) (pvt : BitDev) (e : Nat)
    (ha : 0 ≤ pvt.action) (he : e ≤ 255) (hval : prec.val = (e : Int))
    (heq : e = pvt.prevEvent) :
    bitTableUpdate prec tbl pvt =
      some { ret := 0, prec := prec, table := tbl, pvt := pvt, scan := false } := by
  unfold bitTableUpdate
  rw [newEvent_of_code prec e he hval]
  have hne1 : prec.val.toNat % 256 = e := by rw [hval]; simp; omega
  have hna : ¬ pvt.action < 0 := by omega
  simp only [hne1, hna, if_false, heq, if_true]

theorem update_returns (prec : LongoutRecord) (tbl : BitTable) (pvt : BitDev)
    (hcons : pvt.prevEvent ≠ 0 → tbl.holds pvt.prevEvent (toU32 pvt.action) = true) :
    ∃ r, bitTableUpdate prec tbl pvt = some r := by
  by_cases ha : pvt.action < 0
  · unfold bitTableUpdate
    simp only [ha, if_true]
    exact ⟨_, rfl⟩
  · rw [update_coerceVal]
    obtain ⟨hval, he⟩ := coerceVal_val prec
    by_cases heq : (coerceVal prec).val.toNat = pvt.prevEvent
    · exact ⟨_, update_noop _ tbl pvt _ (by omega) he hval heq⟩
    · obtain ⟨tab1, hclear⟩ := clearPrevious_some tbl.table pvt hcons
      rw [update_of_code _ tbl pvt _ (by omega) he hval heq tab1 _ hclear]
      by_cases hd : (coerceVal prec).val.toNat ≠ 0 ∧
          cellActive tab1 (coerceVal prec).val.toNat (toU32 pvt.action) = true
      · rw [if_pos hd]; exact ⟨_, rfl⟩
      · rw [if_neg hd]; exact ⟨_, rfl⟩

theorem clearPrevious_pvt (tab tab1 : StdMap (StdMap Bool)) (pvt pvt1 : BitDev)
    (h : clearPrevious tab pvt = some (tab1, pvt1)) :
    pvt1 = { pvt with prevEvent := 0 } := by
  by_cases hp : pvt.prevEvent = 0
  · rw [clearPrevious_zero tab pvt hp] at h
    have h2 : pvt = pvt1 := congrArg Prod.snd (Option.some.inj h)
    subst h2
    cases pvt
    simp at hp
    simp [hp]
  · exact (clearPrevious_spec tab tab1 pvt pvt1 hp h).1

/-- C8. `bitTableUpdate` is idempotent. For a binding with a non-negative
action, when a first call with a value returns, a second call with the same
value returns too and leaves the table and the binding as the first call left
them; when the first call returned 0 the second returns 0 and requests no
scan. The first call returns whenever the previous cell of the binding is in
the table. -/
theorem update_idempotent (prec prec2 : LongoutRecord) (tbl : BitTable) (pvt : BitDev)
    (ha : 0 ≤ pvt.action) (hsame : prec2.val = prec.val) :
    (∀ r1, bitTableUpdate prec tbl pvt = some r1 →
      ∃ r2, bitTableUpdate prec2 r1.table r1.pvt = some r2 ∧
        r2.table = r1.table ∧ r2.pvt = r1.pvt ∧
        (r1.ret = 0 → r2.ret = 0 ∧ r2.scan = false)) ∧
    ((pvt.prevEvent ≠ 0 → tbl.holds pvt.prevEvent (toU32 pvt.action) = true) →
      ∃ r1, bitTableUpdate prec tbl pvt = some r1) := by
  refine ⟨?_, update_returns prec tbl pvt⟩
  intro r1 h1
  rw [update_coerceVal] at h1
  rw [update_coerceVal prec2]
  obtain ⟨hval, he⟩ := coerceVal_val prec
  have hvv := coerceVal_congr prec prec2 hsame
  generalize coerceVal prec2 = q2 at hvv
  generalize hq : coerceVal prec = q at h1 hval he hvv
  generalize he' : q.val.toNat = e at h1 hval he
  have hval2 : q2.val = (e : Int) := hvv.trans hval
  by_cases heq : e = pvt.prevEvent
  · rw [update_noop q tbl pvt e ha he hval heq] at h1
    have h1' := Option.some.inj h1
    subst h1'
    exact ⟨_, update_noop q2 tbl pvt e ha he hval2 heq, rfl, rfl, fun _ => ⟨rfl, rfl⟩⟩
  · cases hclear : clearPrevious tbl.table pvt with
    | none =>
      unfold bitTableUpdate at h1
      rw [newEvent_of_code q e he hval] at h1
      have hne1 : q.val.toNat % 256 = e := by rw [he']; omega
      have hna : ¬ pvt.action < 0 := by omega
      simp [hne1, hna, heq, hclear] at h1
    | some pr =>
      obtain ⟨tab1, pvt1⟩ := pr
      have hpvt1 := clearPrevious_pvt _ _ _ _ hclear
      subst hpvt1
      rw [update_of_code q tbl pvt e ha he hval heq tab1 _ hclear] at h1
      by_cases hd : e ≠ 0 ∧ cellActive tab1 e (toU32 pvt.action) = true
      · rw [if_pos hd] at h1
        have h1' := Option.some.inj h1
        subst h1'
        have hz : clearPrevious (setNew tab1 e (toU32 pvt.action)).1
            ({ pvt with prevEvent := 0 } : BitDev) = some (_, _) :=
          clearPrevious_zero _ _ rfl
        have hrun2 := update_of_code q2
          { tbl with table := (setNew tab1 e (toU32 pvt.action)).1 }
          { pvt with prevEvent := 0 } e ha he hval2 hd.1 _ _ hz
        have hd2 : e ≠ 0 ∧ cellActive (setNew tab1 e (toU32 pvt.action)).1 e
            (toU32 pvt.action) = true := ⟨hd.1, by rw [cellActive_setNew]; simp⟩
        rw [if_pos hd2] at hrun2
        refine ⟨_, hrun2, ?_, rfl, ?_⟩
        · show ({ tbl with table := _ } : BitTable) = _
          rw [setNew_again tab1 e _ hd.2]
        · intro h; simp at h
      · rw [if_neg hd] at h1
        have h1' := Option.some.inj h1
        subst h1'
        exact ⟨_, update_noop q2 _ _ e ha he hval2 rfl, rfl, rfl, fun _ => ⟨rfl, rfl⟩⟩

theorem find_none_of_inactive (tab : StdMap (StdMap Bool)) (e a : Nat) (row : StdMap Bool)
    (hwf : rowsWf tab) (hfull : rowsFull tab) (hrow : tab.find e = some row)
    (hfree : cellActive tab e a = false) : row.find a = none := by
  have hmem := (StdMap.find_eq_some_iff tab hwf.1 e row).1 hrow
  have hs := (hwf.2 _ hmem).2
  have hf := (hfull _ hmem).2
  cases hc : StdMap.find row a with
  | none => rfl
  | some b =>
    have hb := hf _ ((StdMap.find_eq_some_iff row hs a b).1 hc)
    simp only at hb
    subst hb
    simp [cellActive, hrow, hc] at hfree

theorem clearPrevious_after_set (tab : StdMap (StdMap Bool)) (pvt : BitDev) (e : Nat)
    (hwf : rowsWf tab) (hfull : rowsFull tab) (he : e ≠ 0)
    (hfree : cellActive tab e (toU32 pvt.action) = false) :
    clearPrevious (tab.put e (((tab.find e).getD []).put (toU32 pvt.action) true))
      { pvt with prevEvent := e } = some (tab, { pvt with prevEvent := 0 }) := by
  unfold clearPrevious
  simp only [ne_eq, he, not_false_eq_true, if_true, StdMap.find_put, StdMap.erase_put,
    Option.isSome_some, Bool.not_true, Bool.false_eq_true, if_false]
  cases hrow : StdMap.find tab e with
  | none =>
    simp only [Option.getD_none, StdMap.erase, List.isEmpty_nil, if_true]
    rw [StdMap.erase_of_find_none tab e hrow]
  | some row =>
    have hnone := find_none_of_inactive tab e _ row hwf hfull hrow hfree
    have hmem := (StdMap.find_eq_some_iff tab hwf.1 e row).1 hrow
    have hne : row ≠ [] := (hfull _ hmem).1
    simp only [Option.getD_some]
    rw [StdMap.erase_of_find_none row _ hnone]
    have : row.isEmpty = false := by
      cases row with
      | nil => exact absurd rfl hne
      | cons _ _ => rfl
    rw [this]
    simp only [Bool.false_eq_true, if_false, StdMap.put_put]
    rw [StdMap.put_of_find tab hwf.1 e row hrow]

/-- C9 (amended). On a well-formed table without empty rows or inactive cells,
for a binding with action `a` that is not mapped (`prevEvent = 0`) and an event
`e ≤ 255` whose cell `(e, a)` is not in the table, `update(e)` followed by
`update(0)` both return 0 and leave the map, the widths and the binding as
they were before the first call. -/
theorem update_then_zero_restores (prec prec0 : LongoutRecord) (tbl : BitTable) (pvt : BitDev)
    (a e : Nat) (hact : pvt.action = (a : Int)) (ha : a < 2 ^ 31)
    (hprev : pvt.prevEvent = 0) (he : e ≤ 255) (hval : prec.val = (e : Int))
    (hval0 : prec0.val = 0) (hwf : rowsWf tbl.table) (hfull : rowsFull tbl.table)
    (hfree : tbl.holds e a = false) :
    ∃ r1 r2, bitTableUpdate prec tbl pvt = some r1 ∧ r1.ret = 0 ∧
      bitTableUpdate prec0 r1.table r1.pvt = some r2 ∧ r2.ret = 0 ∧
      r2.table.table = tbl.table ∧ r2.table.bitsPerEvent = tbl.bitsPerEvent ∧
      r2.table.wordsPerEvent = tbl.wordsPerEvent ∧ r2.pvt = pvt := by
  have hkey := toU32_action pvt a hact ha
  have hnn : 0 ≤ pvt.action := by rw [hact]; omega
  have hval0' : prec0.val = ((0 : Nat) : Int) := by simpa using hval0
  have hpvt : ({ pvt with prevEvent := 0 } : BitDev) = pvt := by
    cases pvt; simp at hprev; simp [hprev]
  by_cases h0 : e = 0
  · subst h0
    have h1 := update_noop prec tbl pvt 0 hnn he hval hprev.symm
    have h2 := update_noop prec0 tbl pvt 0 hnn he hval0' hprev.symm
    exact ⟨_, _, h1, rfl, h2, rfl, rfl, rfl, rfl, rfl⟩
  · have hne : e ≠ pvt.prevEvent := by rw [hprev]; exact h0
    have h1 := update_of_code prec tbl pvt e hnn he hval hne _ _
      (clearPrevious_zero tbl.table pvt hprev)
    have hfree1 : cellActive tbl.table e (toU32 pvt.action) = false := by
      rw [hkey]; exact hfree
    rw [if_neg (by simp [hfree1]), if_pos h0, setNew_eq, hfree1] at h1
    simp only [Bool.false_eq_true, if_false] at h1
    have hcl := clearPrevious_after_set tbl.table pvt e hwf hfull h0 hfree1
    have h2 := update_of_code prec0
      { tbl with table := tbl.table.put e (((tbl.table.find e).getD []).put
          (toU32 pvt.action) true), changing := true }
      { pvt with prevEvent := e } 0 hnn (by omega) hval0' (Ne.symm h0) _ _ hcl
    rw [if_neg (by simp)] at h2
    simp only [ne_eq, not_true_eq_false, if_false] at h2
    exact ⟨_, _, h1, rfl, h2, rfl, rfl, rfl, rfl, hpvt⟩

/-- C9 (counterexample). A binding with action 0 mapped to event 100 is updated
to the free event 200 and then to 0: both calls return 0 and the table ends
empty, while it held `(100, 0)` before the first call. -/
theorem update_then_zero_loses_previous :
    ∃ r1 r2, bitTableUpdate { val := 200, nsev := 0 }
        { bitsPerEvent := 4, wordsPerEvent := 1, table := [(100, [(0, true)])],
          changing := false } { action := 0, prevEvent := 100 } = some r1 ∧
      bitTableUpdate { val := 0, nsev := 0 } r1.table r1.pvt = some r2 ∧
      r1.ret = 0 ∧ r2.ret = 0 ∧ r2.table.table = [] ∧
      r2.table.table ≠ [(100, [(0, true)])] ∧
      cellActive [(100, [(0, true)])] 200 0 = false := by
  refine ⟨_, _, rfl, rfl, ?_⟩
  decide

/-- C5. `bitTableSetWords` rejects a non-positive width: it returns -1, raises
the INVALID alarm, leaves the whole table state (widths, map and `changing`)
and the binding unchanged and requests no scan. -/
theorem setWords_rejects_nonpositive (prec : LongoutRecord) (tbl : BitTable) (pvt : BitDev)
    (hval : prec.val ≤ 0) :
    (bitTableSetWords prec tbl pvt).ret = -1 ∧
    (bitTableSetWords prec tbl pvt).table = tbl ∧
    (bitTableSetWords prec tbl pvt).scan = false ∧
    (bitTableSetWords prec tbl pvt).pvt = pvt ∧
    (bitTableSetWords prec tbl pvt).prec.nsev = max prec.nsev INVALID_ALARM := by
  unfold bitTableSetWords
  rw [if_pos hval]
  exact ⟨rfl, rfl, rfl, rfl, rfl⟩

/-- C7 (amended). For a table whose array size `256 * wordsPerEvent` fits 32
bits and an unsigned aai record with fewer elements than that, `bitTableRead`
returns -1 with the INVALID alarm; the widths, the map, the record buffer and
`nord` are unchanged, and `changing` is cleared. -/
theorem read_short_buffer (prec : AaiRecord) (tbl : BitTable)
    (hftvl : prec.ftvlULong = true) (hfit : 256 * tbl.wordsPerEvent < 2 ^ 32)
    (hcap : prec.nelm < 256 * tbl.wordsPerEvent) :
    bitTableRead prec tbl =
      some { ret := -1, prec := prec.setSevr INVALID_ALARM,
             table := { tbl with changing := false } } := by
  unfold bitTableRead
  have hc : u32 (nEvents * tbl.wordsPerEvent) = 256 * tbl.wordsPerEvent := by
    unfold u32 nEvents; omega
  have hf : ¬ ((!prec.ftvlULong) = true) := by simp [hftvl]
  rw [if_neg hf]
  simp only [hc]
  rw [if_pos hcap]

/-- C7 (counterexample). A read into a two-word record from a table of width 4
whose `changing` flag is set returns -1 and leaves `changing` clear: the table
state after the call differs from the state before it. -/
theorem read_short_buffer_clears_changing :
    ∃ r, bitTableRead { ftvlULong := true, bptr := [7, 7], nord := 0, nsev := 0 }
        { bitsPerEvent := 4, wordsPerEvent := 1, table := [], changing := true } = some r ∧
      r.ret = -1 ∧ r.table.changing = false ∧
      r.table ≠ { bitsPerEvent := 4, wordsPerEvent := 1, table := [], changing := true } := by
  refine ⟨_, rfl, ?_⟩
  decide

/-- Outside the duplicate error every change of the table is announced: a
returning `bitTableUpdate` with status 0 either leaves the table as it was
without a scan request, or leaves `changing` set and requests the scan exactly
when `changing` was clear before; `bitTableSetWords` with status 0 does the
latter. -/
theorem success_announced (prec : LongoutRecord) (tbl : BitTable) (pvt : BitDev) :
    (∀ r, bitTableUpdate prec tbl pvt = some r → r.ret = 0 →
      (r.table = tbl ∧ r.scan = false) ∨
      (r.table.changing = true ∧ r.scan = !tbl.changing)) ∧
    ((bitTableSetWords prec tbl pvt).ret = 0 →
      (bitTableSetWords prec tbl pvt).table.changing = true ∧
      (bitTableSetWords prec tbl pvt).scan = !tbl.changing) := by
  constructor
  · intro r h hret
    by_cases ha : pvt.action < 0
    · unfold bitTableUpdate at h
      simp only [ha, if_true] at h
      have h1 := Option.some.inj h
      subst h1
      simp at hret
    · rw [update_coerceVal] at h
      obtain ⟨hval, he⟩ := coerceVal_val prec
      generalize coerceVal prec = q at h hval he
      generalize q.val.toNat = e at h hval he
      by_cases heq : e = pvt.prevEvent
      · rw [update_noop q tbl pvt e (by omega) he hval heq] at h
        have h1 := Option.some.inj h
        subst h1
        exact Or.inl ⟨rfl, rfl⟩
      · cases hclear : clearPrevious tbl.table pvt with
        | none =>
          unfold bitTableUpdate at h
          rw [newEvent_of_code q e he hval] at h
          have hne1 : q.val.toNat % 256 = e := by rw [hval]; simp; omega
          simp [hne1, ha, heq, hclear] at h
        | some pr =>
          obtain ⟨tab1, pvt1⟩ := pr
          rw [update_of_code q tbl pvt e (by omega) he hval heq tab1 _ hclear] at h
          by_cases hd : e ≠ 0 ∧ cellActive tab1 e (toU32 pvt.action) = true
          · rw [if_pos hd] at h
            have h1 := Option.some.inj h
            subst h1
            simp at hret
          · rw [if_neg hd] at h
            have h1 := Option.some.inj h
            subst h1
            exact Or.inr ⟨rfl, rfl⟩
  · unfold bitTableSetWords
    by_cases hv : prec.val ≤ 0
    · rw [if_pos hv]; intro h; simp at h
    · rw [if_neg hv]; intro _; exact ⟨rfl, rfl⟩

/-- C10 (failing input). Table `{(100, 0), (255, 0)}` with `changing` clear; the
binding with action 0 mapped to 255 is updated to 100. The call removes
`(255, 0)` from the table and returns -1 on the duplicate, with `changing`
still clear and no scan requested. -/
theorem update_duplicate_unannounced :
    bitTableUpdate { val := 100, nsev := 0 }
        { bitsPerEvent := 4, wordsPerEvent := 1,
          table := [(100, [(0, true)]), (255, [(0, true)])], changing := false }
        { action := 0, prevEvent := 255 } =
      some { ret := -1, prec := { val := 100, nsev := INVALID_ALARM },
             table := { bitsPerEvent := 4, wordsPerEvent := 1,
                        table := [(100, [(0, true)])], changing := false },
             pvt := { action := 0, prevEvent := 0 }, scan := false } := by
  decide

/-! ## Preservation of the representation invariants -/

theorem put_ne_nil {V : Type} (m : StdMap V) (k : Nat) (v : V) : StdMap.put m k v ≠ [] := by
  cases m with
  | nil => simp [StdMap.put]
  | cons p m =>
    obtain ⟨k1, v1⟩ := p
    simp only [StdMap.put]
    split_ifs <;> simp

theorem rowsWf_put (tab : StdMap (StdMap Bool)) (e : Nat) (row : StdMap Bool)
    (hwf : rowsWf tab) (he : e < 256) (hrow : row.sorted) : rowsWf (tab.put e row) := by
  refine ⟨StdMap.sorted_put tab e row hwf.1, ?_⟩
  intro p hp
  rcases StdMap.mem_put tab e row p hp with h | h
  · subst h; exact ⟨he, hrow⟩
  · exact hwf.2 p h

theorem rowsWf_erase (tab : StdMap (StdMap Bool)) (e : Nat) (hwf : rowsWf tab) :
    rowsWf (tab.erase e) := by
  refine ⟨StdMap.sorted_erase tab e hwf.1, ?_⟩
  intro p hp
  exact hwf.2 p ((StdMap.mem_erase tab e p).1 hp).1

theorem rowsFull_put (tab : StdMap (StdMap Bool)) (e : Nat) (row : StdMap Bool)
    (hfull : rowsFull tab) (hne : row ≠ []) (hrow : ∀ q ∈ row, q.2 = true) :
    rowsFull (tab.put e row) := by
  intro p hp
  rcases StdMap.mem_put tab e row p hp with h | h
  · subst h; exact ⟨hne, hrow⟩
  · exact hfull p h

theorem rowsFull_erase (tab : StdMap (StdMap Bool)) (e : Nat) (hfull : rowsFull tab) :
    rowsFull (tab.erase e) := by
  intro p hp
  exact hfull p ((StdMap.mem_erase tab e p).1 hp).1

theorem clearPrevious_wf (tab tab1 : StdMap (StdMap Bool)) (pvt pvt1 : BitDev)
    (hwf : rowsWf tab) (hfull : rowsFull tab)
    (h : clearPrevious tab pvt = some (tab1, pvt1)) : rowsWf tab1 ∧ rowsFull tab1 := by
  unfold clearPrevious at h
  by_cases hp : pvt.prevEvent ≠ 0
  · rw [if_pos hp] at h
    cases hrow : StdMap.find tab pvt.prevEvent with
    | none =>
      rw [hrow] at h
      have h1 : tab = tab1 := congrArg Prod.fst (Option.some.inj h)
      subst h1; exact ⟨hwf, hfull⟩
    | some row =>
      rw [hrow] at h
      simp only at h
      have hmem := (StdMap.find_eq_some_iff tab hwf.1 _ row).1 hrow
      cases her : (StdMap.find row (toU32 pvt.action)).isSome with
      | false => simp [her] at h
      | true =>
        rw [her] at h
        simp only [Bool.not_true, Bool.false_eq_true, if_false] at h
        cases hemp : (StdMap.erase row (toU32 pvt.action)).isEmpty with
        | true =>
          rw [hemp] at h
          simp only [if_true] at h
          have h1 : _ = tab1 := congrArg Prod.fst (Option.some.inj h)
          subst h1
          exact ⟨rowsWf_erase tab _ hwf, rowsFull_erase tab _ hfull⟩
        | false =>
          rw [hemp] at h
          simp only [Bool.false_eq_true, if_false] at h
          have h1 : _ = tab1 := congrArg Prod.fst (Option.some.inj h)
          subst h1
          refine ⟨rowsWf_put tab _ _ hwf (hwf.2 _ hmem).1
            (StdMap.sorted_erase row _ (hwf.2 _ hmem).2), rowsFull_put tab _ _ hfull ?_ ?_⟩
          · intro hnil; rw [hnil] at hemp; simp at hemp
          · intro q hq
            exact (hfull _ hmem).2 q ((StdMap.mem_erase row _ q).1 hq).1
  · rw [if_neg hp] at h
    have h1 : tab = tab1 := congrArg Prod.fst (Option.some.inj h)
    subst h1; exact ⟨hwf, hfull⟩

theorem setNew_wf (tab : StdMap (StdMap Bool)) (e a : Nat)
    (hwf : rowsWf tab) (hfull : rowsFull tab) (he : e < 256) :
    rowsWf (setNew tab e a).1 ∧ rowsFull (setNew tab e a).1 := by
  have hrow0 : ((tab.find e).getD []).sorted ∧ ∀ q ∈ (tab.find e).getD [], q.2 = true := by
    cases hrow : StdMap.find tab e with
    | none => simp [StdMap.sorted]
    | some row =>
      have hmem := (StdMap.find_eq_some_iff tab hwf.1 _ row).1 hrow
      exact ⟨(hwf.2 _ hmem).2, (hfull _ hmem).2⟩
  rw [setNew_eq]
  cases hact : cellActive tab e a with
  | true =>
    simp only [if_true]
    cases hrow : StdMap.find tab e with
    | none => simp [cellActive, hrow] at hact
    | some row =>
      simp only [Option.getD_some]
      rw [StdMap.put_of_find tab hwf.1 e row hrow]
      exact ⟨hwf, hfull⟩
  | false =>
    simp only [Bool.false_eq_true, if_false]
    refine ⟨rowsWf_put tab e _ hwf he (StdMap.sorted_put _ a true hrow0.1),
      rowsFull_put tab e _ hfull (put_ne_nil _ a true) ?_⟩
    intro q hq
    rcases StdMap.mem_put _ a true q hq with h | h
    · subst h; rfl
    · exact hrow0.2 q h

theorem update_table (prec : LongoutRecord) (tbl : BitTable) (pvt : BitDev) (r : WriteResult)
    (h : bitTableUpdate prec tbl pvt = some r) :
    r.table.bitsPerEvent = tbl.bitsPerEvent ∧ r.table.wordsPerEvent = tbl.wordsPerEvent ∧
    (rowsWf tbl.table → rowsFull tbl.table → rowsWf r.table.table ∧ rowsFull r.table.table) := by
  by_cases ha : pvt.action < 0
  · unfold bitTableUpdate at h
    simp only [ha, if_true] at h
    have h1 := Option.some.inj h
    subst h1
    exact ⟨rfl, rfl, fun h1 h2 => ⟨h1, h2⟩⟩
  · rw [update_coerceVal] at h
    obtain ⟨hval, he⟩ := coerceVal_val prec
    generalize coerceVal prec = q at h hval he
    generalize q.val.toNat = e at h hval he
    by_cases heq : e = pvt.prevEvent
    · rw [update_noop q tbl pvt e (by omega) he hval heq] at h
      have h1 := Option.some.inj h
      subst h1
      exact ⟨rfl, rfl, fun h1 h2 => ⟨h1, h2⟩⟩
    · cases hclear : clearPrevious tbl.table pvt with
      | none =>
        unfold bitTableUpdate at h
        rw [newEvent_of_code q e he hval] at h
        have hne1 : q.val.toNat % 256 = e := by rw [hval]; simp; omega
        simp [hne1, ha, heq, hclear] at h
      | some pr =>
        obtain ⟨tab1, pvt1⟩ := pr
        rw [update_of_code q tbl pvt e (by omega) he hval heq tab1 _ hclear] at h
        by_cases hd : e ≠ 0 ∧ cellActive tab1 e (toU32 pvt.action) = true
        · rw [if_pos hd] at h
          have h1 := Option.some.inj h
          subst h1
          refine ⟨rfl, rfl, fun h1 h2 => ?_⟩
          have hc := clearPrevious_wf _ _ _ _ h1 h2 hclear
          exact setNew_wf tab1 e _ hc.1 hc.2 (by omega)
        · rw [if_neg hd] at h
          have h1 := Option.some.inj h
          subst h1
          refine ⟨rfl, rfl, fun h1 h2 => ?_⟩
          have hc := clearPrevious_wf _ _ _ _ h1 h2 hclear
          show rowsWf (if e ≠ 0 then _ else _) ∧ rowsFull (if e ≠ 0 then _ else _)
          by_cases h0 : e ≠ 0
          · rw [if_pos h0]; exact setNew_wf tab1 e _ hc.1 hc.2 (by omega)
          · rw [if_neg h0]; exact hc

theorem read_table (prec : AaiRecord) (tbl : BitTable) (r : ReadResult)
    (h : bitTableRead prec tbl = some r) :
    r.table.bitsPerEvent = tbl.bitsPerEvent ∧ r.table.wordsPerEvent = tbl.wordsPerEvent ∧
    r.table.table = tbl.table := by
  unfold bitTableRead at h
  by_cases hf : (!prec.ftvlULong) = true
  · rw [if_pos hf] at h
    have h1 := Option.some.inj h
    subst h1; exact ⟨rfl, rfl, rfl⟩
  · rw [if_neg hf] at h
    simp only at h
    by_cases hc : prec.nelm < u32 (nEvents * tbl.wordsPerEvent)
    · rw [if_pos hc] at h
      have h1 := Option.some.inj h
      subst h1; exact ⟨rfl, rfl, rfl⟩
    · rw [if_neg hc] at h
      split at h
      · exact absurd h (by simp)
      · have h1 := Option.some.inj h
        subst h1; exact ⟨rfl, rfl, rfl⟩

/-! ## The cells of the table and their owners -/

theorem clearPrevious_cells (tab tab1 : StdMap (StdMap Bool)) (pvt pvt1 : BitDev)
    (h : clearPrevious tab pvt = some (tab1, pvt1)) (e1 a1 : Nat) :
    cellActive tab1 e1 a1 =
      (cellActive tab e1 a1 && !(decide (pvt.prevEvent ≠ 0) && decide (e1 = pvt.prevEvent)
        && decide (a1 = toU32 pvt.action))) := by
  by_cases hp : pvt.prevEvent = 0
  · rw [clearPrevious_zero tab pvt hp] at h
    have h1 : tab = tab1 := congrArg Prod.fst (Option.some.inj h)
    subst h1
    simp [hp]
  · rw [(clearPrevious_spec tab tab1 pvt pvt1 hp h).2]
    simp [hp]

/-- What a returning call of `bitTableUpdate` does to the cells of the table
and to the binding: nothing, or the previous cell is cleared and, when `set`,
the new one is inserted. -/
theorem update_cells (prec : LongoutRecord) (tbl : BitTable) (pvt : BitDev) (r : WriteResult)
    (h : bitTableUpdate prec tbl pvt = some r) :
    (r.table = tbl ∧ r.pvt = pvt) ∨
    (0 ≤ pvt.action ∧ ∃ (set : Bool) (e : Nat),
      (set = true → e ≠ 0 ∧ e ≤ 255 ∧ tbl.holds e (toU32 pvt.action) = false) ∧
      r.pvt = { pvt with prevEvent := if set then e else 0 } ∧
      ∀ e1 a1, r.table.holds e1 a1 =
        ((tbl.holds e1 a1 && !(decide (pvt.prevEvent ≠ 0) && decide (e1 = pvt.prevEvent)
            && decide (a1 = toU32 pvt.action)))
          || (set && decide (e1 = e) && decide (a1 = toU32 pvt.action)))) := by
  by_cases ha : pvt.action < 0
  · unfold bitTableUpdate at h
    simp only [ha, if_true] at h
    have h1 := Option.some.inj h
    subst h1
    exact Or.inl ⟨rfl, rfl⟩
  · rw [update_coerceVal] at h
    obtain ⟨hval, he⟩ := coerceVal_val prec
    generalize coerceVal prec = q at h hval he
    generalize q.val.toNat = e at h hval he
    by_cases heq : e = pvt.prevEvent
    · rw [update_noop q tbl pvt e (by omega) he hval heq] at h
      have h1 := Option.some.inj h
      subst h1
      exact Or.inl ⟨rfl, rfl⟩
    · cases hclear : clearPrevious tbl.table pvt with
      | none =>
        unfold bitTableUpdate at h
        rw [newEvent_of_code q e he hval] at h
        have hne1 : q.val.toNat % 256 = e := by rw [hval]; simp; omega
        simp [hne1, ha, heq, hclear] at h
      | some pr =>
        obtain ⟨tab1, pvt1⟩ := pr
        have hpvt1 := clearPrevious_pvt _ _ _ _ hclear
        have hcells := clearPrevious_cells _ _ _ _ hclear
        subst hpvt1
        rw [update_of_code q tbl pvt e (by omega) he hval heq tab1 _ hclear] at h
        right
        refine ⟨by omega, ?_⟩
        by_cases hd : e ≠ 0 ∧ cellActive tab1 e (toU32 pvt.action) = true
        · rw [if_pos hd] at h
          have h1 := Option.some.inj h
          subst h1
          refine ⟨false, e, by simp, rfl, ?_⟩
          intro e1 a1
          show cellActive (setNew tab1 e (toU32 pvt.action)).1 e1 a1 = _
          rw [cellActive_setNew]
          unfold BitTable.holds
          rw [← hcells]
          by_cases hx : e1 = e ∧ a1 = toU32 pvt.action
          · obtain ⟨hx1, hx2⟩ := hx
            subst hx1; subst hx2
            simp [hd.2]
          · have : (decide (e1 = e) && decide (a1 = toU32 pvt.action)) = false := by
              simpa using hx
            simp [this]
        · rw [if_neg hd] at h
          have h1 := Option.some.inj h
          subst h1
          by_cases h0 : e = 0
          · refine ⟨false, e, by simp, ?_, ?_⟩
            · simp [h0]
            · intro e1 a1
              show cellActive (if e ≠ 0 then _ else tab1) e1 a1 = _
              rw [if_neg (by simp [h0]), hcells]
              simp [BitTable.holds]
          · have hfree1 : cellActive tab1 e (toU32 pvt.action) = false := by
              cases hc : cellActive tab1 e (toU32 pvt.action) with
              | false => rfl
              | true => exact absurd ⟨h0, hc⟩ hd
            have hfree : cellActive tbl.table e (toU32 pvt.action) = false := by
              rw [hcells] at hfree1
              simpa [heq] using hfree1
            refine ⟨true, e, fun _ => ⟨h0, he, hfree⟩, rfl, ?_⟩
            intro e1 a1
            show cellActive (if e ≠ 0 then _ else tab1) e1 a1 = _
            rw [if_pos h0, cellActive_setNew, hcells]
            simp [BitTable.holds]

theorem owns_set (s : Sys) (i : Nat) (d d1 : BitDev) (tbl : BitTable)
    (hd : s.devs[i]? = some d) (j e a : Nat) :
    Sys.owns { table := tbl, devs := s.devs.set i d1 } j e a ↔
      (j ≠ i ∧ s.owns j e a) ∨
      (j = i ∧ 0 ≤ d1.action ∧ toU32 d1.action = a ∧ d1.prevEvent = e ∧ e ≠ 0) := by
  have hlt : i < s.devs.length := by
    rcases List.getElem?_eq_some.1 hd with ⟨h, _⟩
    exact h
  unfold Sys.owns
  by_cases hj : j = i
  · subst hj
    simp only [List.getElem?_set_self hlt, ne_eq, not_true_eq_false, false_and, false_or,
      true_and]
    constructor
    · rintro ⟨d2, h1, h2⟩
      have := Option.some.inj h1
      subst this
      exact h2
    · intro h2
      exact ⟨d1, rfl, h2⟩
  · have hij : i ≠ j := fun h => hj h.symm
    simp only [List.getElem?_set_ne hij, ne_eq, hj, not_false_eq_true, true_and, false_and,
      or_false]

theorem owns_self (s : Sys) (i : Nat) (d : BitDev) (hd : s.devs[i]? = some d)
    (ha : 0 ≤ d.action) (e a : Nat) :
    s.owns i e a ↔ (e = d.prevEvent ∧ a = toU32 d.action ∧ d.prevEvent ≠ 0) := by
  unfold Sys.owns
  constructor
  · rintro ⟨d2, h1, _, h3, h4, h5⟩
    rw [hd] at h1
    have := Option.some.inj h1
    subst this
    exact ⟨h4.symm, h3.symm, by rw [h4]; exact h5⟩
  · rintro ⟨h1, h2, h3⟩
    exact ⟨d, hd, ha, h2.symm, h1.symm, by rw [h1]; exact h3⟩

/-- Processing an update record keeps the ownership invariant. -/
theorem update_inv (s : Sys) (i : Nat) (d : BitDev) (prec : LongoutRecord) (r : WriteResult)
    (hinv : s.inv) (hd : s.devs[i]? = some d)
    (h : bitTableUpdate prec s.table d = some r) :
    Sys.inv { table := r.table, devs := s.devs.set i r.pvt } := by
  obtain ⟨hwf, hfull, hown, huniq⟩ := hinv
  obtain ⟨hb, hw, hrows⟩ := update_table prec s.table d r h
  have hrows1 := hrows hwf.1 hfull
  have hwf1 : r.table.wf := ⟨hrows1.1, by rw [hb]; exact hwf.2.1, by rw [hb, hw]; exact hwf.2.2⟩
  refine ⟨hwf1, hrows1.2, ?_⟩
  rcases update_cells prec s.table d r h with ⟨ht, hp⟩ | ⟨ha, set, e, hset, hpvt, hcells⟩
  · -- nothing changed
    have hsame : ∀ j e a, Sys.owns { table := r.table, devs := s.devs.set i r.pvt } j e a ↔
        s.owns j e a := by
      intro j e a
      rw [owns_set s i d r.pvt r.table hd, hp]
      by_cases hj : j = i
      · subst hj
        simp only [ne_eq, not_true_eq_false, false_and, true_and, false_or]
        unfold Sys.owns
        constructor
        · intro h2; exact ⟨d, hd, h2⟩
        · rintro ⟨d2, h1, h2⟩
          rw [hd] at h1
          have := Option.some.inj h1
          subst this
          exact h2
      · simp [hj]
    constructor
    · intro e a
      show r.table.holds e a = true ↔ _
      rw [ht, hown]
      exact exists_congr (fun j => (hsame j e a).symm)
    · intro j1 j2 e a h1 h2
      exact huniq j1 j2 e a ((hsame _ _ _).1 h1) ((hsame _ _ _).1 h2)
  · -- the previous cell is cleared and possibly the new one inserted
    have hself := owns_self s i d hd ha
    have hnew : ∀ j e1 a1, Sys.owns { table := r.table, devs := s.devs.set i r.pvt } j e1 a1 ↔
        (j ≠ i ∧ s.owns j e1 a1) ∨
        (j = i ∧ set = true ∧ e1 = e ∧ a1 = toU32 d.action) := by
      intro j e1 a1
      rw [owns_set s i d r.pvt r.table hd, hpvt]
      apply or_congr Iff.rfl
      apply and_congr Iff.rfl
      cases set with
      | false =>
        simp only [Bool.false_eq_true, if_false, false_and, iff_false, not_and]
        intro _ _ h3 h4
        exact h4 h3.symm
      | true =>
        simp only [if_true, true_and]
        constructor
        · rintro ⟨_, h2, h3, _⟩; exact ⟨h3.symm, h2.symm⟩
        · rintro ⟨h1, h2⟩
          exact ⟨ha, h2.symm, h1.symm, by rw [h1]; exact (hset rfl).1⟩
    have hcell : ∀ e1 a1, r.table.holds e1 a1 = true ↔
        (s.table.holds e1 a1 = true ∧ ¬ s.owns i e1 a1) ∨
        (set = true ∧ e1 = e ∧ a1 = toU32 d.action) := by
      intro e1 a1
      rw [hcells, hself]
      simp only [Bool.or_eq_true, Bool.and_eq_true, Bool.not_eq_true', decide_eq_true_eq]
      by_cases hA : d.prevEvent ≠ 0 <;> by_cases hB : e1 = d.prevEvent <;>
        by_cases hC : a1 = toU32 d.action <;> simp [hA, hB, hC]
    constructor
    · intro e1 a1
      show r.table.holds e1 a1 = true ↔ _
      rw [hcell]
      constructor
      · rintro (⟨h1, h2⟩ | ⟨h1, h2, h3⟩)
        · obtain ⟨j, hj⟩ := (hown e1 a1).1 h1
          refine ⟨j, (hnew j e1 a1).2 (Or.inl ⟨?_, hj⟩)⟩
          intro hji; subst hji; exact h2 hj
        · exact ⟨i, (hnew i e1 a1).2 (Or.inr ⟨rfl, h1, h2, h3⟩)⟩
      · rintro ⟨j, hj⟩
        rcases (hnew j e1 a1).1 hj with ⟨hji, ho⟩ | ⟨_, h1, h2, h3⟩
        · left
          refine ⟨(hown e1 a1).2 ⟨j, ho⟩, ?_⟩
          intro hoi
          exact hji (huniq j i e1 a1 ho hoi)
        · right; exact ⟨h1, h2, h3⟩
    · intro j1 j2 e1 a1 h1 h2
      rcases (hnew j1 e1 a1).1 h1 with ⟨hj1, ho1⟩ | ⟨hj1, hs1, he1, ha1⟩
      · rcases (hnew j2 e1 a1).1 h2 with ⟨hj2, ho2⟩ | ⟨hj2, hs2, he2, ha2⟩
        · exact huniq j1 j2 e1 a1 ho1 ho2
        · exfalso
          have hh : s.table.holds e1 a1 = true := (hown e1 a1).2 ⟨j1, ho1⟩
          rw [he2, ha2, (hset hs2).2.2] at hh
          exact absurd hh (by simp)
      · rcases (hnew j2 e1 a1).1 h2 with ⟨hj2, ho2⟩ | ⟨hj2, hs2, he2, ha2⟩
        · exfalso
          have hh : s.table.holds e1 a1 = true := (hown e1 a1).2 ⟨j2, ho2⟩
          rw [he1, ha1, (hset hs1).2.2] at hh
          exact absurd hh (by simp)
        · rw [hj1, hj2]

theorem set_same {α : Type} (l : List α) (i : Nat) (d : α) (h : l[i]? = some d) :
    l.set i d = l := by
  apply List.ext_getElem?
  intro j
  by_cases hj : i = j
  · subst hj
    rcases List.getElem?_eq_some.1 h with ⟨hlt, _⟩
    rw [List.getElem?_set_self hlt, h]
  · rw [List.getElem?_set_ne hj]

theorem init_inv (actions : List Int) : (Sys.init actions).inv := by
  refine ⟨?_, ?_, ?_, ?_⟩
  · refine ⟨⟨?_, ?_⟩, ?_, ?_⟩
    · exact List.Pairwise.nil
    · intro p hp; exact absurd hp (List.not_mem_nil p)
    · show (0 : Nat) < 2 ^ 31; norm_num
    · show (0 : Nat) = (0 + 31) / 32; norm_num
  · intro p hp; exact absurd hp (List.not_mem_nil p)
  · intro e a
    constructor
    · intro h; simp [BitTable.holds, cellActive, Sys.init, BitTable.init, StdMap.find] at h
    · rintro ⟨i, d, hd, _, _, hp, he⟩
      simp only [Sys.init, List.getElem?_map] at hd
      cases hx : actions[i]? with
      | none => simp [hx] at hd
      | some x =>
        simp only [hx, Option.map_some', Option.some.injEq] at hd
        subst hd
        exact absurd hp.symm he
  · rintro i j e a ⟨d, hd, _, _, hp, he⟩ _
    simp only [Sys.init, List.getElem?_map] at hd
    cases hx : actions[i]? with
    | none => simp [hx] at hd
    | some x =>
      simp only [hx, Option.map_some', Option.some.injEq] at hd
      subst hd
      exact absurd hp.symm he

theorem step_inv (s s1 : Sys) (op : Op) (hinv : s.inv) (hty : op.typed)
    (h : step s op = some s1) : s1.inv := by
  cases op with
  | setWords i val =>
    simp only [step] at h
    cases hd : s.devs[i]? with
    | none => simp [hd] at h
    | some d =>
      simp only [hd, Option.some.injEq] at h
      subst h
      have hpvt : (bitTableSetWords { val := val, nsev := 0 } s.table d).pvt = d := by
        unfold bitTableSetWords; split_ifs <;> rfl
      have htab : (bitTableSetWords { val := val, nsev := 0 } s.table d).table.table
          = s.table.table := by
        unfold bitTableSetWords; split_ifs <;> rfl
      have hwf := setWords_wf { val := val, nsev := 0 } s.table d hty hinv.1
      rw [hpvt, set_same s.devs i d hd]
      refine ⟨hwf, ?_, ?_, ?_⟩
      · rw [htab]; exact hinv.2.1
      · intro e a
        have := hinv.2.2.1 e a
        unfold BitTable.holds at this ⊢
        rw [htab]
        exact this
      · exact hinv.2.2.2
  | update i val =>
    simp only [step] at h
    cases hd : s.devs[i]? with
    | none => simp [hd] at h
    | some d =>
      simp only [hd] at h
      cases hr : bitTableUpdate { val := val, nsev := 0 } s.table d with
      | none => simp [hr] at h
      | some r =>
        simp only [hr, Option.some.injEq] at h
        subst h
        exact update_inv s i d _ r hinv hd hr
  | read prec =>
    simp only [step] at h
    cases hr : bitTableRead prec s.table with
    | none => simp [hr] at h
    | some r =>
      simp only [hr, Option.some.injEq] at h
      subst h
      obtain ⟨hb, hw, htab⟩ := read_table prec s.table r hr
      obtain ⟨hwf, hfull, hown, huniq⟩ := hinv
      refine ⟨⟨?_, ?_, ?_⟩, ?_, ?_, ?_⟩
      · show rowsWf r.table.table; rw [htab]; exact hwf.1
      · show r.table.bitsPerEvent < 2 ^ 31; rw [hb]; exact hwf.2.1
      · show r.table.wordsPerEvent = (r.table.bitsPerEvent + 31) / 32
        rw [hb, hw]; exact hwf.2.2
      · show rowsFull r.table.table; rw [htab]; exact hfull
      · intro e a
        have := hown e a
        unfold BitTable.holds at this ⊢
        show cellActive r.table.table e a = true ↔ _
        rw [htab]
        exact this
      · exact huniq

theorem reachable_inv (actions : List Int) (s : Sys) (h : Reachable actions s) : s.inv := by
  induction h with
  | init => exact init_inv actions
  | step s s1 op _ hty hstep ih => exact step_inv s s1 op ih hty hstep

/-- C3 (counterexample). Two records bound with action 0, the first updated to
event 100 and the second to event 255: the state is reachable and its table
holds action 0 for both events. -/
theorem action_on_two_events :
    Reachable [0, 0] exTwoEvents ∧ exTwoEvents.table.holds 100 0 = true ∧
      exTwoEvents.table.holds 255 0 = true ∧ (100 : Nat) ≠ 255 := by
  refine ⟨?_, by decide, by decide, by decide⟩
  have h0 : Reachable [0, 0] (Sys.init [0, 0]) := Reachable.init
  have h1 := Reachable.step _
    { table := { bitsPerEvent := 0, wordsPerEvent := 0, table := [(100, [(0, true)])],
                 changing := true },
      devs := [{ action := 0, prevEvent := 100 }, { action := 0, prevEvent := 0 }] }
    (Op.update 0 100) h0 (by simp [Op.typed]) (by decide)
  exact Reachable.step _ exTwoEvents (Op.update 1 255) h1 (by simp [Op.typed]) (by decide)

/-- C3 (amended). In every state reached from the empty table, each cell
`(e, a)` of the table is owned by exactly one record; two different events that
hold the same action are owned by two different records with that action; and
when only one record carries the action, at most one event holds it. -/
theorem action_events_owned (actions : List Int) (s : Sys) (hreach : Reachable actions s)
    (a e1 e2 : Nat) (h1 : s.table.holds e1 a = true) (h2 : s.table.holds e2 a = true) :
    (∃ i, s.owns i e1 a ∧ ∀ j, s.owns j e1 a → j = i) ∧
    (e1 ≠ e2 → ∃ i j, i ≠ j ∧ s.owns i e1 a ∧ s.owns j e2 a) ∧
    ((∀ (i j : Nat) (d1 d2 : BitDev), s.devs[i]? = some d1 → s.devs[j]? = some d2 →
        toU32 d1.action = a → toU32 d2.action = a → i = j) → e1 = e2) := by
  obtain ⟨_, _, hown, huniq⟩ := reachable_inv actions s hreach
  obtain ⟨i, hi⟩ := (hown e1 a).1 h1
  obtain ⟨j, hj⟩ := (hown e2 a).1 h2
  refine ⟨⟨i, hi, fun k hk => huniq k i e1 a hk hi⟩, ?_, ?_⟩
  · intro hne
    refine ⟨i, j, ?_, hi, hj⟩
    intro hij
    subst hij
    obtain ⟨d1, hd1, _, _, hp1, _⟩ := hi
    obtain ⟨d2, hd2, _, _, hp2, _⟩ := hj
    rw [hd1] at hd2
    have := Option.some.inj hd2
    subst this
    exact hne (hp1.symm.trans hp2)
  · intro hsingle
    obtain ⟨d1, hd1, _, hk1, hp1, _⟩ := hi
    obtain ⟨d2, hd2, _, hk2, hp2, _⟩ := hj
    have hij := hsingle i j d1 d2 hd1 hd2 hk1 hk2
    subst hij
    rw [hd1] at hd2
    have := Option.some.inj hd2
    subst this
    exact hp1.symm.trans hp2

/-! ## The record buffer -/

theorem orAt_length (l : List Nat) (i m : Nat) : (orAt l i m).length = l.length := by
  induction l generalizing i with
  | nil => rfl
  | cons w ws ih =>
    cases i with
    | zero => rfl
    | succ i => simp [orAt, ih]

theorem orAt_getD (l : List Nat) (i m j : Nat) (hi : i < l.length) :
    (orAt l i m).getD j 0 = if j = i then l.getD i 0 ||| m else l.getD j 0 := by
  induction l generalizing i j with
  | nil => simp at hi
  | cons w ws ih =>
    cases i with
    | zero =>
      cases j with
      | zero => simp [orAt]
      | succ j => simp [orAt]
    | succ i =>
      cases j with
      | zero => simp [orAt]
      | succ j =>
        have := ih i j (by simpa using hi)
        simpa [orAt] using this

theorem memsetZero_length (l : List Nat) (n : Nat) : (memsetZero l n).length = l.length := by
  unfold memsetZero
  simp only [List.length_append, List.length_replicate, List.length_drop]
  omega

theorem memsetZero_getD (l : List Nat) (n j : Nat) (hn : n / 4 ≤ l.length) :
    (memsetZero l n).getD j 0 = if j < n / 4 then 0 else l.getD j 0 := by
  unfold memsetZero
  have hmin : min (n / 4) l.length = n / 4 := by omega
  rw [hmin]
  simp only [List.getD_eq_getElem?_getD]
  by_cases hj : j < n / 4
  · rw [if_pos hj, List.getElem?_append_left (by simpa using hj)]
    simp [hj]
  · rw [if_neg hj, List.getElem?_append_right (by simpa using hj)]
    simp only [List.length_replicate, List.getElem?_drop]
    congr 2
    omega

theorem testBit_or_mask (x bit b : Nat) (hbit : bit < 32) :
    (x ||| u32 (1 <<< bit)).testBit b = (x.testBit b || decide (bit = b)) := by
  have h1 : (1 <<< bit : Nat) = 2 ^ bit := by simp [Nat.shiftLeft_eq]
  have h2 : 2 ^ bit < 2 ^ 32 := Nat.pow_lt_pow_right (by norm_num) hbit
  unfold u32
  rw [h1, Nat.mod_eq_of_lt h2, Nat.testBit_or, Nat.testBit_two_pow]

/-! ## The render loops -/

theorem max_major (n : Nat) : max (max n MAJOR_ALARM) MAJOR_ALARM = max n MAJOR_ALARM := by
  simp

theorem renderRow_spec (W bits e : Nat) (row : StdMap Bool) (prec : AaiRecord)
    (hfit : rowFits W bits e prec.bptr.length row) :
    ∃ prec1, renderRow W bits e row prec = some prec1 ∧
      prec1.bptr.length = prec.bptr.length ∧ prec1.nord = prec.nord ∧
      prec1.ftvlULong = prec.ftvlULong ∧
      (rowOor bits row → prec1.nsev = max prec.nsev MAJOR_ALARM) ∧
      (¬ rowOor bits row → prec1.nsev = prec.nsev) ∧
      ∀ i b, (prec1.bptr.getD i 0).testBit b = true ↔
        ((prec.bptr.getD i 0).testBit b = true ∨ rowHit W bits e row i b) := by
  induction row generalizing prec with
  | nil =>
    refine ⟨prec, rfl, rfl, rfl, rfl, ?_, fun _ => rfl, ?_⟩
    · rintro ⟨q, hq, _⟩; exact absurd hq (List.not_mem_nil q)
    · intro i b
      constructor
      · intro h; exact Or.inl h
      · rintro (h | ⟨q, hq, _⟩)
        · exact h
        · exact absurd hq (List.not_mem_nil q)
  | cons ap rest ih =>
    obtain ⟨a, act⟩ := ap
    have hfit_rest : ∀ len, rowFits W bits e len ((a, act) :: rest) → rowFits W bits e len rest :=
      fun len h q hq => h q (List.mem_cons_of_mem _ hq)
    have hoor_cons : rowOor bits ((a, act) :: rest) ↔
        ((act = true ∧ bits ≤ a) ∨ rowOor bits rest) := by
      unfold rowOor
      simp only [List.mem_cons, exists_eq_or_imp]
    have hhit_cons : ∀ i b, rowHit W bits e ((a, act) :: rest) i b ↔
        ((act = true ∧ a < bits ∧ wordIndex W e a = i ∧ a % 32 = b) ∨
          rowHit W bits e rest i b) := by
      intro i b
      unfold rowHit
      simp only [List.mem_cons, exists_eq_or_imp]
    cases hact : act with
    | false =>
      subst hact
      obtain ⟨prec1, h1, h2, h3, h4, h5, h6, h7⟩ := ih prec (hfit_rest _ hfit)
      refine ⟨prec1, ?_, h2, h3, h4, ?_, ?_, ?_⟩
      · simp only [renderRow, renderCell, Bool.not_false, if_true]
        exact h1
      · intro ho
        apply h5
        rcases hoor_cons.1 ho with h | h
        · exact absurd h.1 (by simp)
        · exact h
      · intro ho
        exact h6 (fun h => ho (hoor_cons.2 (Or.inr h)))
      · intro i b
        rw [h7, hhit_cons]
        simp
    | true =>
      subst hact
      by_cases hge : a ≥ bits
      · obtain ⟨prec1, h1, h2, h3, h4, h5, h6, h7⟩ :=
          ih (prec.setSevr MAJOR_ALARM) (hfit_rest _ hfit)
        refine ⟨prec1, ?_, h2, h3, h4, ?_, ?_, ?_⟩
        · simp only [renderRow, renderCell, Bool.not_true, Bool.false_eq_true, if_false, hge,
            if_true]
          exact h1
        · intro _
          by_cases ho : rowOor bits rest
          · rw [h5 ho]; exact max_major prec.nsev
          · rw [h6 ho]; rfl
        · intro ho
          exact absurd (hoor_cons.2 (Or.inl ⟨rfl, hge⟩)) ho
        · intro i b
          rw [h7, hhit_cons]
          have : ¬ a < bits := by omega
          simp [this, AaiRecord.setSevr]
      · have hlt : a < bits := by omega
        have hidx : wordIndex W e a < prec.bptr.length :=
          hfit (a, true) (List.mem_cons_self _ _) rfl hlt
        have hfit1 : rowFits W bits e
            (orAt prec.bptr (wordIndex W e a) (u32 (1 <<< (a % 32)))).length rest := by
          rw [orAt_length]; exact hfit_rest _ hfit
        obtain ⟨prec1, h1, h2, h3, h4, h5, h6, h7⟩ :=
          ih { prec with bptr := orAt prec.bptr (wordIndex W e a) (u32 (1 <<< (a % 32))) } hfit1
        refine ⟨prec1, ?_, ?_, h3, h4, ?_, ?_, ?_⟩
        · simp only [renderRow, renderCell, Bool.not_true, Bool.false_eq_true, if_false, hge,
            hidx, if_true]
          exact h1
        · rw [h2]; exact orAt_length _ _ _
        · intro ho
          rcases hoor_cons.1 ho with h | h
          · exact absurd h.2 (by omega)
          · exact h5 h
        · intro ho
          exact h6 (fun h => ho (hoor_cons.2 (Or.inr h)))
        · intro i b
          rw [h7, hhit_cons]
          simp only [orAt_getD _ _ _ _ hidx]
          by_cases hi : i = wordIndex W e a
          · subst hi
            rw [if_pos rfl, testBit_or_mask _ _ _ (Nat.mod_lt _ (by norm_num))]
            simp only [Bool.or_eq_true, decide_eq_true_eq, true_and, hlt]
            tauto
          · rw [if_neg hi]
            have : ¬ wordIndex W e a = i := fun h => hi h.symm
            simp [this]

theorem renderTable_spec (W bits : Nat) (tab : StdMap (StdMap Bool)) (prec : AaiRecord)
    (hfit : ∀ p ∈ tab, rowFits W bits p.1 prec.bptr.length p.2) :
    ∃ prec1, renderTable W bits tab prec = some prec1 ∧
      prec1.bptr.length = prec.bptr.length ∧ prec1.nord = prec.nord ∧
      prec1.ftvlULong = prec.ftvlULong ∧
      ((∃ p ∈ tab, rowOor bits p.2) → prec1.nsev = max prec.nsev MAJOR_ALARM) ∧
      (¬ (∃ p ∈ tab, rowOor bits p.2) → prec1.nsev = prec.nsev) ∧
      ∀ i b, (prec1.bptr.getD i 0).testBit b = true ↔
        ((prec.bptr.getD i 0).testBit b = true ∨ ∃ p ∈ tab, rowHit W bits p.1 p.2 i b) := by
  induction tab generalizing prec with
  | nil =>
    refine ⟨prec, rfl, rfl, rfl, rfl, ?_, fun _ => rfl, ?_⟩
    · rintro ⟨q, hq, _⟩; exact absurd hq (List.not_mem_nil q)
    · intro i b
      constructor
      · intro h; exact Or.inl h
      · rintro (h | ⟨q, hq, _⟩)
        · exact h
        · exact absurd hq (List.not_mem_nil q)
  | cons ep rest ih =>
    obtain ⟨prec0, g1, g2, g3, g4, g5, g6, g7⟩ :=
      renderRow_spec W bits ep.1 ep.2 prec (hfit ep (List.mem_cons_self _ _))
    have hfit1 : ∀ p ∈ rest, rowFits W bits p.1 prec0.bptr.length p.2 := by
      intro p hp; rw [g2]; exact hfit p (List.mem_cons_of_mem _ hp)
    obtain ⟨prec1, h1, h2, h3, h4, h5, h6, h7⟩ := ih prec0 hfit1
    refine ⟨prec1, ?_, h2.trans g2, h3.trans g3, h4.trans g4, ?_, ?_, ?_⟩
    · simp only [renderTable, g1]
      exact h1
    · intro ho
      simp only [List.mem_cons, exists_eq_or_imp] at ho
      by_cases hr : ∃ p ∈ rest, rowOor bits p.2
      · rw [h5 hr]
        by_cases hh : rowOor bits ep.2
        · rw [g5 hh]; exact max_major prec.nsev
        · rw [g6 hh]
      · rw [h6 hr]
        rcases ho with hh | hh
        · exact g5 hh
        · exact absurd hh hr
    · intro ho
      simp only [List.mem_cons, exists_eq_or_imp, not_or] at ho
      rw [h6 ho.2, g6 ho.1]
    · intro i b
      rw [h7, g7]
      simp only [List.mem_cons, exists_eq_or_imp]
      tauto

/-- The word index without wrap-around. -/
theorem wordIndex_eq (W e a : Nat) (hW : 256 * W < 2 ^ 32) (he : e < 256) (ha : a / 32 < W) :
    wordIndex W e a = e * W + (W - 1 - a / 32) := by
  unfold wordIndex u32
  simp only
  have h1 : (W + (2 ^ 32 - 1)) % 2 ^ 32 = W - 1 := by omega
  have hmul : e * W ≤ 255 * W := Nat.mul_le_mul_right W (by omega)
  have h2 : (W - 1 + (2 ^ 32 - a / 32)) % 2 ^ 32 = W - 1 - a / 32 := by omega
  have h3 : (e * W) % 2 ^ 32 = e * W := by omega
  rw [h1, h2, h3]
  omega

theorem wordIndex_lt (W e a len : Nat) (he : e < 256) (ha : a / 32 < W)
    (hlen : 256 * W ≤ len) : wordIndex W e a < len := by
  by_cases hW : 256 * W < 2 ^ 32
  · rw [wordIndex_eq W e a hW he ha]
    have hmul : e * W ≤ 255 * W := Nat.mul_le_mul_right W (by omega)
    omega
  · have : wordIndex W e a < 2 ^ 32 := by
      unfold wordIndex u32
      exact Nat.mod_lt _ (by norm_num)
    omega

theorem table_fits (tbl : BitTable) (len : Nat) (hwf : tbl.wf)
    (hlen : 256 * tbl.wordsPerEvent ≤ len) :
    ∀ p ∈ tbl.table, rowFits tbl.wordsPerEvent tbl.bitsPerEvent p.1 len p.2 := by
  intro p hp q _ _ hlt
  have he := (hwf.1.2 p hp).1
  have hw := hwf.2.2
  exact wordIndex_lt _ _ _ _ he (by omega) hlen

theorem holds_iff_mem (tab : StdMap (StdMap Bool)) (hwf : rowsWf tab) (e a : Nat) :
    cellActive tab e a = true ↔ ∃ p ∈ tab, p.1 = e ∧ (a, true) ∈ p.2 := by
  unfold cellActive
  constructor
  · intro h
    cases hrow : StdMap.find tab e with
    | none => simp [hrow] at h
    | some row =>
      simp only [hrow, beq_iff_eq] at h
      have hmem := (StdMap.find_eq_some_iff tab hwf.1 e row).1 hrow
      exact ⟨(e, row), hmem, rfl, (StdMap.find_eq_some_iff row (hwf.2 _ hmem).2 a true).1 h⟩
  · rintro ⟨⟨e1, row⟩, hp, he, hq⟩
    simp only at he hq
    subst he
    rw [(StdMap.find_eq_some_iff tab hwf.1 e1 row).2 hp]
    simp only [beq_iff_eq]
    exact (StdMap.find_eq_some_iff row (hwf.2 _ hp).2 a true).2 hq

theorem oor_iff_holds (tbl : BitTable) (hwf : tbl.wf) :
    (∃ p ∈ tbl.table, rowOor tbl.bitsPerEvent p.2) ↔
      ∃ e a, tbl.holds e a = true ∧ tbl.bitsPerEvent ≤ a := by
  constructor
  · rintro ⟨p, hp, ⟨a, act⟩, hq, hact, hge⟩
    simp only at hact hge
    subst hact
    exact ⟨p.1, a, (holds_iff_mem tbl.table hwf.1 p.1 a).2 ⟨p, hp, rfl, hq⟩, hge⟩
  · rintro ⟨e, a, hh, hge⟩
    obtain ⟨p, hp, _, hq⟩ := (holds_iff_mem tbl.table hwf.1 e a).1 hh
    exact ⟨p, hp, (a, true), hq, rfl, hge⟩

/-! ## bitTableRead as a whole -/

theorem read_run (prec : AaiRecord) (tbl : BitTable) (hwf : tbl.wf)
    (hftvl : prec.ftvlULong = true) (hcap : 256 * tbl.wordsPerEvent ≤ prec.nelm) :
    ∃ prec2, renderTable tbl.wordsPerEvent tbl.bitsPerEvent tbl.table
        { prec with bptr := memsetZero prec.bptr (u32 (u32 (nEvents * tbl.wordsPerEvent) * 4)),
                    nord := 0 } = some prec2 ∧
      bitTableRead prec tbl =
        some { ret := 0, prec := { prec2 with nord := u32 (nEvents * tbl.wordsPerEvent) },
               table := { tbl with changing := false } } := by
  have hlen : (memsetZero prec.bptr (u32 (u32 (nEvents * tbl.wordsPerEvent) * 4))).length
      = prec.bptr.length := memsetZero_length _ _
  have hfit := table_fits tbl prec.bptr.length hwf hcap
  rw [← hlen] at hfit
  obtain ⟨prec2, h1, _⟩ := renderTable_spec tbl.wordsPerEvent tbl.bitsPerEvent tbl.table
    { prec with bptr := memsetZero prec.bptr (u32 (u32 (nEvents * tbl.wordsPerEvent) * 4)),
                nord := 0 } hfit
  refine ⟨prec2, h1, ?_⟩
  unfold bitTableRead
  have hf : ¬ ((!prec.ftvlULong) = true) := by simp [hftvl]
  have hc : ¬ prec.nelm < u32 (nEvents * tbl.wordsPerEvent) := by
    have : u32 (nEvents * tbl.wordsPerEvent) ≤ 256 * tbl.wordsPerEvent := by
      unfold u32 nEvents; exact Nat.mod_le _ _
    omega
  rw [if_neg hf]
  simp only [if_neg hc, h1]

/-- C6. Out-of-range actions are advisory. For a well-formed table and an
unsigned aai record of at least `256 * wordsPerEvent` elements, `bitTableRead`
returns 0; the alarm severity is raised to at least MAJOR when the table holds
some `(e, a)` with `a ≥ bitsPerEvent` and is left as it was otherwise, so a
record without pending alarm ends with MAJOR exactly in the first case and
with no alarm exactly in the second. -/
theorem read_alarm_advisory (prec : AaiRecord) (tbl : BitTable) (hwf : tbl.wf)
    (hftvl : prec.ftvlULong = true) (hcap : 256 * tbl.wordsPerEvent ≤ prec.nelm) :
    ∃ r, bitTableRead prec tbl = some r ∧ r.ret = 0 ∧
      ((∃ e a, tbl.holds e a = true ∧ tbl.bitsPerEvent ≤ a) →
        r.prec.nsev = max prec.nsev MAJOR_ALARM) ∧
      (¬ (∃ e a, tbl.holds e a = true ∧ tbl.bitsPerEvent ≤ a) → r.prec.nsev = prec.nsev) ∧
      (prec.nsev = NO_ALARM →
        (r.prec.nsev = MAJOR_ALARM ↔ ∃ e a, tbl.holds e a = true ∧ tbl.bitsPerEvent ≤ a) ∧
        (r.prec.nsev = NO_ALARM ↔ ¬ ∃ e a, tbl.holds e a = true ∧ tbl.bitsPerEvent ≤ a)) := by
  obtain ⟨prec2, h1, h2⟩ := read_run prec tbl hwf hftvl hcap
  have hlen : (memsetZero prec.bptr (u32 (u32 (nEvents * tbl.wordsPerEvent) * 4))).length
      = prec.bptr.length := memsetZero_length _ _
  have hfit := table_fits tbl prec.bptr.length hwf hcap
  rw [← hlen] at hfit
  obtain ⟨prec3, g1, _, _, _, g5, g6, _⟩ :=
    renderTable_spec tbl.wordsPerEvent tbl.bitsPerEvent tbl.table
      { prec with bptr := memsetZero prec.bptr (u32 (u32 (nEvents * tbl.wordsPerEvent) * 4)),
                  nord := 0 } hfit
  rw [h1] at g1
  have := Option.some.inj g1
  subst this
  rw [oor_iff_holds tbl hwf] at g5 g6
  have hyes : (∃ e a, tbl.holds e a = true ∧ tbl.bitsPerEvent ≤ a) →
      prec2.nsev = max prec.nsev MAJOR_ALARM := g5
  have hno : ¬ (∃ e a, tbl.holds e a = true ∧ tbl.bitsPerEvent ≤ a) →
      prec2.nsev = prec.nsev := g6
  refine ⟨_, h2, rfl, hyes, hno, ?_⟩
  intro h0
  show (prec2.nsev = MAJOR_ALARM ↔ _) ∧ (prec2.nsev = NO_ALARM ↔ _)
  by_cases hex : ∃ e a, tbl.holds e a = true ∧ tbl.bitsPerEvent ≤ a
  · rw [hyes hex, h0]
    simp [hex, NO_ALARM, MAJOR_ALARM]
  · rw [hno hex, h0]
    simp [hex, NO_ALARM, MAJOR_ALARM]

theorem hit_iff_holds (tbl : BitTable) (hwf : tbl.wf)
    (hW : 256 * tbl.wordsPerEvent < 2 ^ 32) (e j b : Nat)
    (he : e < 256) (hj : j < tbl.wordsPerEvent) (hb : b < 32) :
    (∃ p ∈ tbl.table, rowHit tbl.wordsPerEvent tbl.bitsPerEvent p.1 p.2
        (e * tbl.wordsPerEvent + j) b) ↔
      (tbl.holds e (32 * (tbl.wordsPerEvent - 1 - j) + b) = true ∧
        32 * (tbl.wordsPerEvent - 1 - j) + b < tbl.bitsPerEvent) := by
  have hw := hwf.2.2
  have hWpos : 0 < tbl.wordsPerEvent := by omega
  constructor
  · rintro ⟨p, hp, ⟨a, act⟩, hq, hact, hlt, hidx, hmod⟩
    simp only at hact hlt hidx hmod
    subst hact
    have hpe := (hwf.1.2 p hp).1
    have hdiv : a / 32 < tbl.wordsPerEvent := by omega
    rw [wordIndex_eq _ _ _ hW hpe hdiv] at hidx
    have hx : tbl.wordsPerEvent - 1 - a / 32 < tbl.wordsPerEvent := by omega
    have hpe1 : p.1 = e := by
      have h1 : (tbl.wordsPerEvent - 1 - a / 32 + p.1 * tbl.wordsPerEvent) / tbl.wordsPerEvent
          = p.1 := by
        rw [Nat.add_mul_div_right _ _ hWpos, Nat.div_eq_of_lt hx, Nat.zero_add]
      have h2 : (j + e * tbl.wordsPerEvent) / tbl.wordsPerEvent = e := by
        rw [Nat.add_mul_div_right _ _ hWpos, Nat.div_eq_of_lt hj, Nat.zero_add]
      rw [← h1, ← h2]
      congr 1
      omega
    rw [hpe1] at hidx
    have hoff : tbl.wordsPerEvent - 1 - a / 32 = j := by omega
    have ha : a = 32 * (tbl.wordsPerEvent - 1 - j) + b := by omega
    rw [← ha]
    exact ⟨(holds_iff_mem tbl.table hwf.1 e a).2 ⟨p, hp, hpe1, hq⟩, hlt⟩
  · rintro ⟨hh, hlt⟩
    obtain ⟨p, hp, hpe, hq⟩ := (holds_iff_mem tbl.table hwf.1 e _).1 hh
    refine ⟨p, hp, (32 * (tbl.wordsPerEvent - 1 - j) + b, true), hq, rfl, hlt, ?_, ?_⟩
    · show wordIndex tbl.wordsPerEvent p.1 (32 * (tbl.wordsPerEvent - 1 - j) + b) = _
      have hdiv : (32 * (tbl.wordsPerEvent - 1 - j) + b) / 32 = tbl.wordsPerEvent - 1 - j := by
        omega
      rw [hpe, wordIndex_eq _ _ _ hW he (by omega), hdiv]
      omega
    · show (32 * (tbl.wordsPerEvent - 1 - j) + b) % 32 = b
      omega

/-- Exactness of the rendered array for widths whose byte count `4 * 256 *
wordsPerEvent` fits 32 bits. -/
theorem read_exact (prec : AaiRecord) (tbl : BitTable) (hwf : tbl.wf)
    (hftvl : prec.ftvlULong = true) (hcap : 256 * tbl.wordsPerEvent ≤ prec.nelm)
    (hsmall : 4 * (256 * tbl.wordsPerEvent) < 2 ^ 32) :
    ∃ r, bitTableRead prec tbl = some r ∧ r.ret = 0 ∧
      r.prec.nord = 256 * tbl.wordsPerEvent ∧ r.prec.bptr.length = prec.nelm ∧
      r.table = { tbl with changing := false } ∧
      (∀ e j b, e < 256 → j < tbl.wordsPerEvent → b < 32 →
        ((r.prec.bptr.getD (e * tbl.wordsPerEvent + j) 0).testBit b = true ↔
          (tbl.holds e (32 * (tbl.wordsPerEvent - 1 - j) + b) = true ∧
            32 * (tbl.wordsPerEvent - 1 - j) + b < tbl.bitsPerEvent))) ∧
      (∀ i, i < 256 * tbl.wordsPerEvent → r.prec.bptr.getD i 0 < 2 ^ 32) ∧
      (∀ i, 256 * tbl.wordsPerEvent ≤ i → r.prec.bptr.getD i 0 = prec.bptr.getD i 0) := by
  obtain ⟨prec2, h1, h2⟩ := read_run prec tbl hwf hftvl hcap
  have hcapv : u32 (nEvents * tbl.wordsPerEvent) = 256 * tbl.wordsPerEvent := by
    unfold u32 nEvents; omega
  have hbytes : u32 (u32 (nEvents * tbl.wordsPerEvent) * 4) / 4 = 256 * tbl.wordsPerEvent := by
    rw [hcapv]; unfold u32; omega
  have hlen : (memsetZero prec.bptr (u32 (u32 (nEvents * tbl.wordsPerEvent) * 4))).length
      = prec.bptr.length := memsetZero_length _ _
  have hfit := table_fits tbl prec.bptr.length hwf hcap
  rw [← hlen] at hfit
  obtain ⟨prec3, g1, g2, _, _, _, _, g7⟩ :=
    renderTable_spec tbl.wordsPerEvent tbl.bitsPerEvent tbl.table
      { prec with bptr := memsetZero prec.bptr (u32 (u32 (nEvents * tbl.wordsPerEvent) * 4)),
                  nord := 0 } hfit
  rw [h1] at g1
  have := Option.some.inj g1
  subst this
  have hzero : ∀ i, (memsetZero prec.bptr (u32 (u32 (nEvents * tbl.wordsPerEvent) * 4))).getD i 0
      = if i < 256 * tbl.wordsPerEvent then 0 else prec.bptr.getD i 0 := by
    intro i
    rw [memsetZero_getD _ _ _ (by rw [hbytes]; exact hcap), hbytes]
  have hbits : ∀ i b, (prec2.bptr.getD i 0).testBit b = true ↔
      (((if i < 256 * tbl.wordsPerEvent then 0 else prec.bptr.getD i 0).testBit b = true) ∨
        ∃ p ∈ tbl.table, rowHit tbl.wordsPerEvent tbl.bitsPerEvent p.1 p.2 i b) := by
    intro i b
    rw [g7 i b]
    show ((memsetZero _ _).getD i 0).testBit b = true ∨ _ ↔ _
    rw [hzero]
  refine ⟨_, h2, rfl, hcapv, ?_, rfl, ?_, ?_, ?_⟩
  · show prec2.bptr.length = _
    rw [g2]; exact hlen
  · intro e j b he hj hb
    show (prec2.bptr.getD _ 0).testBit b = true ↔ _
    have hmul : e * tbl.wordsPerEvent ≤ 255 * tbl.wordsPerEvent :=
      Nat.mul_le_mul_right _ (by omega)
    have hi : e * tbl.wordsPerEvent + j < 256 * tbl.wordsPerEvent := by omega
    rw [hbits, if_pos hi, hit_iff_holds tbl hwf (by omega) e j b he hj hb]
    simp
  · intro i hi
    show prec2.bptr.getD i 0 < 2 ^ 32
    apply Nat.lt_pow_two_of_testBit
    intro b hb
    cases hx : (prec2.bptr.getD i 0).testBit b with
    | false => rfl
    | true =>
      exfalso
      rw [hbits, if_pos hi] at hx
      rcases hx with hx | ⟨p, _, q, _, _, _, _, hmod⟩
      · simp at hx
      · omega
  · intro i hi
    show prec2.bptr.getD i 0 = _
    apply Nat.eq_of_testBit_eq
    intro b
    have hnohit : ¬ ∃ p ∈ tbl.table, rowHit tbl.wordsPerEvent tbl.bitsPerEvent p.1 p.2 i b := by
      rintro ⟨p, hp, ⟨a, act⟩, _, _, hlt, hidx, _⟩
      simp only at hlt hidx
      have := wordIndex_lt tbl.wordsPerEvent p.1 a (256 * tbl.wordsPerEvent)
        (hwf.1.2 p hp).1 (by have := hwf.2.2; omega) (le_refl _)
      omega
    have := hbits i b
    rw [if_neg (by omega)] at this
    cases hx : (prec.bptr.getD i 0).testBit b with
    | false =>
      cases hy : (prec2.bptr.getD i 0).testBit b with
      | false => rfl
      | true =>
        rcases this.1 hy with h | h
        · rw [hx] at h; exact absurd h (by simp)
        · exact absurd h hnohit
    | true => exact this.2 (Or.inl hx)

theorem read_wide (prec : AaiRecord) (hftvl : prec.ftvlULong = true)
    (hlen : prec.bptr.length = 2 ^ 30) :
    bitTableRead prec exWide =
      some { ret := 0, prec := { prec with nord := 2 ^ 30 },
             table := { exWide with changing := false } } := by
  unfold bitTableRead
  have hf : ¬ ((!prec.ftvlULong) = true) := by simp [hftvl]
  have hcap : u32 (nEvents * exWide.wordsPerEvent) = 2 ^ 30 := by
    unfold u32 nEvents exWide; norm_num
  have hbytes : u32 (2 ^ 30 * 4) = 0 := by unfold u32; norm_num
  have hc : ¬ prec.nelm < 2 ^ 30 := by unfold AaiRecord.nelm; omega
  have hms : memsetZero prec.bptr 0 = prec.bptr := by
    unfold memsetZero; simp
  rw [if_neg hf]
  simp only [hcap, if_neg hc, hbytes, hms]
  rfl

/-- C1 (failing input). After `bitTableSetWords` with the width `2^27` the
table has `2^22` words per event. A read into a record of exactly
`256 * 2^22 = 2^30` words returns 0 with `nord = 2^30`, but the byte count
`cap*4u` of the `memset` wraps to 0 in 32-bit arithmetic and no word is
zeroed: word 0 keeps its bit 0 although the table is empty. -/
theorem read_wide_keeps_stale_words :
    (bitTableSetWords { val := 2 ^ 27, nsev := 0 } BitTable.init
      { action := 0, prevEvent := 0 }).table = exWide ∧
    exWide.wf ∧ 256 * exWide.wordsPerEvent ≤ exStale.nelm ∧ exStale.nelm < 2 ^ 32 ∧
    bitTableRead exStale exWide =
      some { ret := 0, prec := { exStale with nord := 2 ^ 30 },
             table := { exWide with changing := false } } ∧
    (exStale.bptr.getD (0 * exWide.wordsPerEvent + 0) 0).testBit 0 = true ∧
    exWide.holds 0 (32 * (exWide.wordsPerEvent - 1 - 0) + 0) = false := by
  have hlen : exStale.bptr.length = 2 ^ 30 := by
    unfold exStale; exact List.length_replicate _ _
  refine ⟨?_, ?_, ?_, ?_, read_wide exStale rfl hlen, ?_, ?_⟩
  · have h := setWords_ok { val := 2 ^ 27, nsev := 0 } BitTable.init
      { action := 0, prevEvent := 0 } (2 ^ 27) (by norm_num) (by norm_num) (by norm_num)
    rw [h]
    unfold exWide BitTable.init
    norm_num
  · unfold BitTable.wf exWide rowsWf
    refine ⟨⟨List.Pairwise.nil, ?_⟩, by norm_num, by norm_num⟩
    intro p hp; exact absurd hp (List.not_mem_nil p)
  · unfold AaiRecord.nelm
    rw [hlen]; unfold exWide; norm_num
  · unfold AaiRecord.nelm
    rw [hlen]; norm_num
  · have hget : exStale.bptr.getD (0 * exWide.wordsPerEvent + 0) 0 = 1 := by
      unfold exStale
      simp only [Nat.zero_mul, Nat.add_zero, List.getD_eq_getElem?_getD]
      rw [List.getElem?_replicate_of_lt (by norm_num)]
      rfl
    rw [hget]
    decide
  · rfl

/-- C4. Width rounding of `bitTableSetWords`. For `0 < n ≤ 2^31 - 1` the call
returns 0 and leaves `bitsPerEvent = n` and
`wordsPerEvent = ceil(n/32) = ((n + 31) & ~31) / 32`; a multiple `32 m` gives
`m` words, `32 m + r` with `0 < r < 32` gives `m + 1`. The word count is then
non-zero; it is zero in the initial table, where the bit count is zero too,
and in every reachable state it is zero exactly when the bit count is. -/
theorem setWords_width (prec : LongoutRecord) (tbl : BitTable) (pvt : BitDev) (n : Nat)
    (hval : prec.val = (n : Int)) (h0 : 0 < n) (h1 : n ≤ 2 ^ 31 - 1) :
    (bitTableSetWords prec tbl pvt).ret = 0 ∧
    (bitTableSetWords prec tbl pvt).table.bitsPerEvent = n ∧
    (bitTableSetWords prec tbl pvt).table.wordsPerEvent = (n + 31) / 32 ∧
    (bitTableSetWords prec tbl pvt).table.wordsPerEvent
      = (u32 (n + 31) &&& 0xFFFFFFE0) / 32 ∧
    32 * ((bitTableSetWords prec tbl pvt).table.wordsPerEvent - 1) < n ∧
    n ≤ 32 * (bitTableSetWords prec tbl pvt).table.wordsPerEvent ∧
    (∀ m, n = 32 * m → (bitTableSetWords prec tbl pvt).table.wordsPerEvent = m) ∧
    (∀ m r, 0 < r → r < 32 → n = 32 * m + r →
      (bitTableSetWords prec tbl pvt).table.wordsPerEvent = m + 1) ∧
    (bitTableSetWords prec tbl pvt).table.wordsPerEvent ≠ 0 ∧
    BitTable.init.wordsPerEvent = 0 ∧ BitTable.init.bitsPerEvent = 0 ∧
    (∀ (actions : List Int) (s : Sys), Reachable actions s →
      (s.table.wordsPerEvent = 0 ↔ s.table.bitsPerEvent = 0)) := by
  rw [setWords_ok prec tbl pvt n hval h0 h1]
  have hu : u32 (n + 31) = n + 31 := by unfold u32; omega
  rw [hu, land_not_31 (n + 31) (by omega)]
  refine ⟨rfl, rfl, rfl, ?_, ?_, ?_, ?_, ?_, ?_, rfl, rfl, ?_⟩
  · show (n + 31) / 32 = (n + 31) / 32 * 32 / 32
    omega
  · show 32 * ((n + 31) / 32 - 1) < n
    omega
  · show n ≤ 32 * ((n + 31) / 32)
    omega
  · intro m hm
    show (n + 31) / 32 = m
    omega
  · intro m r hr0 hr hm
    show (n + 31) / 32 = m + 1
    omega
  · show (n + 31) / 32 ≠ 0
    omega
  · intro actions s hs
    have hw := (reachable_inv actions s hs).1.2.2
    omega

/-! ## Instances of the theorems -/

theorem exTwoEvents_reachable : Reachable [0, 0] exTwoEvents := by
  have h0 : Reachable [0, 0] (Sys.init [0, 0]) := Reachable.init
  have h1 := Reachable.step _
    { table := { bitsPerEvent := 0, wordsPerEvent := 0, table := [(100, [(0, true)])],
                 changing := true },
      devs := [{ action := 0, prevEvent := 100 }, { action := 0, prevEvent := 0 }] }
    (Op.update 0 100) h0 (by simp [Op.typed]) (by decide)
  exact Reachable.step _ exTwoEvents (Op.update 1 255) h1 (by simp [Op.typed]) (by decide)

set_option maxRecDepth 100000 in
/-- The last check of testBitTable.c: width 40, actions 0, 3, 15 and 39 on event
100 and action 0 on event 255, read into 512 words. -/
theorem read_widened_scenario :
    bitTableRead { ftvlULong := true, bptr := List.replicate 512 7, nord := 0, nsev := 0 }
        { bitsPerEvent := 40, wordsPerEvent := 2,
          table := [(100, [(0, true), (3, true), (15, true), (39, true)]), (255, [(0, true)])],
          changing := true } =
      some { ret := 0,
             prec := { ftvlULong := true,
                       bptr := List.replicate 200 0 ++ [0x80, 0x8009] ++ List.replicate 309 0 ++ [1],
                       nord := 512, nsev := 0 },
             table := { bitsPerEvent := 40, wordsPerEvent := 2,
                        table := [(100, [(0, true), (3, true), (15, true), (39, true)]),
                                  (255, [(0, true)])],
                        changing := false } } := by
  decide

theorem update_duplicate_strands_witness :
    ∃ r, bitTableUpdate { val := 100, nsev := 0 } exPacked { action := 0, prevEvent := 255 }
        = some r ∧
      r.ret = -1 ∧ r.table.holds 255 0 = false ∧ r.table.holds 100 0 = true ∧
      r.pvt.prevEvent = 0 ∧
      ∃ r2, bitTableUpdate { val := 255, nsev := 0 } r.table r.pvt = some r2 ∧ r2.ret = 0 ∧
        r2.table.holds 255 0 = true ∧ r2.pvt.prevEvent = 255 := by
  obtain ⟨r, h1, h2, h3, h4, h5, _, h7⟩ :=
    update_duplicate_strands { val := 100, nsev := 0 } exPacked { action := 0, prevEvent := 255 }
      0 100 rfl (by norm_num) (by decide) (by decide) (by decide) (by decide) (by decide) rfl
      (by decide)
  obtain ⟨r2, g1, g2, g3, g4, _⟩ := h7 { val := 255, nsev := 0 } 255 (by decide) (by decide)
    rfl h3
  exact ⟨r, h1, h2, h3, h4, h5, r2, g1, g2, g3, g4⟩

theorem action_events_owned_witness :
    (∃ i, exTwoEvents.owns i 100 0 ∧ ∀ j, exTwoEvents.owns j 100 0 → j = i) ∧
    ∃ i j, i ≠ j ∧ exTwoEvents.owns i 100 0 ∧ exTwoEvents.owns j 255 0 := by
  have h := action_events_owned [0, 0] exTwoEvents exTwoEvents_reachable 0 100 255
    (by decide) (by decide)
  exact ⟨h.1, h.2.1 (by decide)⟩

theorem setWords_width_witness :
    (bitTableSetWords { val := 40, nsev := 0 } exPacked { action := 0, prevEvent := 0 }).ret = 0 ∧
    (bitTableSetWords { val := 40, nsev := 0 } exPacked
      { action := 0, prevEvent := 0 }).table.bitsPerEvent = 40 ∧
    (bitTableSetWords { val := 40, nsev := 0 } exPacked
      { action := 0, prevEvent := 0 }).table.wordsPerEvent = 2 := by
  have h := setWords_width { val := 40, nsev := 0 } exPacked { action := 0, prevEvent := 0 } 40
    rfl (by norm_num) (by norm_num)
  exact ⟨h.1, h.2.1, h.2.2.2.2.2.2.2.1 1 8 (by norm_num) (by norm_num) (by norm_num)⟩

theorem setWords_rejects_nonpositive_witness :
    (bitTableSetWords { val := 0, nsev := 0 } exPacked { action := 0, prevEvent := 0 }).ret = -1 ∧
    (bitTableSetWords { val := 0, nsev := 0 } exPacked
      { action := 0, prevEvent := 0 }).table = exPacked ∧
    (bitTableSetWords { val := 0, nsev := 0 } exPacked
      { action := 0, prevEvent := 0 }).scan = false := by
  have h := setWords_rejects_nonpositive { val := 0, nsev := 0 } exPacked
    { action := 0, prevEvent := 0 } (le_refl _)
  exact ⟨h.1, h.2.1, h.2.2.1⟩

theorem read_alarm_advisory_witness :
    ∃ r, bitTableRead exRecord exOutOfRange = some r ∧ r.ret = 0 ∧
      r.prec.nsev = MAJOR_ALARM := by
  obtain ⟨r, h1, h2, _, _, h5⟩ := read_alarm_advisory exRecord exOutOfRange (by decide) rfl
    (le_of_eq (by show 256 * 1 = (List.replicate 256 0).length; rw [List.length_replicate]))
  exact ⟨r, h1, h2, (h5 rfl).1.2 ⟨100, 15, by decide, by decide⟩⟩

theorem read_short_buffer_witness :
    bitTableRead exShort exPacked =
      some { ret := -1, prec := exShort.setSevr INVALID_ALARM,
             table := { exPacked with changing := false } } :=
  read_short_buffer exShort exPacked rfl (by decide) (by decide)

theorem update_idempotent_witness :
    ∃ r1 r2, bitTableUpdate { val := 255, nsev := 0 } exPacked { action := 3, prevEvent := 100 }
        = some r1 ∧
      bitTableUpdate { val := 255, nsev := 0 } r1.table r1.pvt = some r2 ∧
      r2.table = r1.table ∧ r2.pvt = r1.pvt := by
  have h := update_idempotent { val := 255, nsev := 0 } { val := 255, nsev := 0 } exPacked
    { action := 3, prevEvent := 100 } (by decide) rfl
  obtain ⟨r1, h1⟩ := h.2 (fun _ => by decide)
  obtain ⟨r2, g1, g2, g3, _⟩ := h.1 r1 h1
  exact ⟨r1, r2, h1, g1, g2, g3⟩

theorem update_then_zero_restores_witness :
    ∃ r1 r2, bitTableUpdate { val := 255, nsev := 0 } exPacked { action := 3, prevEvent := 0 }
        = some r1 ∧ r1.ret = 0 ∧
      bitTableUpdate { val := 0, nsev := 0 } r1.table r1.pvt = some r2 ∧ r2.ret = 0 ∧
      r2.table.table = exPacked.table := by
  obtain ⟨r1, r2, h1, h2, h3, h4, h5, _⟩ :=
    update_then_zero_restores { val := 255, nsev := 0 } { val := 0, nsev := 0 } exPacked
      { action := 3, prevEvent := 0 } 3 255 rfl (by norm_num) rfl (by norm_num) rfl rfl
      (by decide) (by decide) (by decide)
  exact ⟨r1, r2, h1, h2, h3, h4, h5⟩

/-! ## Scan requests along a sequence of calls -/

theorem update_changing (prec : LongoutRecord) (tbl : BitTable) (pvt : BitDev) (r : WriteResult)
    (h : bitTableUpdate prec tbl pvt = some r) :
    (r.scan = true → tbl.changing = false ∧ r.table.changing = true) ∧
    (tbl.changing = true → r.table.changing = true) := by
  by_cases ha : pvt.action < 0
  · unfold bitTableUpdate at h
    simp only [ha, if_true] at h
    have h1 := Option.some.inj h
    subst h1
    exact ⟨fun h => absurd h (by simp), fun h => h⟩
  · rw [update_coerceVal] at h
    obtain ⟨hval, he⟩ := coerceVal_val prec
    generalize coerceVal prec = q at h hval he
    generalize q.val.toNat = e at h hval he
    by_cases heq : e = pvt.prevEvent
    · rw [update_noop q tbl pvt e (by omega) he hval heq] at h
      have h1 := Option.some.inj h
      subst h1
      exact ⟨fun h => absurd h (by simp), fun h => h⟩
    · cases hclear : clearPrevious tbl.table pvt with
      | none =>
        unfold bitTableUpdate at h
        rw [newEvent_of_code q e he hval] at h
        have hne1 : q.val.toNat % 256 = e := by rw [hval]; simp; omega
        simp [hne1, ha, heq, hclear] at h
      | some pr =>
        obtain ⟨tab1, pvt1⟩ := pr
        rw [update_of_code q tbl pvt e (by omega) he hval heq tab1 _ hclear] at h
        by_cases hd : e ≠ 0 ∧ cellActive tab1 e (toU32 pvt.action) = true
        · rw [if_pos hd] at h
          have h1 := Option.some.inj h
          subst h1
          exact ⟨fun h => absurd h (by simp), fun h => h⟩
        · rw [if_neg hd] at h
          have h1 := Option.some.inj h
          subst h1
          refine ⟨fun h => ⟨?_, rfl⟩, fun _ => rfl⟩
          simpa using h

theorem setWords_changing (prec : LongoutRecord) (tbl : BitTable) (pvt : BitDev) :
    ((bitTableSetWords prec tbl pvt).scan = true →
      tbl.changing = false ∧ (bitTableSetWords prec tbl pvt).table.changing = true) ∧
    (tbl.changing = true → (bitTableSetWords prec tbl pvt).table.changing = true) := by
  unfold bitTableSetWords
  by_cases hv : prec.val ≤ 0
  · rw [if_pos hv]
    exact ⟨fun h => absurd h (by simp), fun h => h⟩
  · rw [if_neg hv]
    refine ⟨fun h => ⟨?_, rfl⟩, fun _ => rfl⟩
    simpa using h

theorem stepOut_scan (s : Sys) (op : Op) (o : StepOut) (hop : op.isRender = false)
    (h : stepOut s op = some o) :
    (o.scan = true → s.table.changing = false ∧ o.sys.table.changing = true) ∧
    (s.table.changing = true → o.sys.table.changing = true) := by
  cases op with
  | setWords i val =>
    simp only [stepOut] at h
    cases hd : s.devs[i]? with
    | none => simp [hd] at h
    | some d =>
      simp only [hd, Option.some.injEq] at h
      subst h
      exact setWords_changing _ _ _
  | update i val =>
    simp only [stepOut] at h
    cases hd : s.devs[i]? with
    | none => simp [hd] at h
    | some d =>
      simp only [hd] at h
      cases hr : bitTableUpdate { val := val, nsev := 0 } s.table d with
      | none => simp [hr] at h
      | some r =>
        simp only [hr, Option.some.injEq] at h
        subst h
        exact update_changing _ _ _ r hr
  | read prec =>
    simp only [Op.isRender] at hop
    simp only [stepOut, bitTableRead, hop, Bool.not_false, if_true, Option.some.injEq] at h
    subst h
    exact ⟨fun h => absurd h (by simp), fun h => h⟩

theorem stepOut_render (s : Sys) (prec : AaiRecord) (o : StepOut)
    (hf : prec.ftvlULong = true) (h : stepOut s (.read prec) = some o) :
    o.sys.table.changing = false ∧ o.scan = false := by
  simp only [stepOut] at h
  cases hr : bitTableRead prec s.table with
  | none => simp [hr] at h
  | some r =>
    simp only [hr, Option.some.injEq] at h
    subst h
    refine ⟨?_, rfl⟩
    show r.table.changing = false
    unfold bitTableRead at hr
    have hf2 : ¬ ((!prec.ftvlULong) = true) := by simp [hf]
    rw [if_neg hf2] at hr
    simp only at hr
    by_cases hc : prec.nelm < u32 (nEvents * s.table.wordsPerEvent)
    · rw [if_pos hc] at hr
      have h1 := Option.some.inj hr
      subst h1; rfl
    · rw [if_neg hc] at hr
      split at hr
      · exact absurd hr (by simp)
      · have h1 := Option.some.inj hr
        subst h1; rfl

theorem scanCount_cons (e : Int × Bool) (tr : List (Int × Bool)) :
    scanCount (e :: tr) = scanCount tr + (if e.2 = true then 1 else 0) := by
  unfold scanCount
  cases h : e.2 <;> simp [List.filter, h]

theorem runTrace_quiet (ops : List Op) (s s1 : Sys) (tr : List (Int × Bool))
    (hseg : ∀ op ∈ ops, op.isRender = false) (hrun : runTrace s ops = some (s1, tr)) :
    scanCount tr ≤ 1 ∧
    (s.table.changing = true → scanCount tr = 0 ∧ s1.table.changing = true) ∧
    (scanCount tr = 1 → s1.table.changing = true) := by
  induction ops generalizing s tr with
  | nil =>
    simp only [runTrace, Option.some.injEq, Prod.mk.injEq] at hrun
    obtain ⟨h1, h2⟩ := hrun
    subst h1; subst h2
    exact ⟨by simp [scanCount], fun h => ⟨by simp [scanCount], h⟩,
      fun h => by simp [scanCount] at h⟩
  | cons op ops ih =>
    simp only [runTrace] at hrun
    cases ho : stepOut s op with
    | none => simp [ho] at hrun
    | some o =>
      simp only [ho] at hrun
      cases hr : runTrace o.sys ops with
      | none => simp [hr] at hrun
      | some r =>
        simp only [hr, Option.some.injEq, Prod.mk.injEq] at hrun
        obtain ⟨h1, h2⟩ := hrun
        subst h1; subst h2
        have hstep := stepOut_scan s op o (hseg op (List.mem_cons_self _ _)) ho
        have hrest := ih o.sys r.2 (fun op1 h => hseg op1 (List.mem_cons_of_mem _ h))
          (by rw [hr])
        rw [scanCount_cons]
        simp only
        cases hsc : o.scan with
        | true =>
          have := hstep.1 hsc
          have h0 := hrest.2.1 this.2
          rw [h0.1]
          refine ⟨by simp, fun hch => ?_, fun _ => h0.2⟩
          rw [this.1] at hch; exact absurd hch (by simp)
        | false =>
          simp only [Bool.false_eq_true, if_false, Nat.add_zero]
          exact ⟨hrest.1, fun hch => hrest.2.1 (hstep.2 hch), hrest.2.2⟩

/-- C11 (amended). Along any sequence of `bitTableSetWords`, `bitTableUpdate`
and rejected-type read calls on one table that returns, at most one scan is
requested, and none when `changing` was already set; a read of an unsigned
record, whether it returns 0 or fails on the capacity, requests no scan and
leaves `changing` clear. So at most one scan is requested before the first
such read and between two consecutive ones. -/
theorem scans_coalesced (s s1 : Sys) (ops : List Op) (tr : List (Int × Bool))
    (hseg : ∀ op ∈ ops, op.isRender = false) (hrun : runTrace s ops = some (s1, tr)) :
    scanCount tr ≤ 1 ∧ (s.table.changing = true → scanCount tr = 0) ∧
    (∀ (prec : AaiRecord) (o : StepOut), prec.ftvlULong = true →
      stepOut s1 (.read prec) = some o → o.sys.table.changing = false ∧ o.scan = false) := by
  have h := runTrace_quiet ops s s1 tr hseg hrun
  exact ⟨h.1, fun hc => (h.2.1 hc).1, fun prec o hf ho => stepOut_render s1 prec o hf ho⟩

set_option maxRecDepth 100000 in
/-- C11 (counterexample). Width 4 and one record with action 1: a read into 256
words returns 0, an update to event 100 requests a scan, a read into two words
fails and clears `changing`, an update to event 200 requests a second scan, and
a read into 256 words returns 0: two scans are requested between two
consecutive successful reads. -/
theorem two_scans_between_successful_reads :
    (runTrace { table := exPacked, devs := [{ action := 1, prevEvent := 0 }] }
      [.read exRecord, .update 0 100, .read exShort, .update 0 200, .read exRecord]).map
        (fun r => r.2) =
      some [(0, false), (0, true), (-1, false), (0, true), (0, false)] := by
  decide

set_option maxRecDepth 100000 in
theorem scans_coalesced_witness :
    ∃ s1 tr, runTrace { table := exPacked, devs := [{ action := 1, prevEvent := 0 }] }
        [.update 0 100, .setWords 0 16, .update 0 200] = some (s1, tr) ∧
      scanCount tr ≤ 1 := by
  have hrun : ∃ r, runTrace { table := exPacked, devs := [{ action := 1, prevEvent := 0 }] }
      [.update 0 100, .setWords 0 16, .update 0 200] = some r := by
    refine ⟨_, rfl⟩
  obtain ⟨r, hr⟩ := hrun
  exact ⟨r.1, r.2, hr, (scans_coalesced _ r.1 _ r.2 (by decide) hr).1⟩

/-! ## The scenarios of the repository test -/

set_option maxRecDepth 100000 in
/-- C23 (counterexample). Width 4 and three records with the actions 0, 1 and
3, updated to the events 100, 255 and 100: the word of event 255 rendered into
a buffer of 256 words is 2, bit 1 for action 1, not 1. -/
theorem basic_packing_action_one :
    ((runTrace (Sys.init [0, 1, 3])
        [.setWords 0 4, .update 0 100, .update 1 255, .update 2 100]).bind
        (fun r => bitTableRead exRecord r.1.table)).map (fun r => r.prec.bptr[255]?) =
      some (some 2) ∧ (2 : Nat) ≠ 1 := by
  decide

set_option maxRecDepth 100000 in
/-- C23 (amended). Width 4 and three records updated to the events 100, 255
and 100, rendered into a buffer of 256 words without alarm: with the actions
0, 1 and 3 word 100 is `0x9`, word 255 is `0x2` and every other word is zero;
with the actions 0, 0 and 3 word 100 is `0x9`, word 255 is `0x1` and every
other word is zero. -/
theorem basic_packing :
    ((runTrace (Sys.init [0, 1, 3])
        [.setWords 0 4, .update 0 100, .update 1 255, .update 2 100]).bind
        (fun r => bitTableRead exRecord r.1.table)).map
        (fun r => (r.ret, r.prec.nsev, r.prec.nord, r.prec.bptr)) =
      some (0, 0, 256, List.replicate 100 0 ++ [0x9] ++ List.replicate 154 0 ++ [0x2]) ∧
    ((runTrace (Sys.init [0, 0, 3])
        [.setWords 0 4, .update 0 100, .update 1 255, .update 2 100]).bind
        (fun r => bitTableRead exRecord r.1.table)).map
        (fun r => (r.ret, r.prec.nsev, r.prec.nord, r.prec.bptr)) =
      some (0, 0, 256, List.replicate 100 0 ++ [0x9] ++ List.replicate 154 0 ++ [0x1]) := by
  decide

set_option maxRecDepth 100000 in
/-- C28. One record with action 0: after `bitTableSetWords` with the width
`2^29 + 1` the table has `2^24 + 1` words per event, and the 32-bit product
`256 * wordsPerEvent` is 256, not `2^32 + 256`; after an update to event 1 the
word index of the cell is `2^25 + 1`, and `bitTableRead` accepts a record of
256 words and stores outside its buffer. -/
theorem read_overruns_wide_table :
    (runTrace (Sys.init [0]) [.setWords 0 (2 ^ 29 + 1), .update 0 1]).map
        (fun r => (r.1.table, r.2)) =
      some ({ bitsPerEvent := 2 ^ 29 + 1, wordsPerEvent := 2 ^ 24 + 1,
              table := [(1, [(0, true)])], changing := true },
            [(0, true), (0, false)]) ∧
    u32 (nEvents * (2 ^ 24 + 1)) = 256 ∧
    wordIndex (2 ^ 24 + 1) 1 0 = 2 ^ 25 + 1 ∧
    (runTrace (Sys.init [0]) [.setWords 0 (2 ^ 29 + 1), .update 0 1]).bind
        (fun r => bitTableRead exRecord r.1.table) = none := by
  decide

/-! ## The table and the records that own its cells -/

theorem present_iff_holds (tab : StdMap (StdMap Bool)) (hwf : rowsWf tab) (hfull : rowsFull tab)
    (e a : Nat) :
    (∃ row, tab.find e = some row ∧ (row.find a).isSome = true) ↔ cellActive tab e a = true := by
  unfold cellActive
  constructor
  · rintro ⟨row, hrow, hsome⟩
    rw [hrow]
    obtain ⟨b, hb⟩ := Option.isSome_iff_exists.1 hsome
    have hmem := (StdMap.find_eq_some_iff tab hwf.1 e row).1 hrow
    have hb1 := (StdMap.find_eq_some_iff row (hwf.2 _ hmem).2 a b).1 hb
    have hbt : b = true := (hfull _ hmem).2 _ hb1
    show (row.find a == some true) = true
    rw [hb, hbt]
    rfl
  · intro h
    cases hrow : StdMap.find tab e with
    | none => rw [hrow] at h; exact absurd h (by simp)
    | some row =>
      rw [hrow] at h
      refine ⟨row, rfl, ?_⟩
      have h1 : row.find a = some true := by simpa using h
      rw [h1]; rfl

/-- C27. In every state reached from the empty table by processing records,
the table has a cell `(e, a)` exactly when one record, and no other, is bound
with the action `a` and has the previous event `e`, not 0; no row is empty and
every stored boolean is true; and `bitTableUpdate` returns for every record
and every value, so its `assert(erased)` does not fail. -/
theorem table_is_owned_cells (actions : List Int) (s : Sys) (h : Reachable actions s) :
    (∀ e a, (∃ row, s.table.table.find e = some row ∧ (row.find a).isSome = true) ↔
      ∃ i, s.owns i e a ∧ ∀ j, s.owns j e a → j = i) ∧
    (∀ p ∈ s.table.table, p.2 ≠ [] ∧ ∀ q ∈ p.2, q.2 = true) ∧
    (∀ (i : Nat) (d : BitDev) (val : Int), s.devs[i]? = some d →
      ∃ r, bitTableUpdate { val := val, nsev := 0 } s.table d = some r) := by
  obtain ⟨hwf, hfull, hown, huniq⟩ := reachable_inv actions s h
  refine ⟨?_, hfull, ?_⟩
  · intro e a
    rw [present_iff_holds s.table.table hwf.1 hfull e a]
    constructor
    · intro hh
      obtain ⟨i, hi⟩ := (hown e a).1 hh
      exact ⟨i, hi, fun j hj => huniq j i e a hj hi⟩
    · rintro ⟨i, hi, _⟩
      exact (hown e a).2 ⟨i, hi⟩
  · intro i d val hd
    by_cases hneg : d.action < 0
    · unfold bitTableUpdate
      simp only []
      rw [if_pos hneg]
      exact ⟨_, rfl⟩
    · apply update_returns
      intro hne
      exact (hown d.prevEvent (toU32 d.action)).2
        ⟨i, d, hd, Int.not_lt.1 hneg, rfl, rfl, hne⟩

theorem table_is_owned_cells_witness :
    ((∃ row, exTwoEvents.table.table.find 100 = some row ∧ (row.find 0).isSome = true) ↔
      ∃ i, exTwoEvents.owns i 100 0 ∧ ∀ j, exTwoEvents.owns j 100 0 → j = i) ∧
    ∃ r, bitTableUpdate { val := 7, nsev := 0 } exTwoEvents.table
      { action := 0, prevEvent := 100 } = some r := by
  have h := table_is_owned_cells [0, 0] exTwoEvents exTwoEvents_reachable
  exact ⟨h.1 100 0, h.2.2 0 { action := 0, prevEvent := 100 } 7 rfl⟩

end BitTbl

namespace EvtTbl

/-! ## The pool of a queue -/

theorem pool_eq (log log1 : EventLog) (qi : Nat) (q q1 : EventQueue)
    (hq : log.queues[qi]? = some q) (hqs : log1.queues = log.queues.set qi q1)
    (hlen : q1.unused.length + q1.que.length = q.unused.length + q.que.length) (qj : Nat) :
    log1.pool qj = log.pool qj := by
  unfold EventLog.pool
  rw [hqs]
  have hlt : qi < log.queues.length := (List.getElem?_eq_some.1 hq).1
  by_cases hj : qi = qj
  · subst hj
    rw [List.getElem?_set_self hlt, hq]
    exact hlen
  · rw [List.getElem?_set_ne hj]

theorem pool_congr (log log1 : EventLog) (hqs : log1.queues = log.queues) (qj : Nat) :
    log1.pool qj = log.pool qj := by
  unfold EventLog.pool; rw [hqs]

theorem receive_length (q : EventQueue) (ts : TimeStamp) (mask : Nat) :
    (q.receive ts mask).unused.length + (q.receive ts mask).que.length =
      q.unused.length + q.que.length := by
  unfold EventQueue.receive
  cases hu : q.unused with
  | nil => simp only []; split_ifs <;> simp [hu]
  | cons x rest =>
    simp only []
    split_ifs <;> simp [hu] <;> omega

theorem deliver_pool (ts : TimeStamp) (scan : Nat → Nat) (st : InputState) (qi qj : Nat) :
    (deliver ts scan st qi).log.pool qj = st.log.pool qj := by
  unfold deliver
  cases hq : st.log.queues[qi]? with
  | none => rfl
  | some q =>
    exact pool_eq st.log _ qi q (q.receive ts (scan qi)) hq rfl
      (receive_length q ts (scan qi)) qj

theorem foldl_deliver_pool (ts : TimeStamp) (scan : Nat → Nat) (tg : List Nat)
    (st : InputState) (qj : Nat) :
    (tg.foldl (deliver ts scan) st).log.pool qj = st.log.pool qj := by
  induction tg generalizing st with
  | nil => rfl
  | cons qi rest ih =>
    rw [List.foldl_cons, ih, deliver_pool]

theorem processTriple_pool (scan : Nat → Nat) (st : InputState) (t : Nat × Nat × Nat)
    (qj : Nat) : (processTriple scan st t).log.pool qj = st.log.pool qj := by
  unfold processTriple
  simp only []
  split_ifs
  · rfl
  · rw [foldl_deliver_pool]; rfl
  · rw [foldl_deliver_pool]

theorem foldl_processTriple_pool (scan : Nat → Nat) (ts : List (Nat × Nat × Nat))
    (st : InputState) (qj : Nat) :
    (ts.foldl (processTriple scan) st).log.pool qj = st.log.pool qj := by
  induction ts generalizing st with
  | nil => rfl
  | cons t rest ih => rw [List.foldl_cons, ih, processTriple_pool]

theorem input_pool (prec : AaoRecord) (scan : Nat → Nat) (log : EventLog) (qj : Nat) :
    (eventLogInput prec scan log).log.pool qj = log.pool qj := by
  unfold eventLogInput
  split_ifs
  · rfl
  · exact foldl_processTriple_pool scan _ _ qj

theorem setEvent_pool (prec : BitTbl.LongoutRecord) (log : EventLog) (qi qj : Nat) :
    (eventLogSetEvent prec log qi).log.pool qj = log.pool qj := by
  unfold eventLogSetEvent
  cases hq : log.queues[qi]? with
  | none => rfl
  | some q =>
    simp only []
    by_cases he : q.event ≠ 0 <;> by_cases hv : (BitTbl.coerceVal prec).val ≠ 0
    · rw [if_pos hv, if_pos he, if_pos he]
      simp only [List.set_set]
      exact pool_eq log _ qi q
        { q with event := (BitTbl.coerceVal prec).val.toNat % 256 } hq rfl rfl qj
    · rw [if_neg hv, if_pos he]
      exact pool_eq log _ qi q { q with event := 0 } hq rfl rfl qj
    · rw [if_pos hv, if_neg he, if_neg he]
      exact pool_eq log _ qi q
        { q with event := (BitTbl.coerceVal prec).val.toNat % 256 } hq rfl rfl qj
    · rw [if_neg hv, if_neg he]

theorem setMult_pool (prec : AoRecord) (log : EventLog) (qj : Nat) :
    (eventLogSetMult prec log).log.pool qj = log.pool qj := by
  unfold eventLogSetMult
  cases prec.val with
  | none => rfl
  | some v => simp only []; split_ifs <;> rfl

theorem clear_pool (prec : BitTbl.LongoutRecord) (log : EventLog) (qi qj : Nat) :
    (eventLogClear prec log qi).log.pool qj = log.pool qj := by
  unfold eventLogClear
  cases hq : log.queues[qi]? with
  | none => rfl
  | some q =>
    simp only []
    split_ifs
    · rfl
    · refine pool_eq log _ qi q { q with unused := q.unused ++ q.que, que := [] } hq rfl ?_ qj
      simp

theorem outBuf_pool (prec : AaiRecord) (autoclear : Bool) (log : EventLog) (qi qj : Nat) :
    (eventLogOutBuf prec autoclear log qi).log.pool qj = log.pool qj := by
  unfold eventLogOutBuf
  by_cases hf : (!prec.ftvlDouble) = true
  · rw [if_pos hf]
  · rw [if_neg hf]
    cases hq : log.queues[qi]? with
    | none => rfl
    | some q =>
      simp only []
      cases hque : q.que with
      | nil => rfl
      | cons t0 rest =>
        simp only []
        cases autoclear with
        | false => rfl
        | true =>
          simp only [if_true]
          refine pool_eq log _ qi q
            { q with unused := q.unused ++ (t0 :: rest).take (min prec.nelm (t0 :: rest).length),
                     que := (t0 :: rest).drop (min prec.nelm (t0 :: rest).length) }
            hq rfl ?_ qj
          simp only [List.length_append, List.length_take, List.length_drop, hque]
          omega

theorem complete_pool (log lg : EventLog) (qi prio qj : Nat)
    (h : onChangeComplete log qi prio = some lg) : lg.pool qj = log.pool qj := by
  unfold onChangeComplete at h
  cases hq : log.queues[qi]? with
  | none =>
    rw [hq] at h
    have := Option.some.inj h
    subst this; rfl
  | some q =>
    rw [hq] at h
    simp only [] at h
    split_ifs at h
    have := Option.some.inj h
    subst this
    exact pool_eq log _ qi q
      { q with changing := q.changing &&& (2 ^ 32 - 1 - BitTbl.u32 (1 <<< prio)) } hq rfl rfl qj

theorem resizeUnused_grows (nelm : Nat) (log lg : EventLog) (qj qi : Nat)
    (h : resizeUnused nelm log qj = some lg) (q : EventQueue) (hq : log.queues[qi]? = some q) :
    ∃ q1, lg.queues[qi]? = some q1 ∧ q.unused.length ≤ q1.unused.length ∧ q1.que = q.que ∧
      (qj = qi → nelm ≤ q1.unused.length ∧ q1.que = []) := by
  unfold resizeUnused at h
  cases hqj : log.queues[qj]? with
  | none =>
    rw [hqj] at h
    have := Option.some.inj h
    subst this
    refine ⟨q, hq, le_refl _, rfl, ?_⟩
    intro hij; subst hij; rw [hq] at hqj; exact absurd hqj (by simp)
  | some q0 =>
    rw [hqj] at h
    simp only [] at h
    cases hemp : q0.que.isEmpty with
    | false => simp [hemp] at h
    | true =>
      have hnil : q0.que = [] := by simpa [List.isEmpty_iff] using hemp
      simp only [hemp, Bool.not_true, Bool.false_eq_true, if_false] at h
      by_cases hlt : q0.unused.length < nelm
      · rw [if_pos hlt] at h
        have := Option.some.inj h
        subst this
        have hlen : qj < log.queues.length := (List.getElem?_eq_some.1 hqj).1
        by_cases hij : qj = qi
        · subst hij
          rw [hq] at hqj
          have := Option.some.inj hqj
          subst this
          refine ⟨_, List.getElem?_set_self hlen, ?_, rfl, fun _ => ⟨?_, hnil⟩⟩
          · simp
          · simp only [List.length_append, List.length_replicate]; omega
        · refine ⟨q, ?_, le_refl _, rfl, fun h => absurd h hij⟩
          show (log.queues.set qj _)[qi]? = some q
          rw [List.getElem?_set_ne hij]; exact hq
      · rw [if_neg hlt] at h
        have := Option.some.inj h
        subst this
        refine ⟨q, hq, le_refl _, rfl, ?_⟩
        intro hij; subst hij
        rw [hq] at hqj
        have := Option.some.inj hqj
        subst this
        exact ⟨by omega, hnil⟩

/-- C12. The pool of a queue is conserved. For every log and queue position the
number `|unused| + |que|` is the same after `eventLogInput`, `eventLogOutBuf`
(with autoclear set or clear), `eventLogClear`, `eventLogSetEvent`,
`eventLogSetMult` and the completion callback as before, for every input and
whichever queue the call is bound to; the sizing of `eventLogInitRecordOutBuf`
never shortens `unused`, leaves `que` as it is and leaves at least `NELM` free
elements in the queue it is called for. -/
theorem pool_conserved (log : EventLog) (qi : Nat) :
    (∀ prec scan, (eventLogInput prec scan log).log.pool qi = log.pool qi) ∧
    (∀ prec autoclear qj, (eventLogOutBuf prec autoclear log qj).log.pool qi = log.pool qi) ∧
    (∀ prec qj, (eventLogClear prec log qj).log.pool qi = log.pool qi) ∧
    (∀ prec qj, (eventLogSetEvent prec log qj).log.pool qi = log.pool qi) ∧
    (∀ prec, (eventLogSetMult prec log).log.pool qi = log.pool qi) ∧
    (∀ qj prio lg, onChangeComplete log qj prio = some lg → lg.pool qi = log.pool qi) ∧
    (∀ nelm qj lg q, resizeUnused nelm log qj = some lg → log.queues[qi]? = some q →
      ∃ q1, lg.queues[qi]? = some q1 ∧ q.unused.length ≤ q1.unused.length ∧ q1.que = q.que ∧
        (qj = qi → nelm ≤ q1.unused.length ∧ q1.que = [])) :=
  ⟨fun prec scan => input_pool prec scan log qi,
   fun prec autoclear qj => outBuf_pool prec autoclear log qj qi,
   fun prec qj => clear_pool prec log qj qi,
   fun prec qj => setEvent_pool prec log qj qi,
   fun prec => setMult_pool prec log qi,
   fun qj prio lg h => complete_pool log lg qj prio qi h,
   fun nelm qj lg q h hq => resizeUnused_grows nelm log lg qj qi h q hq⟩

/-! ## Calls that leave the listener index alone -/

theorem sameIndex_refl (log : EventLog) : log.sameIndex log := ⟨rfl, rfl, fun _ => rfl⟩

theorem sameIndex_trans (a b c : EventLog) (h1 : a.sameIndex b) (h2 : b.sameIndex c) :
    a.sameIndex c :=
  ⟨h2.1.trans h1.1, h2.2.1.trans h1.2.1, fun qj => (h2.2.2 qj).trans (h1.2.2 qj)⟩

theorem sameIndex_set (log log1 : EventLog) (qi : Nat) (q q1 : EventQueue)
    (hq : log.queues[qi]? = some q) (hl : log1.listeners = log.listeners)
    (hqs : log1.queues = log.queues.set qi q1) (he : q1.event = q.event) :
    log.sameIndex log1 := by
  refine ⟨hl, by rw [hqs, List.length_set], ?_⟩
  intro qj
  unfold EventLog.eventOf
  rw [hqs]
  have hlt : qi < log.queues.length := (List.getElem?_eq_some.1 hq).1
  by_cases hj : qi = qj
  · subst hj
    rw [List.getElem?_set_self hlt, hq]
    exact he
  · rw [List.getElem?_set_ne hj]

theorem receive_event (q : EventQueue) (ts : TimeStamp) (mask : Nat) :
    (q.receive ts mask).event = q.event := by
  unfold EventQueue.receive
  cases hu : q.unused <;> simp only [] <;> split_ifs <;> rfl

theorem deliver_sameIndex (ts : TimeStamp) (scan : Nat → Nat) (st : InputState) (qi : Nat) :
    st.log.sameIndex (deliver ts scan st qi).log ∧
    (deliver ts scan st qi).log.nsecPerTick = st.log.nsecPerTick := by
  unfold deliver
  cases hq : st.log.queues[qi]? with
  | none => exact ⟨sameIndex_refl _, rfl⟩
  | some q =>
    exact ⟨sameIndex_set st.log _ qi q (q.receive ts (scan qi)) hq rfl rfl
      (receive_event q ts (scan qi)), rfl⟩

theorem foldl_deliver_sameIndex (ts : TimeStamp) (scan : Nat → Nat) (tg : List Nat)
    (st : InputState) :
    st.log.sameIndex (tg.foldl (deliver ts scan) st).log ∧
    (tg.foldl (deliver ts scan) st).log.nsecPerTick = st.log.nsecPerTick := by
  induction tg generalizing st with
  | nil => exact ⟨sameIndex_refl _, rfl⟩
  | cons qi rest ih =>
    rw [List.foldl_cons]
    have h1 := deliver_sameIndex ts scan st qi
    have h2 := ih (deliver ts scan st qi)
    exact ⟨sameIndex_trans _ _ _ h1.1 h2.1, h2.2.trans h1.2⟩

theorem processTriple_sameIndex (scan : Nat → Nat) (st : InputState) (t : Nat × Nat × Nat) :
    st.log.sameIndex (processTriple scan st t).log ∧
    (processTriple scan st t).log.nsecPerTick = st.log.nsecPerTick := by
  unfold processTriple
  simp only []
  by_cases h0 : t.1 &&& 0xff = 0
  · rw [if_pos h0]; exact ⟨sameIndex_refl _, rfl⟩
  · rw [if_neg h0]
    by_cases hb : t.1 &&& 0x40000000 ≠ 0
    · rw [if_pos hb]
      have h := foldl_deliver_sameIndex (timeStampOf st.log.nsecPerTick t.2.1 t.2.2) scan
        (listenersOf st.log (t.1 &&& 0xff))
        { st with log := { st.log with nOverflows := BitTbl.u32 (st.log.nOverflows + 1) },
                  increments := st.increments + 1 }
      exact ⟨sameIndex_trans _ _ _ ⟨rfl, rfl, fun _ => rfl⟩ h.1, h.2⟩
    · rw [if_neg hb]
      exact foldl_deliver_sameIndex _ scan _ st

theorem foldl_processTriple_sameIndex (scan : Nat → Nat) (ts : List (Nat × Nat × Nat))
    (st : InputState) :
    st.log.sameIndex (ts.foldl (processTriple scan) st).log ∧
    (ts.foldl (processTriple scan) st).log.nsecPerTick = st.log.nsecPerTick := by
  induction ts generalizing st with
  | nil => exact ⟨sameIndex_refl _, rfl⟩
  | cons t rest ih =>
    rw [List.foldl_cons]
    have h1 := processTriple_sameIndex scan st t
    have h2 := ih (processTriple scan st t)
    exact ⟨sameIndex_trans _ _ _ h1.1 h2.1, h2.2.trans h1.2⟩

theorem input_sameIndex (prec : AaoRecord) (scan : Nat → Nat) (log : EventLog) :
    log.sameIndex (eventLogInput prec scan log).log ∧
    (eventLogInput prec scan log).log.nsecPerTick = log.nsecPerTick := by
  unfold eventLogInput
  by_cases hf : (!prec.ftvlULong) = true
  · rw [if_pos hf]; exact ⟨sameIndex_refl _, rfl⟩
  · rw [if_neg hf]
    exact foldl_processTriple_sameIndex scan _ _

theorem clear_sameIndex (prec : BitTbl.LongoutRecord) (log : EventLog) (qi : Nat) :
    log.sameIndex (eventLogClear prec log qi).log := by
  unfold eventLogClear
  cases hq : log.queues[qi]? with
  | none => exact sameIndex_refl _
  | some q =>
    simp only []
    split_ifs
    · exact sameIndex_refl _
    · exact sameIndex_set log _ qi q { q with unused := q.unused ++ q.que, que := [] } hq rfl
        rfl rfl

theorem outBuf_sameIndex (prec : AaiRecord) (autoclear : Bool) (log : EventLog) (qi : Nat) :
    log.sameIndex (eventLogOutBuf prec autoclear log qi).log := by
  unfold eventLogOutBuf
  by_cases hf : (!prec.ftvlDouble) = true
  · rw [if_pos hf]; exact sameIndex_refl _
  · rw [if_neg hf]
    cases hq : log.queues[qi]? with
    | none => exact sameIndex_refl _
    | some q =>
      simp only []
      cases hque : q.que with
      | nil => exact sameIndex_refl _
      | cons t0 rest =>
        simp only []
        cases autoclear with
        | false => exact sameIndex_refl _
        | true =>
          simp only [if_true]
          exact sameIndex_set log _ qi q
            { q with unused := q.unused ++ (t0 :: rest).take (min prec.nelm (t0 :: rest).length),
                     que := (t0 :: rest).drop (min prec.nelm (t0 :: rest).length) }
            hq rfl rfl rfl

theorem complete_sameIndex (log lg : EventLog) (qi prio : Nat)
    (h : onChangeComplete log qi prio = some lg) :
    log.sameIndex lg ∧ lg.nOverflows = log.nOverflows := by
  unfold onChangeComplete at h
  cases hq : log.queues[qi]? with
  | none =>
    rw [hq] at h
    have := Option.some.inj h
    subst this; exact ⟨sameIndex_refl _, rfl⟩
  | some q =>
    rw [hq] at h
    simp only [] at h
    split_ifs at h
    have := Option.some.inj h
    subst this
    exact ⟨sameIndex_set log _ qi q
      { q with changing := q.changing &&& (2 ^ 32 - 1 - BitTbl.u32 (1 <<< prio)) } hq rfl rfl
      rfl, rfl⟩

theorem setMult_sameIndex (prec : AoRecord) (log : EventLog) :
    log.sameIndex (eventLogSetMult prec log).log ∧
    (eventLogSetMult prec log).log.nOverflows = log.nOverflows := by
  unfold eventLogSetMult
  cases prec.val with
  | none => exact ⟨sameIndex_refl _, rfl⟩
  | some v => simp only []; split_ifs <;> exact ⟨⟨rfl, rfl, fun _ => rfl⟩, rfl⟩

theorem wf_of_sameIndex (log log1 : EventLog) (h : log.sameIndex log1)
    (hn : log1.nOverflows < 2 ^ 32) (hwf : log.wf) : log1.wf := by
  obtain ⟨hl, hlen, he⟩ := h
  obtain ⟨_, h2, h3, h4, h5⟩ := hwf
  refine ⟨hn, by rw [hl]; exact h2, ?_, ?_, by rw [hl]; exact h5⟩
  · intro p hp
    rw [hl] at hp
    rw [hlen, he]
    exact h3 p hp
  · intro qi hqi
    rw [hlen] at hqi
    rw [he, hl]
    exact h4 qi hqi

/-! ## The overflow counter -/

theorem u32_succ (n : Nat) : BitTbl.u32 (BitTbl.u32 n + 1) = BitTbl.u32 (n + 1) := by
  unfold BitTbl.u32; omega

theorem deliver_acct (n0 : Nat) (ts : TimeStamp) (scan : Nat → Nat) (st : InputState)
    (qi : Nat) (h : st.log.nOverflows = BitTbl.u32 (n0 + st.increments)) :
    (deliver ts scan st qi).log.nOverflows =
      BitTbl.u32 (n0 + (deliver ts scan st qi).increments) := by
  unfold deliver
  cases hq : st.log.queues[qi]? with
  | none => exact h
  | some q =>
    simp only []
    cases hu : q.unused.isEmpty with
    | true => simp only [if_true]; rw [h, u32_succ]; rfl
    | false => simpa using h

theorem foldl_deliver_acct (n0 : Nat) (ts : TimeStamp) (scan : Nat → Nat) (tg : List Nat)
    (st : InputState) (h : st.log.nOverflows = BitTbl.u32 (n0 + st.increments)) :
    (tg.foldl (deliver ts scan) st).log.nOverflows =
      BitTbl.u32 (n0 + (tg.foldl (deliver ts scan) st).increments) := by
  induction tg generalizing st with
  | nil => exact h
  | cons qi rest ih =>
    rw [List.foldl_cons]
    exact ih _ (deliver_acct n0 ts scan st qi h)

theorem processTriple_acct (n0 : Nat) (scan : Nat → Nat) (st : InputState)
    (t : Nat × Nat × Nat) (h : st.log.nOverflows = BitTbl.u32 (n0 + st.increments)) :
    (processTriple scan st t).log.nOverflows =
      BitTbl.u32 (n0 + (processTriple scan st t).increments) := by
  unfold processTriple
  simp only []
  by_cases h0 : t.1 &&& 0xff = 0
  · rw [if_pos h0]; exact h
  · rw [if_neg h0]
    apply foldl_deliver_acct
    by_cases hb : t.1 &&& 0x40000000 ≠ 0
    · rw [if_pos hb]
      show BitTbl.u32 (st.log.nOverflows + 1) = _
      rw [h, u32_succ]; rfl
    · rw [if_neg hb]; exact h

theorem foldl_processTriple_acct (n0 : Nat) (scan : Nat → Nat) (ts : List (Nat × Nat × Nat))
    (st : InputState) (h : st.log.nOverflows = BitTbl.u32 (n0 + st.increments)) :
    (ts.foldl (processTriple scan) st).log.nOverflows =
      BitTbl.u32 (n0 + (ts.foldl (processTriple scan) st).increments) := by
  induction ts generalizing st with
  | nil => exact h
  | cons t rest ih =>
    rw [List.foldl_cons]
    exact ih _ (processTriple_acct n0 scan st t h)

theorem input_acct (prec : AaoRecord) (scan : Nat → Nat) (log : EventLog)
    (hn : log.nOverflows < 2 ^ 32) :
    (eventLogInput prec scan log).log.nOverflows =
      BitTbl.u32 (log.nOverflows + (eventLogInput prec scan log).increments) := by
  have h0 : log.nOverflows = BitTbl.u32 (log.nOverflows + 0) := by
    unfold BitTbl.u32; omega
  unfold eventLogInput
  by_cases hf : (!prec.ftvlULong) = true
  · rw [if_pos hf]; exact h0
  · rw [if_neg hf]
    exact foldl_processTriple_acct log.nOverflows scan _
      { log := log, requests := [], increments := 0 } h0

theorem setEvent_nOverflows (prec : BitTbl.LongoutRecord) (log : EventLog) (qi : Nat) :
    (eventLogSetEvent prec log qi).log.nOverflows = log.nOverflows := by
  unfold eventLogSetEvent
  cases hq : log.queues[qi]? with
  | none => rfl
  | some q => simp only []; split_ifs <;> rfl

theorem clear_nOverflows (prec : BitTbl.LongoutRecord) (log : EventLog) (qi : Nat) :
    (eventLogClear prec log qi).log.nOverflows = log.nOverflows := by
  unfold eventLogClear
  cases hq : log.queues[qi]? with
  | none => rfl
  | some q => simp only []; split_ifs <;> rfl

theorem outBuf_nOverflows (prec : AaiRecord) (autoclear : Bool) (log : EventLog) (qi : Nat) :
    (eventLogOutBuf prec autoclear log qi).log.nOverflows = log.nOverflows := by
  unfold eventLogOutBuf
  by_cases hf : (!prec.ftvlDouble) = true
  · rw [if_pos hf]
  · rw [if_neg hf]
    cases hq : log.queues[qi]? with
    | none => rfl
    | some q =>
      simp only []
      cases hque : q.que with
      | nil => rfl
      | cons t0 rest => cases autoclear <;> rfl

/-- C16 (amended). The overflow counter changes only in `eventLogInput`, which
adds to it, modulo `2^32`, the number of increments of the batch; there it does
not decrease as long as the sum stays below `2^32`. `eventLogSetEvent`,
`eventLogSetMult`, `eventLogClear`, `eventLogOutBuf` and the completion
callback leave it as it is (`eventLogOutLast` does not write the log). -/
theorem overflow_counter (log : EventLog) (hn : log.nOverflows < 2 ^ 32) :
    (∀ prec scan,
      (eventLogInput prec scan log).log.nOverflows =
        BitTbl.u32 (log.nOverflows + (eventLogInput prec scan log).increments) ∧
      (log.nOverflows + (eventLogInput prec scan log).increments < 2 ^ 32 →
        log.nOverflows ≤ (eventLogInput prec scan log).log.nOverflows)) ∧
    (∀ prec qi, (eventLogSetEvent prec log qi).log.nOverflows = log.nOverflows) ∧
    (∀ prec, (eventLogSetMult prec log).log.nOverflows = log.nOverflows) ∧
    (∀ prec qi, (eventLogClear prec log qi).log.nOverflows = log.nOverflows) ∧
    (∀ prec autoclear qi,
      (eventLogOutBuf prec autoclear log qi).log.nOverflows = log.nOverflows) ∧
    (∀ qi prio lg, onChangeComplete log qi prio = some lg →
      lg.nOverflows = log.nOverflows) := by
  refine ⟨fun prec scan => ?_, fun prec qi => setEvent_nOverflows prec log qi,
    fun prec => (setMult_sameIndex prec log).2, fun prec qi => clear_nOverflows prec log qi,
    fun prec autoclear qi => outBuf_nOverflows prec autoclear log qi,
    fun qi prio lg h => (complete_sameIndex log lg qi prio h).2⟩
  have h := input_acct prec scan log hn
  refine ⟨h, fun hlt => ?_⟩
  rw [h]
  unfold BitTbl.u32
  rw [Nat.mod_eq_of_lt hlt]
  omega

/-- C16 (counterexample). With the counter at `2^32 - 1`, a batch of one triple
with event code 100 and bit 30 set leaves the counter at 0. -/
theorem overflow_counter_wraps :
    (eventLogInput { ftvlULong := true, bptr := [0x40000064, 0, 0], nord := 3, nsev := 0 }
      (fun _ => 0)
      { nOverflows := 2 ^ 32 - 1, nsecPerTick := 1, queues := [], listeners := [] }).log.nOverflows
      = 0 ∧ (0 : Nat) < 2 ^ 32 - 1 := by
  decide

theorem overflow_counter_witness :
    (eventLogInput { ftvlULong := true, bptr := [0x40000064, 0, 0], nord := 3, nsev := 0 }
      (fun _ => 0)
      { nOverflows := 7, nsecPerTick := 1, queues := [], listeners := [] }).log.nOverflows =
    BitTbl.u32 (7 + (eventLogInput
      { ftvlULong := true, bptr := [0x40000064, 0, 0], nord := 3, nsev := 0 } (fun _ => 0)
      { nOverflows := 7, nsecPerTick := 1, queues := [], listeners := [] }).increments) :=
  ((overflow_counter { nOverflows := 7, nsecPerTick := 1, queues := [], listeners := [] }
    (by decide)).1 _ _).1

/-! ## The listener index -/

theorem eraseListener_eq (l : List (Nat × Nat)) (evt qi : Nat) :
    eraseListener l evt qi = l.erase (evt, qi) := by
  induction l with
  | nil => rfl
  | cons p rest ih =>
    unfold eraseListener
    by_cases h : p.1 = evt ∧ p.2 = qi
    · rw [if_pos h]
      have hp : p = (evt, qi) := Prod.ext h.1 h.2
      subst hp
      simp
    · rw [if_neg h, ih]
      have hp : p ≠ (evt, qi) := fun he => h ⟨by rw [he], by rw [he]⟩
      rw [List.erase_cons_tail]
      simpa using hp

theorem insertListener_perm (l : List (Nat × Nat)) (evt qi : Nat) :
    (insertListener l evt qi).Perm ((evt, qi) :: l) := by
  induction l with
  | nil => exact List.Perm.refl _
  | cons p rest ih =>
    unfold insertListener
    by_cases h : evt < p.1
    · rw [if_pos h]
    · rw [if_neg h]
      exact (List.Perm.cons p ih).trans (List.Perm.swap _ _ _)

theorem insertListener_sorted (l : List (Nat × Nat)) (evt qi : Nat)
    (h : l.Pairwise (fun a b => a.1 ≤ b.1)) :
    (insertListener l evt qi).Pairwise (fun a b => a.1 ≤ b.1) := by
  induction l with
  | nil => unfold insertListener; simp
  | cons p rest ih =>
    unfold insertListener
    rw [List.pairwise_cons] at h
    by_cases hlt : evt < p.1
    · rw [if_pos hlt]
      refine List.pairwise_cons.2 ⟨?_, List.pairwise_cons.2 h⟩
      intro a ha
      rcases List.mem_cons.1 ha with ha | ha
      · rw [ha]; exact Nat.le_of_lt hlt
      · exact Nat.le_trans (Nat.le_of_lt hlt) (h.1 a ha)
    · rw [if_neg hlt]
      refine List.pairwise_cons.2 ⟨?_, ih h.2⟩
      intro a ha
      rcases List.mem_cons.1 ((insertListener_perm rest evt qi).mem_iff.1 ha) with ha | ha
      · rw [ha]; exact Nat.le_of_not_lt hlt
      · exact h.1 a ha

theorem eventOf_set (log log1 : EventLog) (qi : Nat) (q1 : EventQueue)
    (hlt : qi < log.queues.length) (hqs : log1.queues = log.queues.set qi q1) (qj : Nat) :
    log1.eventOf qj = if qj = qi then q1.event else log.eventOf qj := by
  unfold EventLog.eventOf
  rw [hqs]
  by_cases hj : qj = qi
  · subst hj
    rw [List.getElem?_set_self hlt, if_pos rfl]
  · rw [List.getElem?_set_ne (fun h => hj h.symm), if_neg hj]

theorem eventOf_of_getElem (log : EventLog) (qi : Nat) (q : EventQueue)
    (hq : log.queues[qi]? = some q) : log.eventOf qi = q.event := by
  unfold EventLog.eventOf; rw [hq]

theorem wf_unsubscribe (log log1 : EventLog) (qi : Nat) (q q1 : EventQueue)
    (hq : log.queues[qi]? = some q) (he1 : q1.event = 0)
    (hn : log1.nOverflows = log.nOverflows)
    (hl : log1.listeners = eraseListener log.listeners q.event qi)
    (hqs : log1.queues = log.queues.set qi q1) (hwf : log.wf) : log1.wf := by
  obtain ⟨h1, h2, h3, h4, h5⟩ := hwf
  have hlt : qi < log.queues.length := (List.getElem?_eq_some.1 hq).1
  have hev := eventOf_set log log1 qi q1 hlt hqs
  have hqe := eventOf_of_getElem log qi q hq
  have hnd : log.listeners.Nodup := List.Nodup.of_map _ h2
  rw [eraseListener_eq] at hl
  have hsub : log1.listeners.Sublist log.listeners := by rw [hl]; exact List.erase_sublist _ _
  refine ⟨by rw [hn]; exact h1, (h2.sublist (hsub.map _)), ?_, ?_, h5.sublist hsub⟩
  · intro p hp
    rw [hl, hnd.mem_erase_iff] at hp
    obtain ⟨hne, hp⟩ := hp
    obtain ⟨ha, hb, hc⟩ := h3 p hp
    have hpq : p.2 ≠ qi := by
      intro hpq
      apply hne
      apply Prod.ext
      · show p.1 = q.event
        rw [← hc, hpq, hqe]
      · exact hpq
    refine ⟨ha, by rw [hqs, List.length_set]; exact hb, ?_⟩
    rw [hev, if_neg hpq]; exact hc
  · intro qj hqj hne
    rw [hqs, List.length_set] at hqj
    rw [hev] at hne ⊢
    by_cases hj : qj = qi
    · rw [if_pos hj] at hne; exact absurd he1 hne
    · rw [if_neg hj] at hne ⊢
      rw [hl, hnd.mem_erase_iff]
      refine ⟨?_, h4 qj hqj hne⟩
      intro heq
      exact hj (congrArg Prod.snd heq)

theorem wf_subscribe (log log1 : EventLog) (qi v : Nat) (q q1 : EventQueue)
    (hq : log.queues[qi]? = some q) (he : q.event = 0) (he1 : q1.event = v) (hv : v ≠ 0)
    (hn : log1.nOverflows = log.nOverflows)
    (hl : log1.listeners = insertListener log.listeners v qi)
    (hqs : log1.queues = log.queues.set qi q1) (hwf : log.wf) : log1.wf := by
  obtain ⟨h1, h2, h3, h4, h5⟩ := hwf
  have hlt : qi < log.queues.length := (List.getElem?_eq_some.1 hq).1
  have hev := eventOf_set log log1 qi q1 hlt hqs
  have hqe := eventOf_of_getElem log qi q hq
  have hperm := insertListener_perm log.listeners v qi
  have hnot : qi ∉ log.listeners.map Prod.snd := by
    intro hmem
    obtain ⟨p, hp, hpq⟩ := List.mem_map.1 hmem
    obtain ⟨ha, _, hc⟩ := h3 p hp
    rw [hpq, hqe, he] at hc
    exact ha hc.symm
  refine ⟨by rw [hn]; exact h1, ?_, ?_, ?_, by rw [hl]; exact insertListener_sorted _ _ _ h5⟩
  · rw [hl]
    refine ((hperm.map Prod.snd).nodup_iff).2 ?_
    rw [List.map_cons]
    exact List.nodup_cons.2 ⟨hnot, h2⟩
  · intro p hp
    rw [hl, hperm.mem_iff] at hp
    rw [hqs, List.length_set, hev]
    rcases List.mem_cons.1 hp with hp | hp
    · subst hp
      exact ⟨hv, hlt, by rw [if_pos rfl]; exact he1⟩
    · obtain ⟨ha, hb, hc⟩ := h3 p hp
      have hpq : p.2 ≠ qi := fun hpq => hnot (List.mem_map.2 ⟨p, hp, hpq⟩)
      exact ⟨ha, hb, by rw [if_neg hpq]; exact hc⟩
  · intro qj hqj hne
    rw [hqs, List.length_set] at hqj
    rw [hev] at hne ⊢
    rw [hl, hperm.mem_iff]
    by_cases hj : qj = qi
    · rw [if_pos hj, he1, hj]; exact List.mem_cons_self _ _
    · rw [if_neg hj] at hne ⊢
      exact List.mem_cons_of_mem _ (h4 qj hqj hne)

theorem coerceVal_range (prec : BitTbl.LongoutRecord) :
    (BitTbl.coerceVal prec).val = (if 1 ≤ prec.val ∧ prec.val ≤ 255 then prec.val else 0) ∧
    0 ≤ (BitTbl.coerceVal prec).val ∧ (BitTbl.coerceVal prec).val ≤ 255 := by
  unfold BitTbl.coerceVal
  by_cases h : prec.val < 0 ∨ prec.val > 255
  · rw [if_pos h]
    have h1 : ¬ (1 ≤ prec.val ∧ prec.val ≤ 255) := by omega
    rw [if_neg h1]
    exact ⟨rfl, le_refl _, show (0 : Int) ≤ 255 by decide⟩
  · rw [if_neg h]
    by_cases h1 : 1 ≤ prec.val ∧ prec.val ≤ 255
    · rw [if_pos h1]; exact ⟨rfl, by omega, by omega⟩
    · rw [if_neg h1]; exact ⟨by omega, by omega, by omega⟩

theorem wf_setEvent (prec : BitTbl.LongoutRecord) (log : EventLog) (qi : Nat) (hwf : log.wf) :
    (eventLogSetEvent prec log qi).log.wf := by
  unfold eventLogSetEvent
  cases hq : log.queues[qi]? with
  | none => exact hwf
  | some q =>
    simp only []
    have hlt : qi < log.queues.length := (List.getElem?_eq_some.1 hq).1
    have hr := coerceVal_range prec
    have key : ∀ (lg : EventLog) (q0 : EventQueue), lg.queues[qi]? = some q0 → q0.event = 0 →
        (BitTbl.coerceVal prec).val ≠ 0 → lg.wf →
        ({ lg with
            listeners := insertListener lg.listeners ((BitTbl.coerceVal prec).val.toNat % 256) qi,
            queues := lg.queues.set qi
              { q0 with event := (BitTbl.coerceVal prec).val.toNat % 256 } } : EventLog).wf :=
      fun lg q0 h1 h2 hv h3 =>
        wf_subscribe lg _ qi ((BitTbl.coerceVal prec).val.toNat % 256) q0
          { q0 with event := (BitTbl.coerceVal prec).val.toNat % 256 } h1 h2 rfl (by omega)
          rfl rfl rfl h3
    by_cases he : q.event ≠ 0
    · rw [if_pos he, if_pos he]
      have hwf1 := wf_unsubscribe log
        { log with listeners := eraseListener log.listeners q.event qi,
                   queues := log.queues.set qi { q with event := 0 } }
        qi q { q with event := 0 } hq rfl rfl rfl rfl hwf
      by_cases hv : (BitTbl.coerceVal prec).val ≠ 0
      · rw [if_pos hv]
        exact key
          { log with listeners := eraseListener log.listeners q.event qi,
                     queues := log.queues.set qi { q with event := 0 } }
          { q with event := 0 } (List.getElem?_set_self hlt) rfl hv hwf1
      · rw [if_neg hv]; exact hwf1
    · rw [if_neg he, if_neg he]
      by_cases hv : (BitTbl.coerceVal prec).val ≠ 0
      · rw [if_pos hv]
        exact key log q hq (not_not.1 he) hv hwf
      · rw [if_neg hv]; exact hwf

theorem setEvent_eventOf (prec : BitTbl.LongoutRecord) (log : EventLog) (qi : Nat)
    (hlt : qi < log.queues.length) :
    (eventLogSetEvent prec log qi).log.eventOf qi =
      if 1 ≤ prec.val ∧ prec.val ≤ 255 then prec.val.toNat else 0 := by
  have hr := coerceVal_range prec
  unfold eventLogSetEvent
  have hq : log.queues[qi]? = some (log.queues[qi]) := List.getElem?_eq_getElem hlt
  rw [hq]
  simp only []
  generalize log.queues[qi] = q at hq
  unfold EventLog.eventOf
  by_cases hv : (BitTbl.coerceVal prec).val ≠ 0
  · rw [if_pos hv]
    have h1 : 1 ≤ prec.val ∧ prec.val ≤ 255 := by
      by_contra hc
      rw [if_neg hc] at hr
      exact hv hr.1
    rw [if_pos h1] at hr ⊢
    rw [hr.1]
    have h256 : prec.val.toNat % 256 = prec.val.toNat := by omega
    by_cases he : q.event ≠ 0
    · rw [if_pos he, if_pos he]
      dsimp only
      rw [List.getElem?_set_self (by rw [List.length_set]; exact hlt)]
      exact h256
    · rw [if_neg he, if_neg he]
      dsimp only
      rw [List.getElem?_set_self hlt]
      exact h256
  · rw [if_neg hv]
    have h1 : ¬ (1 ≤ prec.val ∧ prec.val ≤ 255) := by
      intro hc
      rw [if_pos hc] at hr
      apply hv
      intro h0
      rw [h0] at hr
      omega
    rw [if_neg h1]
    by_cases he : q.event ≠ 0
    · rw [if_pos he]
      dsimp only
      rw [List.getElem?_set_self hlt]
    · rw [if_neg he, hq]
      exact not_not.1 he

theorem wf_evStep (s s1 : EvSys) (op : EvOp) (h : evStep s op = some s1) (hwf : s.log.wf) :
    s1.log.wf := by
  cases op with
  | input prec scan =>
    have := Option.some.inj h
    subst this
    refine wf_of_sameIndex s.log _ (input_sameIndex prec scan s.log).1 ?_ hwf
    show (eventLogInput prec scan s.log).log.nOverflows < 2 ^ 32
    rw [input_acct prec scan s.log hwf.1]
    exact Nat.mod_lt _ (by decide)
  | setEvent qi val =>
    have := Option.some.inj h
    subst this
    exact wf_setEvent _ _ _ hwf
  | setMult val =>
    have := Option.some.inj h
    subst this
    have h2 := setMult_sameIndex { val := val, nsev := 0 } s.log
    exact wf_of_sameIndex s.log _ h2.1 (by rw [h2.2]; exact hwf.1) hwf
  | clear qi val mask =>
    have := Option.some.inj h
    subst this
    refine wf_of_sameIndex s.log _ (clear_sameIndex { val := val, nsev := 0 } s.log qi) ?_ hwf
    show (eventLogClear { val := val, nsev := 0 } s.log qi).log.nOverflows < 2 ^ 32
    rw [clear_nOverflows]; exact hwf.1
  | outLast qi prec =>
    have := Option.some.inj h
    subst this
    exact hwf
  | outBuf qi autoclear prec =>
    have := Option.some.inj h
    subst this
    refine wf_of_sameIndex s.log _ (outBuf_sameIndex prec autoclear s.log qi) ?_ hwf
    show (eventLogOutBuf prec autoclear s.log qi).log.nOverflows < 2 ^ 32
    rw [outBuf_nOverflows]; exact hwf.1
  | complete qi prio =>
    have h : (if (qi, prio) ∈ s.pending then
        (match onChangeComplete s.log qi prio with
          | none => none
          | some lg => some ({ log := lg, pending := s.pending.erase (qi, prio) } : EvSys))
        else none) = some s1 := h
    by_cases hm : (qi, prio) ∈ s.pending
    · rw [if_pos hm] at h
      cases hc : onChangeComplete s.log qi prio with
      | none => rw [hc] at h; exact absurd h (by simp)
      | some lg =>
        rw [hc] at h
        have := Option.some.inj h
        subst this
        have h2 := complete_sameIndex s.log lg qi prio hc
        exact wf_of_sameIndex s.log _ h2.1 (by rw [h2.2]; exact hwf.1) hwf
    · rw [if_neg hm] at h; exact absurd h (by simp)

theorem fresh_wf (s : EvSys) (h : s.fresh) : s.log.wf := by
  obtain ⟨h1, h2, _, h4⟩ := h
  have he : ∀ qi, s.log.eventOf qi = 0 := by
    intro qi
    unfold EventLog.eventOf
    cases hq : s.log.queues[qi]? with
    | none => rfl
    | some q => exact (h4 q (by obtain ⟨hl, hg⟩ := List.getElem?_eq_some.1 hq; rw [← hg]; exact List.getElem_mem hl)).1
  refine ⟨h1, by rw [h2]; exact List.nodup_nil, ?_, ?_, by rw [h2]; exact List.Pairwise.nil⟩
  · intro p hp; rw [h2] at hp; exact absurd hp (List.not_mem_nil _)
  · intro qi _ hne; exact absurd (he qi) hne

theorem reachable_wf (s0 s : EvSys) (h0 : s0.fresh) (hr : EvReachable s0 s) : s.log.wf := by
  induction hr with
  | init => exact fresh_wf s0 h0
  | step s s1 op _ hs ih => exact wf_evStep s s1 op hs ih

theorem reachable_trans_run (s0 s s1 : EvSys) (ops : List EvOp) (hr : EvReachable s0 s)
    (h : evRun s ops = some s1) : EvReachable s0 s1 := by
  induction ops generalizing s with
  | nil =>
    have := Option.some.inj h
    subst this
    exact hr
  | cons op rest ih =>
    unfold evRun at h
    cases hs : evStep s op with
    | none => rw [hs] at h; exact absurd h (by simp)
    | some s2 =>
      rw [hs] at h
      exact ih s2 (EvReachable.step s s2 op hr hs) h

theorem filter_snd_le_one (l : List (Nat × Nat)) (h : (l.map Prod.snd).Nodup) (qi : Nat) :
    (l.filter (fun p => p.2 = qi)).length ≤ 1 := by
  induction l with
  | nil => simp
  | cons p rest ih =>
    rw [List.map_cons, List.nodup_cons] at h
    by_cases hp : p.2 = qi
    · have hnil : rest.filter (fun p => p.2 = qi) = [] := by
        rw [List.filter_eq_nil_iff]
        intro a ha hq
        apply h.1
        have hq : a.2 = qi := by simpa using hq
        rw [hp, ← hq]
        exact List.mem_map_of_mem _ ha
      rw [List.filter_cons_of_pos (by simpa using hp), hnil]
      simp
    · rw [List.filter_cons_of_neg (by simpa using hp)]
      exact ih h.2

theorem eventOf_lt (log : EventLog) (qi : Nat) (h : log.eventOf qi ≠ 0) :
    qi < log.queues.length := by
  by_contra hge
  apply h
  unfold EventLog.eventOf
  rw [List.getElem?_eq_none (Nat.le_of_not_lt hge)]

theorem wf_mem_listeners (log : EventLog) (hwf : log.wf) (c qi : Nat) :
    (c, qi) ∈ log.listeners ↔ (log.eventOf qi = c ∧ c ≠ 0) := by
  obtain ⟨_, _, h3, h4, _⟩ := hwf
  constructor
  · intro h
    obtain ⟨ha, _, hc⟩ := h3 _ h
    exact ⟨hc, ha⟩
  · rintro ⟨hc, h0⟩
    have hne : log.eventOf qi ≠ 0 := by rw [hc]; exact h0
    have := h4 qi (List.mem_range.2 (eventOf_lt log qi hne)) hne
    rw [hc] at this
    exact this

/-- C19. In every state reached from a state without subscriptions by any
steps (`eventLogSetEvent` with any value on any queue among them), each queue
has at most one entry in `listeners`; it has the entry of code `c` exactly when
its event field is `c` and `c` is not 0; and `eventLogSetEvent` with the value
`v` leaves the event field at `v` when `1 ≤ v ≤ 255` and at 0 otherwise. -/
theorem listeners_index (s0 s : EvSys) (h0 : s0.fresh) (hr : EvReachable s0 s) :
    (∀ qi, (s.log.listeners.filter (fun p => p.2 = qi)).length ≤ 1 ∧
      ∀ c, (c, qi) ∈ s.log.listeners ↔ (s.log.eventOf qi = c ∧ c ≠ 0)) ∧
    (∀ qi v, qi < s.log.queues.length →
      (eventLogSetEvent { val := v, nsev := 0 } s.log qi).log.eventOf qi =
        if 1 ≤ v ∧ v ≤ 255 then v.toNat else 0) := by
  have hwf := reachable_wf s0 s h0 hr
  exact ⟨fun qi => ⟨filter_snd_le_one _ hwf.2.1 qi, fun c => wf_mem_listeners s.log hwf c qi⟩,
    fun qi v hlt => setEvent_eventOf { val := v, nsev := 0 } s.log qi hlt⟩

theorem exSubscribed_run :
    evRun exStart [.setMult (some 2), .setEvent 0 100, .setEvent 1 25] =
      some { log := exSubscribed, pending := [] } := by
  decide

theorem listeners_index_witness :
    exStart.fresh ∧
    ((exSubscribed.listeners.filter (fun p => p.2 = 0)).length ≤ 1 ∧
      ((100, 0) ∈ exSubscribed.listeners ↔ (exSubscribed.eventOf 0 = 100 ∧ 100 ≠ 0))) ∧
    (eventLogSetEvent { val := 300, nsev := 0 } exSubscribed 0).log.eventOf 0 =
      if (1 : Int) ≤ 300 ∧ (300 : Int) ≤ 255 then (300 : Int).toNat else 0 := by
  have h := listeners_index exStart { log := exSubscribed, pending := [] } (by decide)
    (reachable_trans_run exStart exStart _ _ EvReachable.init exSubscribed_run)
  exact ⟨by decide, ⟨(h.1 0).1, (h.1 0).2 100⟩, h.2 0 300 (by decide)⟩

/-! ## What eventLogInput does to one queue -/

theorem triples_length (l : List Nat) : (triples l).length = l.length / 3 := by
  induction l using triples.induct with
  | case1 a b c rest ih =>
    rw [triples, List.length_cons, ih]
    simp only [List.length_cons]
    omega
  | case2 l h =>
    have hl : l.length < 3 := by
      match l, h with
      | [], _ => simp
      | [_], _ => simp
      | [_, _], _ => simp
      | a :: b :: c :: rest, h => exact absurd rfl (h a b c rest)
    rw [triples]
    · simp; omega
    · exact h

theorem deliver_queue (ts : TimeStamp) (scan : Nat → Nat) (st : InputState) (qi qj : Nat) :
    (deliver ts scan st qi).log.queues[qj]? =
      if qj = qi then (st.log.queues[qj]?).map (fun q => q.receive ts (scan qj))
      else st.log.queues[qj]? := by
  unfold deliver
  cases hq : st.log.queues[qi]? with
  | none =>
    by_cases hj : qj = qi
    · rw [if_pos hj, hj, hq]; rfl
    · rw [if_neg hj]
  | some q =>
    simp only []
    have hlt : qi < st.log.queues.length := (List.getElem?_eq_some.1 hq).1
    by_cases hj : qj = qi
    · rw [if_pos hj, hj, List.getElem?_set_self hlt, hq]; rfl
    · rw [if_neg hj, List.getElem?_set_ne (fun h => hj h.symm)]

theorem foldl_deliver_queue (ts : TimeStamp) (scan : Nat → Nat) (tg : List Nat)
    (hnd : tg.Nodup) (st : InputState) (qj : Nat) :
    (tg.foldl (deliver ts scan) st).log.queues[qj]? =
      if qj ∈ tg then (st.log.queues[qj]?).map (fun q => q.receive ts (scan qj))
      else st.log.queues[qj]? := by
  induction tg generalizing st with
  | nil => simp
  | cons qi rest ih =>
    rw [List.nodup_cons] at hnd
    rw [List.foldl_cons, ih hnd.2, deliver_queue]
    by_cases hj : qj = qi
    · have hnr : qj ∉ rest := by rw [hj]; exact hnd.1
      rw [if_neg hnr, if_pos hj, if_pos (by rw [hj]; exact List.mem_cons_self _ _)]
    · rw [if_neg hj]
      by_cases hr : qj ∈ rest
      · rw [if_pos hr, if_pos (List.mem_cons_of_mem _ hr)]
      · rw [if_neg hr, if_neg (by
          intro h
          rcases List.mem_cons.1 h with h | h
          · exact hj h
          · exact hr h)]

theorem listenersOf_nodup (log : EventLog) (hwf : log.wf) (evt : Nat) :
    (listenersOf log evt).Nodup := by
  unfold listenersOf
  exact hwf.2.1.sublist ((List.filter_sublist _).map _)

theorem mem_listenersOf (log : EventLog) (hwf : log.wf) (evt qi : Nat) :
    qi ∈ listenersOf log evt ↔ (log.eventOf qi = evt ∧ evt ≠ 0) := by
  rw [← wf_mem_listeners log hwf evt qi]
  unfold listenersOf
  rw [List.mem_map]
  constructor
  · rintro ⟨p, hp, hq⟩
    rw [List.mem_filter] at hp
    have h1 : p.1 = evt := by simpa using hp.2
    have : p = (evt, qi) := Prod.ext h1 hq
    rw [← this]; exact hp.1
  · intro h
    exact ⟨(evt, qi), List.mem_filter.2 ⟨h, by simp⟩, rfl⟩

theorem listenersOf_sameIndex (log log1 : EventLog) (h : log.sameIndex log1) (evt : Nat) :
    listenersOf log1 evt = listenersOf log evt := by
  unfold listenersOf; rw [h.1]

theorem processTriple_queue (log : EventLog) (hwf : log.wf) (scan : Nat → Nat)
    (st : InputState) (hs : log.sameIndex st.log) (hn : st.log.nsecPerTick = log.nsecPerTick)
    (t : Nat × Nat × Nat) (qj : Nat) :
    (processTriple scan st t).log.queues[qj]? =
      if t.1 &&& 0xff ≠ 0 ∧ t.1 &&& 0xff = log.eventOf qj then
        (st.log.queues[qj]?).map
          (fun q => q.receive (timeStampOf log.nsecPerTick t.2.1 t.2.2) (scan qj))
      else st.log.queues[qj]? := by
  unfold processTriple
  simp only []
  by_cases h0 : t.1 &&& 0xff = 0
  · rw [if_pos h0, if_neg (fun h => h.1 h0)]
  · rw [if_neg h0, listenersOf_sameIndex log st.log hs, hn,
      foldl_deliver_queue _ _ _ (listenersOf_nodup log hwf _)]
    have hq : ∀ (st1 : InputState), st1.log.queues = st.log.queues →
        (if qj ∈ listenersOf log (t.1 &&& 0xff) then
          (st1.log.queues[qj]?).map
            (fun q => q.receive (timeStampOf log.nsecPerTick t.2.1 t.2.2) (scan qj))
        else st1.log.queues[qj]?) =
        if t.1 &&& 0xff ≠ 0 ∧ t.1 &&& 0xff = log.eventOf qj then
          (st.log.queues[qj]?).map
            (fun q => q.receive (timeStampOf log.nsecPerTick t.2.1 t.2.2) (scan qj))
        else st.log.queues[qj]? := by
      intro st1 h1
      rw [h1]
      by_cases hm : qj ∈ listenersOf log (t.1 &&& 0xff)
      · rw [if_pos hm]
        have := (mem_listenersOf log hwf _ _).1 hm
        rw [if_pos ⟨this.2, this.1.symm⟩]
      · rw [if_neg hm]
        rw [if_neg (fun h => hm ((mem_listenersOf log hwf _ _).2 ⟨h.2.symm, h.1⟩))]
    by_cases hb : t.1 &&& 0x40000000 ≠ 0
    · rw [if_pos hb]; exact hq _ rfl
    · rw [if_neg hb]; exact hq _ rfl

theorem foldl_processTriple_queue (log : EventLog) (hwf : log.wf) (scan : Nat → Nat)
    (ts : List (Nat × Nat × Nat)) (st : InputState) (hs : log.sameIndex st.log)
    (hn : st.log.nsecPerTick = log.nsecPerTick) (qj : Nat) :
    (ts.foldl (processTriple scan) st).log.queues[qj]? =
      (st.log.queues[qj]?).map (fun q =>
        ((ts.filter (fun t => t.1 &&& 0xff ≠ 0 ∧ t.1 &&& 0xff = log.eventOf qj)).map
          (fun t => timeStampOf log.nsecPerTick t.2.1 t.2.2)).foldl
          (fun q ts => q.receive ts (scan qj)) q) := by
  induction ts generalizing st with
  | nil => simp
  | cons t rest ih =>
    have h1 := processTriple_sameIndex scan st t
    rw [List.foldl_cons, ih _ (sameIndex_trans _ _ _ hs h1.1) (h1.2.trans hn),
      processTriple_queue log hwf scan st hs hn]
    by_cases hc : t.1 &&& 0xff ≠ 0 ∧ t.1 &&& 0xff = log.eventOf qj
    · rw [if_pos hc, List.filter_cons_of_pos (by simpa using hc)]
      cases st.log.queues[qj]? <;> rfl
    · rw [if_neg hc, List.filter_cons_of_neg (by simpa using hc)]

theorem input_queue (prec : AaoRecord) (scan : Nat → Nat) (log : EventLog) (hwf : log.wf)
    (hf : prec.ftvlULong = true) (qj : Nat) :
    (eventLogInput prec scan log).log.queues[qj]? =
      (log.queues[qj]?).map (fun q =>
        (((triples (prec.bptr.take prec.nord)).filter
            (fun t => t.1 &&& 0xff ≠ 0 ∧ t.1 &&& 0xff = log.eventOf qj)).map
          (fun t => timeStampOf log.nsecPerTick t.2.1 t.2.2)).foldl
          (fun q ts => q.receive ts (scan qj)) q) := by
  unfold eventLogInput
  rw [if_neg (by rw [hf]; simp)]
  exact foldl_processTriple_queue log hwf scan _ _ (sameIndex_refl _) rfl qj

theorem receive_fields (q : EventQueue) (ts : TimeStamp) (mask : Nat) :
    (q.receive ts mask).que = q.que ++ [ts].take q.unused.length ∧
    (q.receive ts mask).unused = q.unused.drop 1 ∧
    (q.receive ts mask).last = ts := by
  unfold EventQueue.receive
  cases hu : q.unused with
  | nil => simp only []; split_ifs <;> simp [hu]
  | cons x rest => simp only []; split_ifs <;> simp [hu]

theorem foldl_receive_fields (m : List TimeStamp) (mask : Nat) (q : EventQueue) :
    (m.foldl (fun q ts => q.receive ts mask) q).que = q.que ++ m.take q.unused.length ∧
    (m.foldl (fun q ts => q.receive ts mask) q).unused = q.unused.drop m.length ∧
    (m.foldl (fun q ts => q.receive ts mask) q).last = m.getLast?.getD q.last := by
  induction m generalizing q with
  | nil => simp
  | cons ts rest ih =>
    obtain ⟨h1, h2, h3⟩ := receive_fields q ts mask
    obtain ⟨g1, g2, g3⟩ := ih (q.receive ts mask)
    rw [List.foldl_cons]
    refine ⟨?_, ?_, ?_⟩
    · rw [g1, h1, h2]
      cases hu : q.unused with
      | nil => simp
      | cons x xs => simp
    · rw [g2, h2, List.drop_drop, List.length_cons, Nat.add_comm]
    · rw [g3, h3]
      cases rest with
      | nil => rfl
      | cons a as =>
        rw [List.getLast?_cons_cons]
        cases h : (a :: as).getLast? with
        | none => exact absurd (List.getLast?_eq_none_iff.1 h) (by simp)
        | some x => rfl

theorem triples_getElem (l : List Nat) (i : Nat) (h : 3 * i + 2 < l.length) :
    (triples l)[i]? = some (l.getD (3 * i) 0, l.getD (3 * i + 1) 0, l.getD (3 * i + 2) 0) := by
  induction l using triples.induct generalizing i with
  | case1 a b c rest ih =>
    rw [triples]
    have key : ∀ k, (a :: b :: c :: rest).getD (k + 3) 0 = rest.getD k 0 := fun k => rfl
    cases i with
    | zero => simp
    | succ j =>
      simp only [List.length_cons] at h
      rw [List.getElem?_cons_succ, ih j (by omega)]
      have e0 : 3 * (j + 1) = 3 * j + 3 := by ring
      have e1 : 3 * (j + 1) + 1 = (3 * j + 1) + 3 := by ring
      have e2 : 3 * (j + 1) + 2 = (3 * j + 2) + 3 := by ring
      rw [e2, e1, e0, key, key, key]
  | case2 l hl =>
    exfalso
    match l, hl, h with
    | [], _, h => simp at h
    | [_], _, h => simp at h
    | [_, _], _, h => simp at h
    | a :: b :: c :: rest, hl, _ => exact hl a b c rest rfl

theorem filter_code (ts : List (Nat × Nat × Nat)) (c : Nat) (hc0 : c ≠ 0) :
    ts.filter (fun t => t.1 &&& 0xff ≠ 0 ∧ t.1 &&& 0xff = c) =
      ts.filter (fun t => t.1 &&& 0xff = c) := by
  apply List.filter_congr
  intro t _
  by_cases h : t.1 &&& 0xff = c
  · have h0 : t.1 &&& 0xff ≠ 0 := by rw [h]; exact hc0
    simp [h, hc0]
  · simp [h]

theorem filter_none (ts : List (Nat × Nat × Nat)) (c : Nat)
    (h : c = 0 ∨ ∀ t ∈ ts, t.1 &&& 0xff ≠ c) :
    ts.filter (fun t => t.1 &&& 0xff ≠ 0 ∧ t.1 &&& 0xff = c) = [] := by
  rw [List.filter_eq_nil_iff]
  intro t ht hp
  have hp : t.1 &&& 0xff ≠ 0 ∧ t.1 &&& 0xff = c := by simpa using hp
  rcases h with h | h
  · exact hp.1 (hp.2.trans h)
  · exact h t ht hp.2

theorem foldl_processTriple_zero (scan : Nat → Nat) (ts : List (Nat × Nat × Nat))
    (st : InputState) (h : ∀ t ∈ ts, t.1 &&& 0xff = 0) :
    ts.foldl (processTriple scan) st = st := by
  induction ts generalizing st with
  | nil => rfl
  | cons t rest ih =>
    rw [List.foldl_cons]
    have h0 : processTriple scan st t = st := by
      unfold processTriple
      simp only []
      rw [if_pos (h t (List.mem_cons_self _ _))]
    rw [h0]
    exact ih st (fun t ht => h t (List.mem_cons_of_mem _ ht))

/-- C13. `eventLogInput` visits the `N / 3` complete triples of the `N` words
it is given, in order; for a queue subscribed to the code `c`, not 0, of a
well-formed log, the call appends to `que` the converted time stamps of the
triples whose low 8 bits are `c`, in input order, as far as `unused` has
elements, takes that many elements (or all) from `unused`, and leaves in `last`
the time stamp of the final such triple, also when it was not queued. -/
theorem input_demux (prec : AaoRecord) (scan : Nat → Nat) (log : EventLog) (qi c : Nat)
    (q : EventQueue) (hwf : log.wf) (hf : prec.ftvlULong = true)
    (hq : log.queues[qi]? = some q) (hc : q.event = c) (hc0 : c ≠ 0) :
    (triples (prec.bptr.take prec.nord)).length = (prec.bptr.take prec.nord).length / 3 ∧
    (∀ i, 3 * i + 2 < (prec.bptr.take prec.nord).length →
      (triples (prec.bptr.take prec.nord))[i]? =
        some ((prec.bptr.take prec.nord).getD (3 * i) 0,
          (prec.bptr.take prec.nord).getD (3 * i + 1) 0,
          (prec.bptr.take prec.nord).getD (3 * i + 2) 0)) ∧
    ∃ q1, (eventLogInput prec scan log).log.queues[qi]? = some q1 ∧
      q1.que = q.que ++
        (((triples (prec.bptr.take prec.nord)).filter (fun t => t.1 &&& 0xff = c)).map
          (fun t => timeStampOf log.nsecPerTick t.2.1 t.2.2)).take q.unused.length ∧
      q1.unused = q.unused.drop
        (((triples (prec.bptr.take prec.nord)).filter (fun t => t.1 &&& 0xff = c)).map
          (fun t => timeStampOf log.nsecPerTick t.2.1 t.2.2)).length ∧
      q1.last =
        (((triples (prec.bptr.take prec.nord)).filter (fun t => t.1 &&& 0xff = c)).map
          (fun t => timeStampOf log.nsecPerTick t.2.1 t.2.2)).getLast?.getD q.last := by
  refine ⟨triples_length _, fun i hi => triples_getElem _ i hi, ?_⟩
  have h := input_queue prec scan log hwf hf qi
  have he : log.eventOf qi = c := by rw [eventOf_of_getElem log qi q hq]; exact hc
  rw [hq, he, filter_code _ c hc0] at h
  exact ⟨_, h, foldl_receive_fields _ (scan qi) q⟩

theorem input_demux_witness :
    ∃ q1, (eventLogInput exBoth (fun _ => 1) exSubscribed).log.queues[0]? = some q1 ∧
      q1.que = [{ secPastEpoch := 12, nsec := 4 }, { secPastEpoch := 12, nsec := 6 }] ∧
      q1.last = { secPastEpoch := 12, nsec := 6 } := by
  obtain ⟨_, _, q1, h1, h2, _, h4⟩ := input_demux exBoth (fun _ => 1) exSubscribed 0 100
    { exQueue with event := 100 } (by decide) rfl rfl rfl (by decide)
  refine ⟨q1, h1, ?_, ?_⟩
  · rw [h2]; decide
  · rw [h4]; decide

/-- C14. `eventLogInput` leaves alone every queue of a well-formed log whose
event code is 0 or is not the low 8 bits of the first word of any triple of the
batch; a triple whose low 8 bits are 0 changes nothing, the overflow counter
included, and a batch of such triples leaves the whole log as it was. -/
theorem input_frame (prec : AaoRecord) (scan : Nat → Nat) (log : EventLog) (qi : Nat)
    (hwf : log.wf)
    (hno : log.eventOf qi = 0 ∨
      ∀ t ∈ triples (prec.bptr.take prec.nord), t.1 &&& 0xff ≠ log.eventOf qi) :
    (eventLogInput prec scan log).log.queues[qi]? = log.queues[qi]? ∧
    (∀ st t, t.1 &&& 0xff = 0 → processTriple scan st t = st) ∧
    ((∀ t ∈ triples (prec.bptr.take prec.nord), t.1 &&& 0xff = 0) →
      (eventLogInput prec scan log).log = log ∧
      (eventLogInput prec scan log).requests = [] ∧
      (eventLogInput prec scan log).increments = 0) := by
  refine ⟨?_, ?_, ?_⟩
  · by_cases hf : prec.ftvlULong = true
    · rw [input_queue prec scan log hwf hf qi, filter_none _ _ hno]
      cases log.queues[qi]? <;> rfl
    · unfold eventLogInput
      rw [if_pos (by simpa using hf)]
  · intro st t h0
    unfold processTriple
    simp only []
    rw [if_pos h0]
  · intro h0
    unfold eventLogInput
    by_cases hf : (!prec.ftvlULong) = true
    · rw [if_pos hf]; exact ⟨rfl, rfl, rfl⟩
    · rw [if_neg hf]
      simp only []
      rw [foldl_processTriple_zero scan _ _ h0]
      exact ⟨rfl, rfl, rfl⟩

theorem input_frame_witness :
    (eventLogInput exUninteresting (fun _ => 1) exSubscribed).log.queues[0]? =
      exSubscribed.queues[0]? ∧
    (eventLogInput exUninteresting (fun _ => 1) exSubscribed).log.queues[1]? =
      exSubscribed.queues[1]? :=
  ⟨(input_frame exUninteresting (fun _ => 1) exSubscribed 0 (by decide)
      (Or.inr (by decide))).1,
   (input_frame exUninteresting (fun _ => 1) exSubscribed 1 (by decide)
      (Or.inr (by decide))).1⟩

/-- C15 (amended). The entries that one call of `eventLogInput` appends to the
`que` of a subscribed queue are the converted time stamps of the matching
triples in input order, as far as `unused` has elements; they are
non-decreasing from front to back when the matching time stamps of the batch
are. -/
theorem input_appends_in_order (prec : AaoRecord) (scan : Nat → Nat) (log : EventLog)
    (qi c : Nat) (q : EventQueue) (hwf : log.wf) (hf : prec.ftvlULong = true)
    (hq : log.queues[qi]? = some q) (hc : q.event = c) (hc0 : c ≠ 0)
    (hord : (((triples (prec.bptr.take prec.nord)).filter (fun t => t.1 &&& 0xff = c)).map
      (fun t => timeStampOf log.nsecPerTick t.2.1 t.2.2)).Pairwise TimeStamp.le) :
    ∃ q1 app, (eventLogInput prec scan log).log.queues[qi]? = some q1 ∧
      q1.que = q.que ++ app ∧
      app = (((triples (prec.bptr.take prec.nord)).filter (fun t => t.1 &&& 0xff = c)).map
        (fun t => timeStampOf log.nsecPerTick t.2.1 t.2.2)).take q.unused.length ∧
      app.Pairwise TimeStamp.le := by
  have h := input_queue prec scan log hwf hf qi
  have he : log.eventOf qi = c := by rw [eventOf_of_getElem log qi q hq]; exact hc
  rw [hq, he, filter_code _ c hc0] at h
  exact ⟨_, _, h, (foldl_receive_fields _ (scan qi) q).1, rfl,
    hord.sublist (List.take_sublist _ _)⟩

/-- C15 (counterexample). A batch of two triples of code 100 whose second time
stamp is ten seconds older than the first is queued as it comes: the entries
appended to `que` decrease. -/
theorem input_keeps_batch_order :
    ((eventLogInput exDecreasing (fun _ => 1) exSubscribed).log.queues[0]?).map
        (fun q => q.que) =
      some [{ secPastEpoch := 20, nsec := 0 }, { secPastEpoch := 10, nsec := 0 }] ∧
    ¬ TimeStamp.le { secPastEpoch := 20, nsec := 0 } { secPastEpoch := 10, nsec := 0 } := by
  decide

theorem input_appends_in_order_witness :
    ∃ q1 app, (eventLogInput exBoth (fun _ => 1) exSubscribed).log.queues[0]? = some q1 ∧
      q1.que = [] ++ app ∧ app.Pairwise TimeStamp.le := by
  obtain ⟨q1, app, h1, h2, _, h4⟩ := input_appends_in_order exBoth (fun _ => 1) exSubscribed
    0 100 { exQueue with event := 100 } (by decide) rfl rfl rfl (by decide) (by decide)
  exact ⟨q1, app, h1, h2, h4⟩

/-! ## The autoclear flag of a binding -/

theorem parseWord_autoclear (st st1 : LinkParams) (word : List Char)
    (h : parseWord st word = .ok st1) (ha : st.autoclear = true) : st1.autoclear = true := by
  unfold parseWord at h
  cases h1 : cmd word ['l', 'o', 'g', '='] with
  | some val =>
    rw [h1] at h
    have := Except.ok.inj h
    subst this
    exact ha
  | none =>
    rw [h1] at h
    simp only [] at h
    cases h2 : cmd word ['q', 'u', 'e', 'u', 'e', '='] with
    | some val =>
      rw [h2] at h
      have := Except.ok.inj h
      subst this
      exact ha
    | none =>
      rw [h2] at h
      simp only [] at h
      cases h3 : cmd word ['a', 'u', 't', 'o', 'c', 'l', 'e', 'a', 'r', '='] with
      | some val =>
        rw [h3] at h
        simp only [] at h
        split_ifs at h
        · have := Except.ok.inj h
          subst this
          rfl
        · have := Except.ok.inj h
          subst this
          rfl
      | none =>
        rw [h3] at h
        exact absurd h (by simp)

theorem parseWords_autoclear (words : List (List Char)) (st st1 : LinkParams)
    (h : parseWords st words = .ok st1) (ha : st.autoclear = true) : st1.autoclear = true := by
  induction words generalizing st with
  | nil =>
    have := Except.ok.inj h
    subst this
    exact ha
  | cons word rest ih =>
    unfold parseWords at h
    cases hw : parseWord st word with
    | error e => rw [hw] at h; exact absurd h (by simp)
    | ok st2 =>
      rw [hw] at h
      exact ih st2 h (parseWord_autoclear st st2 word hw ha)

theorem initRecord_autoclear (lstr : List Char) (logs : List LogEntry) (pvt : Nat × EventDev)
    (h : (eventLogInitRecord lstr logs).dpvt = some pvt) : pvt.2.autoclear = true := by
  unfold eventLogInitRecord at h
  cases hp : parseLink lstr with
  | error e => rw [hp] at h; exact absurd h (by simp)
  | ok st =>
    rw [hp] at h
    simp only [] at h
    have := Option.some.inj h
    subst this
    unfold parseLink at hp
    cases hw : parseWords { logName := [], queueName := [], autoclear := true }
        (tokenize lstr) with
    | error e => rw [hw] at hp; exact absurd hp (by simp)
    | ok st2 =>
      rw [hw] at hp
      simp only [] at hp
      split_ifs at hp
      have := Except.ok.inj hp
      subst this
      exact parseWords_autoclear _ _ _ hw rfl

/-- C17. Binding a record whose link is `log=L autoclear=no` succeeds and gives
a binding whose autoclear flag is true. -/
theorem autoclear_no_binds_true :
    eventLogInitRecord "log=L autoclear=no".toList [] =
      { ret := 0,
        logs := [{ name := ['L'], queueNames := [[]],
                   log := { EventLog.init with queues := [EventQueue.init] } }],
        dpvt := some (0, { queue := 0, autoclear := true }) } := by
  decide

/-! ## eventLogOutBuf -/

theorem timeDiff_self (t : TimeStamp) : timeDiff t t = 0 := by
  unfold timeDiff; simp

/-- C18. `eventLogOutBuf` on a record of doubles: with `que` empty the count
is set to 0 and the time stamp of the record, its buffer and the log stay as
they are; otherwise, with `k` the smaller of NELM and the length of `que`, the
time stamp of the record becomes the front entry `t0`, the count becomes `k`,
element `i` of the buffer becomes `t[i] - t0` for `i < k` (0 for `i = 0`), the
rest of the buffer stays, and with autoclear the first `k` entries of `que` go
to the end of `unused` in order and the others stay in `que`, while without
autoclear the log stays as it is. -/
theorem outBuf_semantics (prec : AaiRecord) (autoclear : Bool) (log : EventLog) (qi : Nat)
    (q : EventQueue) (hf : prec.ftvlDouble = true) (hq : log.queues[qi]? = some q) :
    (q.que = [] →
      eventLogOutBuf prec autoclear log qi =
        { ret := 0, prec := { prec with nord := 0 }, log := log }) ∧
    (∀ t0 rest, q.que = t0 :: rest →
      (eventLogOutBuf prec autoclear log qi).ret = 0 ∧
      (eventLogOutBuf prec autoclear log qi).prec.time = t0 ∧
      (eventLogOutBuf prec autoclear log qi).prec.nord = min prec.nelm q.que.length ∧
      (eventLogOutBuf prec autoclear log qi).prec.nelm = prec.nelm ∧
      (∀ i, i < min prec.nelm q.que.length →
        (eventLogOutBuf prec autoclear log qi).prec.bptr[i]? =
          (q.que[i]?).map (fun t => timeDiff t t0)) ∧
      (0 < prec.nelm → (eventLogOutBuf prec autoclear log qi).prec.bptr[0]? = some 0) ∧
      (∀ i, min prec.nelm q.que.length ≤ i →
        (eventLogOutBuf prec autoclear log qi).prec.bptr[i]? = prec.bptr[i]?) ∧
      (autoclear = true →
        (eventLogOutBuf prec autoclear log qi).log =
          { log with queues := (log.queues.set qi
              ({ q with unused := q.unused ++ q.que.take (min prec.nelm q.que.length),
                        que := q.que.drop (min prec.nelm q.que.length) } : EventQueue)) }) ∧
      (autoclear = false → (eventLogOutBuf prec autoclear log qi).log = log)) := by
  constructor
  · intro he
    unfold eventLogOutBuf
    rw [if_neg (by rw [hf]; simp), hq]
    simp only []
    rw [he]
  · intro t0 rest he
    have hr : eventLogOutBuf prec autoclear log qi =
        { ret := 0,
          prec := { prec with
            time := t0,
            bptr := ((t0 :: rest).take (min prec.nelm (t0 :: rest).length)).map
                (fun t => timeDiff t t0) ++
              prec.bptr.drop (min prec.nelm (t0 :: rest).length),
            nord := min prec.nelm (t0 :: rest).length },
          log := if autoclear then
              { log with queues := (log.queues.set qi
                  ({ q with
                    unused := q.unused ++
                      (t0 :: rest).take (min prec.nelm (t0 :: rest).length),
                    que := (t0 :: rest).drop (min prec.nelm (t0 :: rest).length) } :
                    EventQueue)) }
            else log } := by
      unfold eventLogOutBuf
      rw [if_neg (by rw [hf]; simp), hq]
      simp only []
      rw [he]
    rw [hr, he]
    have hk : min prec.nelm (t0 :: rest).length ≤ prec.bptr.length := Nat.min_le_left _ _
    have hlen : (((t0 :: rest).take (min prec.nelm (t0 :: rest).length)).map
        (fun t => timeDiff t t0)).length = min prec.nelm (t0 :: rest).length := by
      rw [List.length_map, List.length_take]
      exact Nat.min_eq_left (Nat.min_le_right _ _)
    have hget : ∀ i, i < min prec.nelm (t0 :: rest).length →
        (((t0 :: rest).take (min prec.nelm (t0 :: rest).length)).map
            (fun t => timeDiff t t0) ++
          prec.bptr.drop (min prec.nelm (t0 :: rest).length))[i]? =
        ((t0 :: rest)[i]?).map (fun t => timeDiff t t0) := by
      intro i hi
      rw [List.getElem?_append_left (by rw [hlen]; exact hi), List.getElem?_map,
        List.getElem?_take_of_lt hi]
    refine ⟨rfl, rfl, rfl, ?_, hget, ?_, ?_, ?_, ?_⟩
    · unfold AaiRecord.nelm at hlen hk ⊢
      dsimp only
      rw [List.length_append, hlen, List.length_drop]
      exact Nat.add_sub_cancel' hk
    · intro hpos
      have h0 : 0 < min prec.nelm (t0 :: rest).length := by
        rw [List.length_cons]; omega
      dsimp only
      rw [hget 0 h0, List.getElem?_cons_zero, Option.map_some', timeDiff_self]
    · intro i hi
      dsimp only
      rw [List.getElem?_append_right (by rw [hlen]; exact hi), hlen, List.getElem?_drop]
      congr 1
      omega
    · intro ha
      rw [ha]; rfl
    · intro ha
      rw [ha]; rfl

theorem outBuf_semantics_witness :
    (eventLogOutBuf exBuf true exPushed 0).prec.time = { secPastEpoch := 12, nsec := 4 } ∧
    (eventLogOutBuf exBuf true exPushed 0).prec.nord = 2 ∧
    (eventLogOutBuf exBuf true exPushed 0).prec.bptr[0]? = some 0 ∧
    (eventLogOutBuf exBuf true exPushed 0).prec.bptr[1]? = some (2 / 1000000000) := by
  obtain ⟨_, h2, h3, _, h5, h6, _, _, _⟩ := (outBuf_semantics exBuf true exPushed 0
    { unused := [TimeStamp.zero],
      que := [{ secPastEpoch := 12, nsec := 4 }, { secPastEpoch := 12, nsec := 6 }],
      last := { secPastEpoch := 12, nsec := 6 }, nLimit := 0, event := 100, changing := 1 }
    rfl rfl).2 { secPastEpoch := 12, nsec := 4 } [{ secPastEpoch := 12, nsec := 6 }] rfl
  refine ⟨h2, h3, h6 (by decide), ?_⟩
  rw [h5 1 (by decide)]
  show some (timeDiff { secPastEpoch := 12, nsec := 6 } { secPastEpoch := 12, nsec := 4 }) = _
  unfold timeDiff
  norm_num

/-! ## Scans and the completion callback -/

/-- C20. From two bound queues: after the subscriptions and the batch "Push
both" the scan of queue 0 is queued at priority 0; once it has completed,
`eventLogClear` with a non-zero value requests a scan that `changing` does not
record, so a scan at priority 0 is outstanding while bit 0 of `changing` is
clear, and the assertion of the completion callback fails when that scan
completes. -/
theorem clear_scan_unrecorded :
    (evRun exStart [.setMult (some 2), .setEvent 0 100, .setEvent 1 25,
        .input exBoth (fun _ => 1), .complete 0 0, .clear 0 1 1]).map
      (fun s => (s.pending, s.log.queues.map (fun q => q.changing))) =
      some ([(1, 0), (0, 0)], [0, 1]) ∧
    evRun exStart [.setMult (some 2), .setEvent 0 100, .setEvent 1 25,
        .input exBoth (fun _ => 1), .complete 0 0, .clear 0 1 1, .complete 0 0] = none := by
  decide

/-! ## Rounding to a double -/

theorem log2Fuel_spec (fuel n : Nat) (hf : n ≤ fuel) (hn : 0 < n) :
    2 ^ log2Fuel fuel n ≤ n ∧ n < 2 ^ (log2Fuel fuel n + 1) := by
  induction fuel generalizing n with
  | zero => omega
  | succ f ih =>
    unfold log2Fuel
    by_cases h2 : n < 2
    · rw [if_pos h2]
      have h1 : n = 1 := by omega
      subst h1
      exact ⟨by norm_num, by norm_num⟩
    · rw [if_neg h2]
      obtain ⟨h1, h3⟩ := ih (n / 2) (by omega) (by omega)
      rw [pow_succ] at h3 ⊢
      rw [pow_succ 2 (log2Fuel f (n / 2) + 1), pow_succ]
      generalize 2 ^ log2Fuel f (n / 2) = x at h1 h3 ⊢
      constructor <;> omega

theorem ilog2_spec (n : Nat) (hn : 0 < n) : 2 ^ ilog2 n ≤ n ∧ n < 2 ^ (ilog2 n + 1) :=
  log2Fuel_spec n n (Nat.le_refl n) hn

/-- A fraction that is a double is not changed by the rounding: when `p / q`
is `M / 2^j` with `M` below `2^53`, the result has the same value. -/
theorem roundDouble_exact (p q M j : Nat) (hq : 0 < q) (hM : M < 2 ^ 53)
    (h : p * 2 ^ j = M * q) :
    (roundDouble p q).1 * 2 ^ j = M * (roundDouble p q).2 ∧ 0 < (roundDouble p q).2 := by
  unfold roundDouble
  by_cases hp : p = 0
  · rw [if_pos hp]
    subst hp
    have hM0 : M = 0 := by
      rw [Nat.zero_mul] at h
      rcases Nat.mul_eq_zero.1 h.symm with h | h
      · exact h
      · omega
    subst hM0
    simp
  · rw [if_neg hp]
    simp only []
    obtain ⟨hp1, _⟩ := ilog2_spec p (Nat.pos_of_ne_zero hp)
    obtain ⟨_, hq2⟩ := ilog2_spec q hq
    generalize ilog2 p = lp at hp1 ⊢
    generalize ilog2 q = lq at hq2 ⊢
    have key : ∃ lp1,
        (if q * 2 ^ lp * 2 ^ 53 ≤ p * 2 ^ (lq + 53) then 2 * (q * 2 ^ lp) else q * 2 ^ lp) =
          q * 2 ^ lp1 ∧
        2 ^ 52 * (q * 2 ^ lp1) ≤ p * 2 ^ (lq + 53) := by
      by_cases hc : q * 2 ^ lp * 2 ^ 53 ≤ p * 2 ^ (lq + 53)
      · refine ⟨lp + 1, ?_, ?_⟩
        · rw [if_pos hc, pow_succ]; ring
        · calc 2 ^ 52 * (q * 2 ^ (lp + 1)) = q * 2 ^ lp * 2 ^ 53 := by ring
            _ ≤ p * 2 ^ (lq + 53) := hc
      · refine ⟨lp, by rw [if_neg hc], ?_⟩
        calc 2 ^ 52 * (q * 2 ^ lp) ≤ 2 ^ 52 * (2 ^ (lq + 1) * p) :=
              Nat.mul_le_mul_left _ (Nat.mul_le_mul (Nat.le_of_lt hq2) hp1)
          _ = p * 2 ^ (lq + 53) := by ring
    obtain ⟨lp1, hb1, hnorm⟩ := key
    rw [hb1]
    have hj : lp1 + j ≤ lq + 53 := by
      by_contra hcon
      have hcon : lq + 54 ≤ lp1 + j := by omega
      have h1 : 2 ^ 52 * (q * 2 ^ lp1) * 2 ^ j ≤ p * 2 ^ (lq + 53) * 2 ^ j :=
        Nat.mul_le_mul_right _ hnorm
      have h2 : p * 2 ^ (lq + 53) * 2 ^ j = q * (M * 2 ^ (lq + 53)) := by
        calc p * 2 ^ (lq + 53) * 2 ^ j = (p * 2 ^ j) * 2 ^ (lq + 53) := by ring
          _ = q * (M * 2 ^ (lq + 53)) := by rw [h]; ring
      have h3 : 2 ^ 52 * (q * 2 ^ lp1) * 2 ^ j = q * 2 ^ (52 + lp1 + j) := by ring
      rw [h2, h3] at h1
      have h4 : 2 ^ (52 + lp1 + j) ≤ M * 2 ^ (lq + 53) := Nat.le_of_mul_le_mul_left h1 hq
      have h5 : M * 2 ^ (lq + 53) < 2 ^ 53 * 2 ^ (lq + 53) :=
        Nat.mul_lt_mul_of_pos_right hM (Nat.two_pow_pos _)
      have h6 : 2 ^ (52 + lp1 + j) < 2 ^ (53 + (lq + 53)) := by
        rw [pow_add 2 53]; omega
      have h7 := (Nat.pow_lt_pow_iff_right (by norm_num : 1 < 2)).1 h6
      omega
    obtain ⟨t, ht⟩ : ∃ t, lq + 53 = lp1 + j + t := ⟨lq + 53 - (lp1 + j), by omega⟩
    have ha : p * 2 ^ (lq + 53) = (M * 2 ^ t) * (q * 2 ^ lp1) := by
      rw [ht]
      calc p * 2 ^ (lp1 + j + t) = (p * 2 ^ j) * 2 ^ (lp1 + t) := by ring
        _ = (M * 2 ^ t) * (q * 2 ^ lp1) := by rw [h]; ring
    have hb1pos : 0 < q * 2 ^ lp1 := Nat.mul_pos hq (Nat.two_pow_pos _)
    rw [ha, Nat.mul_div_cancel _ hb1pos, Nat.mul_mod_left, Nat.mul_div_cancel_left _ hq]
    have hno : ¬ (q * 2 ^ lp1 < 2 * 0 ∨ 2 * 0 = q * 2 ^ lp1 ∧ M * 2 ^ t % 2 = 1) := by
      rintro (h | ⟨h, _⟩) <;> omega
    rw [if_neg hno]
    refine ⟨?_, Nat.two_pow_pos _⟩
    show M * 2 ^ t * 2 ^ lp1 * 2 ^ j = M * 2 ^ (lq + 53)
    rw [ht]; ring

theorem div_of_cross (a b c d : Nat) (h : a * c = b * d) (hc : 0 < c) (hd : 0 < d) :
    a / d = b / c := by
  rw [← Nat.mul_div_mul_right a d hc, h, Nat.mul_comm d c, Nat.mul_div_mul_right b c hd]

/-- The nanosecond count for a tick count and a scale whose product is
`M / 2^j` with `j` positive: when `M + 2^(j-1)` is below `2^53` the product and
the sum are doubles, and the count is the integer part of the exact sum. -/
theorem nsecOf_dyadic (q : ℚ) (ticks M j : Nat) (hj : 0 < j)
    (h : ticks * q.num.toNat * 2 ^ j = M * q.den) (hM : M + 2 ^ (j - 1) < 2 ^ 53)
    (hr : (M + 2 ^ (j - 1)) / 2 ^ j < 2 ^ 32) :
    nsecOf q ticks = (M + 2 ^ (j - 1)) / 2 ^ j := by
  unfold nsecOf
  simp only []
  have hM1 : M < 2 ^ 53 := Nat.lt_of_le_of_lt (Nat.le_add_right _ _) hM
  obtain ⟨h1, h2⟩ := roundDouble_exact (ticks * q.num.toNat) q.den M j q.den_pos hM1 h
  generalize roundDouble (ticks * q.num.toNat) q.den = pr at h1 h2 ⊢
  have hpow : 2 ^ j = 2 ^ (j - 1) * 2 := by
    rw [← pow_succ]; congr 1; omega
  have h3 : (2 * pr.1 + pr.2) * 2 ^ j = (M + 2 ^ (j - 1)) * (2 * pr.2) := by
    calc (2 * pr.1 + pr.2) * 2 ^ j = 2 * (pr.1 * 2 ^ j) + pr.2 * 2 ^ j := by ring
      _ = 2 * (M * pr.2) + pr.2 * (2 ^ (j - 1) * 2) := by rw [h1, hpow]
      _ = (M + 2 ^ (j - 1)) * (2 * pr.2) := by ring
  obtain ⟨h4, h5⟩ := roundDouble_exact (2 * pr.1 + pr.2) (2 * pr.2) (M + 2 ^ (j - 1)) j
    (by omega) hM h3
  rw [div_of_cross _ _ _ _ h4 (Nat.two_pow_pos _) h5]
  exact Nat.mod_eq_of_lt hr

theorem scale_cross (q : ℚ) (ticks M j : Nat) (hq : 0 < q)
    (hd : (ticks : ℚ) * q * 2 ^ j = M) : ticks * q.num.toNat * 2 ^ j = M * q.den := by
  have hnum : ((q.num.toNat : ℕ) : ℤ) = q.num := Int.toNat_of_nonneg (Rat.num_nonneg.2 hq.le)
  have hnumQ : ((q.num.toNat : ℕ) : ℚ) = (q.num : ℚ) :=
    calc ((q.num.toNat : ℕ) : ℚ) = (((q.num.toNat : ℕ) : ℤ) : ℚ) := (Int.cast_natCast _).symm
      _ = (q.num : ℚ) := by rw [hnum]
  have hqd : (q.num : ℚ) = q * q.den := (Rat.mul_den_eq_num q).symm
  have : ((ticks * q.num.toNat * 2 ^ j : ℕ) : ℚ) = ((M * q.den : ℕ) : ℚ) := by
    push_cast
    rw [hnumQ, hqd, ← hd]
    ring
  exact_mod_cast this

theorem floor_dyadic (x : ℚ) (M j : Nat) (hj : 0 < j) (hd : x * 2 ^ j = M) :
    ⌊x + 1 / 2⌋₊ = (M + 2 ^ (j - 1)) / 2 ^ j := by
  have hpow : (2 : ℚ) ^ j = 2 ^ (j - 1) * 2 := by
    rw [← pow_succ]; congr 1; omega
  have hx : x + 1 / 2 = ((M + 2 ^ (j - 1) : ℕ) : ℚ) / ((2 ^ j : ℕ) : ℚ) := by
    push_cast
    rw [← hd, hpow]
    field_simp
    ring
  rw [hx, Nat.floor_div_eq_div]

theorem secs_conversion (q : ℚ) (secs ticks : Nat) :
    ((timeStampOf q secs ticks).secPastEpoch : ℤ) = ((secs : ℤ) - 631152000) % 2 ^ 32 := by
  unfold timeStampOf BitTbl.u32 POSIX_TIME_AT_EPICS_EPOCH
  simp only []
  omega

theorem input_single_last (log : EventLog) (scan : Nat → Nat) (qi evtst secs ticks : Nat)
    (queue : EventQueue) (hwf : log.wf) (hq : log.queues[qi]? = some queue)
    (he : queue.event ≠ 0) (hc : evtst &&& 0xff = queue.event) :
    ∃ q1, (eventLogInput
        { ftvlULong := true, bptr := [evtst, secs, ticks], nord := 3, nsev := 0 }
        scan log).log.queues[qi]? = some q1 ∧
      q1.last = timeStampOf log.nsecPerTick secs ticks := by
  have h := input_queue { ftvlULong := true, bptr := [evtst, secs, ticks], nord := 3, nsev := 0 }
    scan log hwf rfl qi
  have ht : triples ([evtst, secs, ticks].take 3) = [(evtst, secs, ticks)] := rfl
  have hev : log.eventOf qi = queue.event := eventOf_of_getElem log qi queue hq
  rw [hq] at h
  simp only [ht, hev] at h
  rw [List.filter_cons_of_pos (by simp [hc, he])] at h
  refine ⟨_, h, ?_⟩
  exact (receive_fields queue _ _).2.2

theorem exBelowHalf_eq : exBelowHalf = 9007199254740991 / 18014398509481984 := by
  have h := (Rat.num_div_den exBelowHalf).symm
  have h1 : exBelowHalf.num = 9007199254740991 := rfl
  have h2 : exBelowHalf.den = 18014398509481984 := rfl
  rw [h1, h2] at h
  rw [h]
  norm_num

/-- C21 (amended). The time stamp that `eventLogInput` makes from a triple has
the seconds `(secs - 631152000) mod 2^32`, the constant being
`20 * 365.25 * 86400`. When the product of the tick count and a positive scale
is `M / 2^j` with `j` positive, `M + 2^(j-1)` below `2^53` and the rounded
value below `2^32`, the product and the sum with 0.5 are doubles and the
nanoseconds are `floor(ticks * scale + 1/2)`; for a scale that is an integer
`k` this is `ticks * k`. The time stamp is what a subscribed queue holds in
`last` after a batch of that one triple. -/
theorem timestamp_conversion (q : ℚ) (secs ticks M j : Nat) (hq : 0 < q) (hj : 0 < j)
    (hd : (ticks : ℚ) * q * 2 ^ j = M) (hM : M + 2 ^ (j - 1) < 2 ^ 53)
    (hr : (M + 2 ^ (j - 1)) / 2 ^ j < 2 ^ 32) :
    ((timeStampOf q secs ticks).secPastEpoch : ℤ) = ((secs : ℤ) - 631152000) % 2 ^ 32 ∧
    (POSIX_TIME_AT_EPICS_EPOCH : ℚ) = 20 * 365.25 * 86400 ∧
    (timeStampOf q secs ticks).nsec = ⌊(ticks : ℚ) * q + 1 / 2⌋₊ ∧
    (∀ k : ℕ, q = k → (timeStampOf q secs ticks).nsec = ticks * k) ∧
    (∀ (log : EventLog) (scan : Nat → Nat) (qi evtst : Nat) (queue : EventQueue),
      log.wf → log.nsecPerTick = q → log.queues[qi]? = some queue → queue.event ≠ 0 →
      evtst &&& 0xff = queue.event →
      ∃ q1, (eventLogInput
          { ftvlULong := true, bptr := [evtst, secs, ticks], nord := 3, nsev := 0 }
          scan log).log.queues[qi]? = some q1 ∧
        q1.last = timeStampOf q secs ticks) := by
  have hn : (timeStampOf q secs ticks).nsec = ⌊(ticks : ℚ) * q + 1 / 2⌋₊ := by
    show nsecOf q ticks = _
    rw [nsecOf_dyadic q ticks M j hj (scale_cross q ticks M j hq hd) hM hr,
      floor_dyadic ((ticks : ℚ) * q) M j hj hd]
  refine ⟨secs_conversion q secs ticks, ?_, hn, ?_, ?_⟩
  · unfold POSIX_TIME_AT_EPICS_EPOCH; norm_num
  · intro k hk
    rw [hn, hk]
    rw [Nat.floor_eq_iff (by positivity)]
    push_cast
    constructor <;> linarith
  · intro log scan qi evtst queue hwf hs hq1 he hc
    rw [← hs]
    exact input_single_last log scan qi evtst secs ticks queue hwf hq1 he hc

set_option maxRecDepth 10000 in
/-- C21 (counterexample). With the scale `0.49999999999999994`, the double next
below one half, one tick gives 1 nanosecond: the sum with 0.5 is half way
between two doubles and is rounded to 1. The exact value `ticks * scale + 1/2`
is below 1, so its integer part is 0. -/
theorem below_half_rounds_up :
    (evRun exStart [.setMult (some exBelowHalf), .setEvent 0 100,
        .input { ftvlULong := true, bptr := [100, 631152012, 1], nord := 3, nsev := 0 }
          (fun _ => 1)]).map (fun s => s.log.queues.map (fun q => q.last)) =
      some [{ secPastEpoch := 12, nsec := 1 }, TimeStamp.zero] ∧
    ⌊((1 : ℕ) : ℚ) * exBelowHalf + 1 / 2⌋₊ = 0 := by
  refine ⟨by decide, ?_⟩
  rw [Nat.floor_eq_zero, exBelowHalf_eq]
  norm_num

theorem timestamp_conversion_witness :
    (timeStampOf 2 631152012 3).nsec = ⌊((3 : ℕ) : ℚ) * 2 + 1 / 2⌋₊ ∧
    (timeStampOf 2 631152012 3).nsec = 3 * 2 ∧
    timeStampOf 2 631152012 3 = { secPastEpoch := 12, nsec := 6 } := by
  have h := timestamp_conversion 2 631152012 3 12 1 (by norm_num) (by decide) (by norm_num)
    (by decide) (by decide)
  exact ⟨h.2.2.1, h.2.2.2.1 2 (by norm_num), by decide⟩

/-! ## eventLogClear -/

/-- C22. `eventLogClear` on a bound queue: with the value 0 or with `que`
empty nothing changes and no scan is requested; otherwise `que` is left empty,
`unused` is the old `unused` followed by the old `que`, one scan is requested
whatever `changing` is, and `changing` and the other fields stay. -/
theorem clear_semantics (prec : BitTbl.LongoutRecord) (log : EventLog) (qi : Nat)
    (q : EventQueue) (hq : log.queues[qi]? = some q) :
    ((prec.val = 0 ∨ q.que = []) →
      eventLogClear prec log qi = { ret := 0, prec := prec, log := log, scan := false }) ∧
    (prec.val ≠ 0 → q.que ≠ [] →
      eventLogClear prec log qi =
        { ret := 0, prec := prec,
          log := { log with queues := (log.queues.set qi
            ({ q with unused := q.unused ++ q.que, que := [] } : EventQueue)) },
          scan := true } ∧
      ∃ q1, (eventLogClear prec log qi).log.queues[qi]? = some q1 ∧ q1.que = [] ∧
        q1.unused = q.unused ++ q.que ∧ q1.changing = q.changing ∧ q1.last = q.last ∧
        q1.event = q.event) := by
  have hlt : qi < log.queues.length := (List.getElem?_eq_some.1 hq).1
  constructor
  · intro h
    unfold eventLogClear
    rw [hq]
    simp only []
    rw [if_pos]
    rcases h with h | h
    · exact Or.inl h
    · exact Or.inr (by rw [h]; rfl)
  · intro hv hne
    have hr : eventLogClear prec log qi =
        { ret := 0, prec := prec,
          log := { log with queues := (log.queues.set qi
            ({ q with unused := q.unused ++ q.que, que := [] } : EventQueue)) },
          scan := true } := by
      unfold eventLogClear
      rw [hq]
      simp only []
      rw [if_neg]
      rintro (h | h)
      · exact hv h
      · exact hne (List.isEmpty_iff.1 h)
    refine ⟨hr, ?_⟩
    rw [hr]
    exact ⟨_, List.getElem?_set_self hlt, rfl, rfl, rfl, rfl, rfl⟩

theorem clear_semantics_witness :
    eventLogClear { val := 1, nsev := 0 } exPushed 0 =
      { ret := 0, prec := { val := 1, nsev := 0 },
        log := { exPushed with queues := (exPushed.queues.set 0
          ({ unused := [TimeStamp.zero, { secPastEpoch := 12, nsec := 4 },
                        { secPastEpoch := 12, nsec := 6 }],
             que := [], last := { secPastEpoch := 12, nsec := 6 }, nLimit := 0, event := 100,
             changing := 1 } : EventQueue)) },
        scan := true } :=
  ((clear_semantics { val := 1, nsev := 0 } exPushed 0
    { unused := [TimeStamp.zero],
      que := [{ secPastEpoch := 12, nsec := 4 }, { secPastEpoch := 12, nsec := 6 }],
      last := { secPastEpoch := 12, nsec := 6 }, nLimit := 0, event := 100, changing := 1 }
    rfl).2 (by decide) (by decide)).1

/-! ## Scan requests of eventLogInput -/

theorem receive_changing (q : EventQueue) (ts : TimeStamp) (mask : Nat) :
    (q.receive ts mask).changing = if q.changing = 0 then mask else q.changing := by
  unfold EventQueue.receive
  cases hu : q.unused <;> simp only [] <;> split_ifs <;> rfl

theorem deliver_requests (ts : TimeStamp) (scan : Nat → Nat) (st : InputState) (qi : Nat)
    (q : EventQueue) (hq : st.log.queues[qi]? = some q) :
    (deliver ts scan st qi).requests =
      if q.changing = 0 then st.requests ++ [qi] else st.requests := by
  unfold deliver
  rw [hq]

theorem deliver_count_ne (ts : TimeStamp) (scan : Nat → Nat) (st : InputState) (qi qj : Nat)
    (hne : qi ≠ qj) :
    (deliver ts scan st qi).requests.count qj = st.requests.count qj := by
  unfold deliver
  cases hq : st.log.queues[qi]? with
  | none => rfl
  | some q =>
    simp only []
    split_ifs
    · rw [List.count_append, List.count_singleton]
      simp [hne]
    · rfl

theorem foldl_deliver_count_notin (ts : TimeStamp) (scan : Nat → Nat) (tg : List Nat)
    (st : InputState) (qj : Nat) (hn : qj ∉ tg) :
    (tg.foldl (deliver ts scan) st).requests.count qj = st.requests.count qj := by
  induction tg generalizing st with
  | nil => rfl
  | cons a rest ih =>
    rw [List.foldl_cons, ih _ (fun h => hn (List.mem_cons_of_mem _ h)),
      deliver_count_ne ts scan st a qj (fun h => hn (by rw [h]; exact List.mem_cons_self _ _))]

theorem foldl_deliver_count (ts : TimeStamp) (scan : Nat → Nat) (tg : List Nat)
    (hnd : tg.Nodup) (st : InputState) (qj : Nat) (q : EventQueue)
    (hq : st.log.queues[qj]? = some q) :
    (tg.foldl (deliver ts scan) st).requests.count qj =
      st.requests.count qj + (if qj ∈ tg ∧ q.changing = 0 then 1 else 0) := by
  induction tg generalizing st with
  | nil => simp
  | cons a rest ih =>
    rw [List.nodup_cons] at hnd
    rw [List.foldl_cons]
    by_cases ha : a = qj
    · subst ha
      rw [foldl_deliver_count_notin ts scan rest _ a hnd.1, deliver_requests ts scan st a q hq]
      by_cases hc : q.changing = 0
      · rw [if_pos hc, if_pos ⟨List.mem_cons_self _ _, hc⟩, List.count_append,
          List.count_singleton]
        simp
      · rw [if_neg hc, if_neg (fun h => hc h.2)]
        rfl
    · have hq1 : (deliver ts scan st a).log.queues[qj]? = some q := by
        rw [deliver_queue, if_neg (fun h => ha h.symm)]; exact hq
      rw [ih hnd.2 _ hq1, deliver_count_ne ts scan st a qj ha]
      by_cases hm : qj ∈ rest ∧ q.changing = 0
      · rw [if_pos hm, if_pos ⟨List.mem_cons_of_mem _ hm.1, hm.2⟩]
      · rw [if_neg hm, if_neg]
        rintro ⟨h1, h2⟩
        rcases List.mem_cons.1 h1 with h1 | h1
        · exact ha h1.symm
        · exact hm ⟨h1, h2⟩

theorem processTriple_count (log : EventLog) (hwf : log.wf) (scan : Nat → Nat)
    (st : InputState) (hs : log.sameIndex st.log) (t : Nat × Nat × Nat) (qj : Nat)
    (q : EventQueue) (hq : st.log.queues[qj]? = some q) :
    (processTriple scan st t).requests.count qj =
      st.requests.count qj +
        (if (t.1 &&& 0xff ≠ 0 ∧ t.1 &&& 0xff = log.eventOf qj) ∧ q.changing = 0 then 1
         else 0) := by
  unfold processTriple
  simp only []
  by_cases h0 : t.1 &&& 0xff = 0
  · rw [if_pos h0, if_neg (fun h => h.1.1 h0)]
    rfl
  · rw [if_neg h0, listenersOf_sameIndex log st.log hs]
    have key : ∀ (st1 : InputState), st1.log.queues = st.log.queues →
        st1.requests = st.requests →
        ((listenersOf log (t.1 &&& 0xff)).foldl
            (deliver (timeStampOf st.log.nsecPerTick t.2.1 t.2.2) scan) st1).requests.count qj =
          st.requests.count qj +
            (if (t.1 &&& 0xff ≠ 0 ∧ t.1 &&& 0xff = log.eventOf qj) ∧ q.changing = 0 then 1
             else 0) := by
      intro st1 h1 h2
      rw [foldl_deliver_count _ _ _ (listenersOf_nodup log hwf _) st1 qj q (by rw [h1]; exact hq),
        h2]
      congr 1
      by_cases hm : qj ∈ listenersOf log (t.1 &&& 0xff)
      · have := (mem_listenersOf log hwf _ _).1 hm
        by_cases hc : q.changing = 0
        · rw [if_pos ⟨hm, hc⟩, if_pos ⟨⟨this.2, this.1.symm⟩, hc⟩]
        · rw [if_neg (fun h => hc h.2), if_neg (fun h => hc h.2)]
      · rw [if_neg (fun h => hm h.1), if_neg]
        rintro ⟨⟨h1, h2⟩, _⟩
        exact hm ((mem_listenersOf log hwf _ _).2 ⟨h2.symm, h1⟩)
    by_cases hb : t.1 &&& 0x40000000 ≠ 0
    · rw [if_pos hb]; exact key _ rfl rfl
    · rw [if_neg hb]; exact key _ rfl rfl

theorem foldl_processTriple_count (log : EventLog) (hwf : log.wf) (scan : Nat → Nat)
    (ts : List (Nat × Nat × Nat)) (st : InputState) (hs : log.sameIndex st.log)
    (hn : st.log.nsecPerTick = log.nsecPerTick) (qj : Nat) (q : EventQueue)
    (hq : st.log.queues[qj]? = some q) :
    (ts.foldl (processTriple scan) st).requests.count qj =
      st.requests.count qj +
        (if q.changing ≠ 0 then 0
         else if scan qj ≠ 0 then
           min 1 (ts.filter (fun t => t.1 &&& 0xff ≠ 0 ∧ t.1 &&& 0xff = log.eventOf qj)).length
         else (ts.filter (fun t => t.1 &&& 0xff ≠ 0 ∧ t.1 &&& 0xff = log.eventOf qj)).length) := by
  induction ts generalizing st q with
  | nil => simp
  | cons t rest ih =>
    have h1 := processTriple_sameIndex scan st t
    have hs1 := sameIndex_trans _ _ _ hs h1.1
    have hn1 := h1.2.trans hn
    have hq1 := processTriple_queue log hwf scan st hs hn t qj
    have hc1 := processTriple_count log hwf scan st hs t qj q hq
    rw [List.foldl_cons]
    by_cases hm : t.1 &&& 0xff ≠ 0 ∧ t.1 &&& 0xff = log.eventOf qj
    · rw [if_pos hm, hq] at hq1
      rw [ih _ hs1 hn1 _ hq1, hc1, receive_changing,
        List.filter_cons_of_pos (by simpa using hm), List.length_cons]
      by_cases hc : q.changing = 0
      · rw [if_pos ⟨hm, hc⟩, if_pos hc, if_neg (not_not.2 hc)]
        by_cases hk : scan qj = 0
        · rw [if_neg (not_not.2 hk), if_neg (not_not.2 hk), if_neg (not_not.2 hk)]
          omega
        · rw [if_pos hk, if_pos hk]
          omega
      · rw [if_neg (fun h => hc h.2), if_neg hc, if_pos hc, if_pos hc]
    · rw [if_neg hm, hq] at hq1
      rw [ih _ hs1 hn1 _ hq1, hc1, if_neg (fun h => hm h.1),
        List.filter_cons_of_neg (by simpa using hm), Nat.add_zero]

/-- C26. In `eventLogInput` a delivery to a queue requests a scan exactly when
`changing` of the queue is 0 at that moment, and then `changing` becomes the
returned mask. For a queue of a well-formed log the number of scans requested
for it by one call is 0 when `changing` was not 0 before the call; otherwise
it is at most 1 when the returned mask is not 0 (1 when some triple of the
batch matches the queue), and the number of matching triples when the returned
mask is 0. -/
theorem input_coalesces (prec : AaoRecord) (scan : Nat → Nat) (log : EventLog) (qi : Nat)
    (q : EventQueue) (hwf : log.wf) (hf : prec.ftvlULong = true)
    (hq : log.queues[qi]? = some q) :
    (∀ (ts : TimeStamp) (st : InputState) (q0 : EventQueue), st.log.queues[qi]? = some q0 →
      (deliver ts scan st qi).requests =
        (if q0.changing = 0 then st.requests ++ [qi] else st.requests) ∧
      ∃ q1, (deliver ts scan st qi).log.queues[qi]? = some q1 ∧
        q1.changing = if q0.changing = 0 then scan qi else q0.changing) ∧
    (eventLogInput prec scan log).requests.count qi =
      (if q.changing ≠ 0 then 0
       else if scan qi ≠ 0 then
         min 1 ((triples (prec.bptr.take prec.nord)).filter
           (fun t => t.1 &&& 0xff ≠ 0 ∧ t.1 &&& 0xff = q.event)).length
       else ((triples (prec.bptr.take prec.nord)).filter
           (fun t => t.1 &&& 0xff ≠ 0 ∧ t.1 &&& 0xff = q.event)).length) ∧
    (scan qi ≠ 0 → (eventLogInput prec scan log).requests.count qi ≤ 1) ∧
    (q.changing ≠ 0 → (eventLogInput prec scan log).requests.count qi = 0) := by
  have hcount : (eventLogInput prec scan log).requests.count qi =
      (if q.changing ≠ 0 then 0
       else if scan qi ≠ 0 then
         min 1 ((triples (prec.bptr.take prec.nord)).filter
           (fun t => t.1 &&& 0xff ≠ 0 ∧ t.1 &&& 0xff = q.event)).length
       else ((triples (prec.bptr.take prec.nord)).filter
           (fun t => t.1 &&& 0xff ≠ 0 ∧ t.1 &&& 0xff = q.event)).length) := by
    have h := foldl_processTriple_count log hwf scan (triples (prec.bptr.take prec.nord))
      { log := log, requests := [], increments := 0 } (sameIndex_refl _) rfl qi q hq
    rw [eventOf_of_getElem log qi q hq] at h
    unfold eventLogInput
    rw [if_neg (by rw [hf]; simp)]
    simpa using h
  refine ⟨?_, hcount, ?_, ?_⟩
  · intro ts st q0 hq0
    refine ⟨deliver_requests ts scan st qi q0 hq0, ?_⟩
    have h := deliver_queue ts scan st qi qi
    rw [if_pos rfl, hq0] at h
    exact ⟨_, h, receive_changing q0 ts (scan qi)⟩
  · intro hk
    rw [hcount]
    by_cases hc : q.changing ≠ 0
    · rw [if_pos hc]; exact Nat.zero_le _
    · rw [if_neg hc, if_pos hk]; exact Nat.min_le_left _ _
  · intro hc
    rw [hcount, if_pos hc]

theorem input_coalesces_witness :
    (eventLogInput exBoth (fun _ => 1) exSubscribed).requests.count 0 ≤ 1 ∧
    (eventLogInput exBoth (fun _ => 1) exSubscribed).requests = [1, 0] :=
  ⟨(input_coalesces exBoth (fun _ => 1) exSubscribed 0 { exQueue with event := 100 }
      (by decide) rfl rfl).2.2.1 (by decide),
   by decide⟩

/-! ## The words of the device link -/

theorem cmd_log_not_queue (w v : List Char) (h : cmd w ['l', 'o', 'g', '='] = some v) :
    cmd w ['q', 'u', 'e', 'u', 'e', '='] = none := by
  unfold cmd at h ⊢
  cases w with
  | nil => simp [List.isPrefixOf] at h
  | cons c cs =>
    by_cases hc : c = 'l'
    · subst hc
      simp [List.isPrefixOf]
    · simp [List.isPrefixOf, hc] at h
      exact absurd h.1.1.symm hc

theorem lastValue_nil (pref dflt : List Char) : lastValue pref [] dflt = dflt := rfl

theorem lastValue_cons_some (pref dflt w v : List Char) (words : List (List Char))
    (h : cmd w pref = some v) : lastValue pref (w :: words) dflt = lastValue pref words v := by
  unfold lastValue
  have hf : List.filterMap (fun w => cmd w pref) (w :: words) =
      v :: List.filterMap (fun w => cmd w pref) words := by
    simp [List.filterMap_cons, h]
  rw [hf]
  cases hl : List.filterMap (fun w => cmd w pref) words with
  | nil => rfl
  | cons a as =>
    rw [List.getLast?_cons_cons]
    cases hg : (a :: as).getLast? with
    | none => exact absurd (List.getLast?_eq_none_iff.1 hg) (by simp)
    | some x => rfl

theorem lastValue_cons_none (pref dflt w : List Char) (words : List (List Char))
    (h : cmd w pref = none) : lastValue pref (w :: words) dflt = lastValue pref words dflt := by
  unfold lastValue
  have hf : List.filterMap (fun w => cmd w pref) (w :: words) =
      List.filterMap (fun w => cmd w pref) words := by
    simp [List.filterMap_cons, h]
  rw [hf]

theorem parseWord_rejects (st : LinkParams) (w : List Char) (h : wordAccepted w = false) :
    ∃ e, parseWord st w = .error e := by
  unfold wordAccepted at h
  unfold parseWord
  cases h1 : cmd w ['l', 'o', 'g', '='] with
  | some v => rw [h1] at h; exact absurd h (by simp)
  | none =>
    rw [h1] at h
    simp only [] at h ⊢
    cases h2 : cmd w ['q', 'u', 'e', 'u', 'e', '='] with
    | some v => rw [h2] at h; exact absurd h (by simp)
    | none =>
      rw [h2] at h
      simp only [] at h ⊢
      cases h3 : cmd w ['a', 'u', 't', 'o', 'c', 'l', 'e', 'a', 'r', '='] with
      | some v =>
        rw [h3] at h
        simp only [Bool.or_eq_false_iff] at h ⊢
        rw [if_neg (by rw [h.1]; simp), if_neg (by rw [h.2]; simp)]
        exact ⟨_, rfl⟩
      | none => exact ⟨_, rfl⟩

theorem parseWord_accepts (st : LinkParams) (w : List Char) (h : wordAccepted w = true)
    (rest : List (List Char)) :
    ∃ st1, parseWord st w = .ok st1 ∧
      lastValue ['l', 'o', 'g', '='] (w :: rest) st.logName =
        lastValue ['l', 'o', 'g', '='] rest st1.logName ∧
      lastValue ['q', 'u', 'e', 'u', 'e', '='] (w :: rest) st.queueName =
        lastValue ['q', 'u', 'e', 'u', 'e', '='] rest st1.queueName := by
  unfold wordAccepted at h
  unfold parseWord
  cases h1 : cmd w ['l', 'o', 'g', '='] with
  | some v =>
    exact ⟨_, rfl, lastValue_cons_some _ _ _ _ _ h1,
      lastValue_cons_none _ _ _ _ (cmd_log_not_queue w v h1)⟩
  | none =>
    rw [h1] at h
    simp only [] at h ⊢
    cases h2 : cmd w ['q', 'u', 'e', 'u', 'e', '='] with
    | some v =>
      exact ⟨_, rfl, lastValue_cons_none _ _ _ _ h1, lastValue_cons_some _ _ _ _ _ h2⟩
    | none =>
      rw [h2] at h
      simp only [] at h ⊢
      cases h3 : cmd w ['a', 'u', 't', 'o', 'c', 'l', 'e', 'a', 'r', '='] with
      | some v =>
        rw [h3] at h
        simp only [] at h ⊢
        by_cases hy : caseEq v ['y', 'e', 's'] = true
        · rw [if_pos hy]
          exact ⟨_, rfl, lastValue_cons_none _ _ _ _ h1, lastValue_cons_none _ _ _ _ h2⟩
        · rw [if_neg hy]
          have hn : caseEq v ['n', 'o'] = true := by
            rcases Bool.or_eq_true_iff.1 h with h | h
            · exact absurd h hy
            · exact h
          rw [if_pos hn]
          exact ⟨_, rfl, lastValue_cons_none _ _ _ _ h1, lastValue_cons_none _ _ _ _ h2⟩
      | none => rw [h3] at h; exact absurd h (by simp)

theorem parseWords_accepts (words : List (List Char)) (st : LinkParams)
    (h : ∀ w ∈ words, wordAccepted w = true) :
    ∃ st1, parseWords st words = .ok st1 ∧
      st1.logName = lastValue ['l', 'o', 'g', '='] words st.logName ∧
      st1.queueName = lastValue ['q', 'u', 'e', 'u', 'e', '='] words st.queueName := by
  induction words generalizing st with
  | nil => exact ⟨st, rfl, rfl, rfl⟩
  | cons w rest ih =>
    obtain ⟨st1, h1, h2, h3⟩ := parseWord_accepts st w (h w (List.mem_cons_self _ _)) rest
    obtain ⟨st2, g1, g2, g3⟩ := ih st1 (fun x hx => h x (List.mem_cons_of_mem _ hx))
    refine ⟨st2, ?_, ?_, ?_⟩
    · unfold parseWords
      rw [h1]
      exact g1
    · rw [g2, h2]
    · rw [g3, h3]

theorem parseWords_rejects (words : List (List Char)) (st : LinkParams)
    (h : ∃ w ∈ words, wordAccepted w = false) : ∃ e, parseWords st words = .error e := by
  induction words generalizing st with
  | nil =>
    obtain ⟨w, hw, _⟩ := h
    exact absurd hw (List.not_mem_nil _)
  | cons w rest ih =>
    unfold parseWords
    cases hw : parseWord st w with
    | error e => exact ⟨e, rfl⟩
    | ok st1 =>
      simp only []
      apply ih
      obtain ⟨x, hx, hxa⟩ := h
      rcases List.mem_cons.1 hx with hx | hx
      · subst hx
        obtain ⟨e, he⟩ := parseWord_rejects st x hxa
        rw [he] at hw
        exact absurd hw (by simp)
      · exact ⟨x, hx, hxa⟩

/-- The link is accepted exactly when every word is accepted and the last
`log=` word has a value that is not empty. -/
theorem parseLink_spec (lstr : List Char) :
    ((∀ w ∈ tokenize lstr, wordAccepted w = true) →
      lastValue ['l', 'o', 'g', '='] (tokenize lstr) [] ≠ [] →
      ∃ st, parseLink lstr = .ok st ∧
        st.logName = lastValue ['l', 'o', 'g', '='] (tokenize lstr) [] ∧
        st.queueName = lastValue ['q', 'u', 'e', 'u', 'e', '='] (tokenize lstr) []) ∧
    (((∃ w ∈ tokenize lstr, wordAccepted w = false) ∨
        lastValue ['l', 'o', 'g', '='] (tokenize lstr) [] = []) →
      ∃ e, parseLink lstr = .error e) := by
  constructor
  · intro hall hlog
    obtain ⟨st1, h1, h2, h3⟩ := parseWords_accepts (tokenize lstr)
      { logName := [], queueName := [], autoclear := true } hall
    refine ⟨st1, ?_, h2, h3⟩
    unfold parseLink
    rw [h1]
    simp only []
    rw [if_neg (by rw [h2]; exact hlog)]
  · intro h
    unfold parseLink
    by_cases hbad : ∃ w ∈ tokenize lstr, wordAccepted w = false
    · obtain ⟨e, he⟩ := parseWords_rejects (tokenize lstr)
        { logName := [], queueName := [], autoclear := true } hbad
      rw [he]
      exact ⟨e, rfl⟩
    · have hall : ∀ w ∈ tokenize lstr, wordAccepted w = true := by
        intro w hw
        by_contra hc
        exact hbad ⟨w, hw, by simpa using hc⟩
      have hlog : lastValue ['l', 'o', 'g', '='] (tokenize lstr) [] = [] := by
        rcases h with h | h
        · exact absurd h hbad
        · exact h
      obtain ⟨st1, h1, h2, _⟩ := parseWords_accepts (tokenize lstr)
        { logName := [], queueName := [], autoclear := true } hall
      rw [h1]
      simp only []
      rw [if_pos (by rw [h2]; exact hlog)]
      exact ⟨_, rfl⟩

/-! ## The registry of logs and queues -/

theorem indexIn_get (x : List Char) (l : List (List Char)) (h : x ∈ l) :
    l[indexIn x l]? = some x := by
  induction l with
  | nil => exact absurd h (List.not_mem_nil _)
  | cons y ys ih =>
    unfold indexIn
    by_cases hy : y = x
    · rw [if_pos hy, hy]; exact List.getElem?_cons_zero
    · rw [if_neg hy, List.getElem?_cons_succ]
      rcases List.mem_cons.1 h with h | h
      · exact absurd h.symm hy
      · exact ih h

theorem entry_getCreate (en : LogEntry) (qn : List Char) :
    (en.getCreate qn).1.name = en.name ∧
    (en.getCreate qn).1.queueNames[(en.getCreate qn).2]? = some qn ∧
    (en.queueNames.length = en.log.queues.length →
      (en.getCreate qn).1.queueNames.length = (en.getCreate qn).1.log.queues.length) := by
  unfold LogEntry.getCreate
  by_cases h : qn ∈ en.queueNames
  · rw [if_pos h]
    exact ⟨rfl, indexIn_get qn _ h, fun hl => hl⟩
  · rw [if_neg h]
    refine ⟨rfl, ?_, ?_⟩
    · show (en.queueNames ++ [qn])[en.queueNames.length]? = some qn
      rw [List.getElem?_append_right (Nat.le_refl _)]
      simp
    · intro hl
      show (en.queueNames ++ [qn]).length = (en.log.queues ++ [EventQueue.init]).length
      rw [List.length_append, List.length_append, hl]
      rfl

theorem getCreate_spec (logs : List LogEntry) (ln qn : List Char) :
    ∃ en, (getCreate logs ln qn).1[(getCreate logs ln qn).2.1]? = some en ∧ en.name = ln ∧
      en.queueNames[(getCreate logs ln qn).2.2]? = some qn ∧
      ((∀ e ∈ logs, e.queueNames.length = e.log.queues.length) →
        en.queueNames.length = en.log.queues.length) := by
  induction logs with
  | nil =>
    unfold getCreate
    simp only []
    obtain ⟨h1, h2, h3⟩ := entry_getCreate { name := ln, queueNames := [], log := EventLog.init } qn
    exact ⟨_, List.getElem?_cons_zero, h1, h2, fun _ => h3 rfl⟩
  | cons en rest ih =>
    unfold getCreate
    by_cases hn : en.name = ln
    · rw [if_pos hn]
      simp only []
      obtain ⟨h1, h2, h3⟩ := entry_getCreate en qn
      exact ⟨_, List.getElem?_cons_zero, h1.trans hn, h2,
        fun hall => h3 (hall en (List.mem_cons_self _ _))⟩
    · rw [if_neg hn]
      simp only []
      obtain ⟨e1, g1, g2, g3, g4⟩ := ih
      refine ⟨e1, ?_, g2, g3, fun hall => g4 (fun e he => hall e (List.mem_cons_of_mem _ he))⟩
      rw [List.getElem?_cons_succ]
      exact g1

/-- C24 (amended). Binding through `eventLogInitRecord`: when some word of the
link does not start with `log=` or `queue=` and is not `autoclear=` followed
by `yes` or `no` in any case, or when the last word that starts with `log=` has
an empty value or there is no such word, the call returns -1, creates no
binding and leaves the registry as it is; otherwise it returns 0 and the
binding refers to the queue named by the last `queue=` word (the empty name
without one) in the log named by the last `log=` word. -/
theorem link_parsing (lstr : List Char) (logs : List LogEntry) :
    (((∃ w ∈ tokenize lstr, wordAccepted w = false) ∨
        lastValue ['l', 'o', 'g', '='] (tokenize lstr) [] = []) →
      eventLogInitRecord lstr logs = { ret := -1, logs := logs, dpvt := none }) ∧
    ((∀ w ∈ tokenize lstr, wordAccepted w = true) →
      lastValue ['l', 'o', 'g', '='] (tokenize lstr) [] ≠ [] →
      ∃ li dev en, (eventLogInitRecord lstr logs).ret = 0 ∧
        (eventLogInitRecord lstr logs).dpvt = some (li, dev) ∧
        (eventLogInitRecord lstr logs).logs[li]? = some en ∧
        en.name = lastValue ['l', 'o', 'g', '='] (tokenize lstr) [] ∧
        en.queueNames[dev.queue]? =
          some (lastValue ['q', 'u', 'e', 'u', 'e', '='] (tokenize lstr) []) ∧
        ((∀ e ∈ logs, e.queueNames.length = e.log.queues.length) →
          dev.queue < en.log.queues.length)) := by
  obtain ⟨hok, hbad⟩ := parseLink_spec lstr
  constructor
  · intro h
    obtain ⟨e, he⟩ := hbad h
    unfold eventLogInitRecord
    rw [he]
  · intro hall hlog
    obtain ⟨st, hst, h2, h3⟩ := hok hall hlog
    obtain ⟨en, g1, g2, g3, g4⟩ := getCreate_spec logs st.logName st.queueName
    have hr : eventLogInitRecord lstr logs =
        { ret := 0, logs := (getCreate logs st.logName st.queueName).1,
          dpvt := some ((getCreate logs st.logName st.queueName).2.1,
            { queue := (getCreate logs st.logName st.queueName).2.2,
              autoclear := st.autoclear }) } := by
      unfold eventLogInitRecord
      rw [hst]
    rw [hr]
    refine ⟨_, _, en, rfl, rfl, g1, g2.trans h2, ?_, ?_⟩
    · rw [← h3]; exact g3
    · intro hreg
      have hlt := (List.getElem?_eq_some.1 g3).1
      rw [g4 hreg] at hlt
      exact hlt

/-- C24 (counterexample). The link `log=A log=` has two words that start with
`log=`, the first with the value `A`; the call returns -1 and creates neither
a binding nor a log. The link `log=A autoclear=YES` is accepted. -/
theorem later_empty_log_rejected :
    tokenize "log=A log=".toList = [['l', 'o', 'g', '=', 'A'], ['l', 'o', 'g', '=']] ∧
    cmd ['l', 'o', 'g', '=', 'A'] ['l', 'o', 'g', '='] = some ['A'] ∧
    eventLogInitRecord "log=A log=".toList [] = { ret := -1, logs := [], dpvt := none } ∧
    (eventLogInitRecord "log=A autoclear=YES".toList []).ret = 0 := by
  decide

/-! ## The increments of the overflow counter -/

theorem free_of_getElem (log : EventLog) (qi : Nat) (q : EventQueue)
    (hq : log.queues[qi]? = some q) : log.free qi = q.unused.length := by
  unfold EventLog.free; rw [hq]

theorem deliver_increments (ts : TimeStamp) (scan : Nat → Nat) (st : InputState) (qi : Nat)
    (hlt : qi < st.log.queues.length) :
    (deliver ts scan st qi).increments =
      st.increments + (if st.log.free qi = 0 then 1 else 0) := by
  have hq : st.log.queues[qi]? = some (st.log.queues[qi]) := List.getElem?_eq_getElem hlt
  rw [free_of_getElem st.log qi _ hq]
  unfold deliver
  rw [hq]
  simp only []
  cases hu : (st.log.queues[qi]).unused with
  | nil => simp
  | cons x xs => simp

theorem deliver_free (ts : TimeStamp) (scan : Nat → Nat) (st : InputState) (qi qj : Nat) :
    (deliver ts scan st qi).log.free qj =
      if qj = qi then st.log.free qj - 1 else st.log.free qj := by
  unfold EventLog.free
  rw [deliver_queue]
  by_cases hj : qj = qi
  · rw [if_pos hj, if_pos hj]
    cases hq : st.log.queues[qj]? with
    | none => rfl
    | some q =>
      show (q.receive ts (scan qj)).unused.length = q.unused.length - 1
      rw [(receive_fields q ts (scan qj)).2.1, List.length_drop]
  · rw [if_neg hj, if_neg hj]

theorem deliver_length (ts : TimeStamp) (scan : Nat → Nat) (st : InputState) (qi : Nat) :
    (deliver ts scan st qi).log.queues.length = st.log.queues.length :=
  (deliver_sameIndex ts scan st qi).1.2.1

theorem foldl_deliver_increments (ts : TimeStamp) (scan : Nat → Nat) (tg : List Nat)
    (hnd : tg.Nodup) (st : InputState) (hlt : ∀ qi ∈ tg, qi < st.log.queues.length) :
    (tg.foldl (deliver ts scan) st).increments =
      st.increments + (tg.filter (fun qj => st.log.free qj = 0)).length ∧
    ∀ qj, (tg.foldl (deliver ts scan) st).log.free qj =
      if qj ∈ tg then st.log.free qj - 1 else st.log.free qj := by
  induction tg generalizing st with
  | nil => simp
  | cons a rest ih =>
    rw [List.nodup_cons] at hnd
    have ha := hlt a (List.mem_cons_self _ _)
    have hrest : ∀ qi ∈ rest, qi < (deliver ts scan st a).log.queues.length := by
      intro qi hqi
      rw [deliver_length]
      exact hlt qi (List.mem_cons_of_mem _ hqi)
    obtain ⟨h1, h2⟩ := ih hnd.2 (deliver ts scan st a) hrest
    rw [List.foldl_cons]
    constructor
    · rw [h1, deliver_increments ts scan st a ha]
      have hf : rest.filter (fun qj => (deliver ts scan st a).log.free qj = 0) =
          rest.filter (fun qj => st.log.free qj = 0) := by
        apply List.filter_congr
        intro qj hqj
        have hne : qj ≠ a := fun h => hnd.1 (h ▸ hqj)
        rw [deliver_free, if_neg hne]
      rw [hf]
      by_cases hz : st.log.free a = 0
      · rw [if_pos hz, List.filter_cons_of_pos (by simpa using hz), List.length_cons]
        omega
      · rw [if_neg hz, List.filter_cons_of_neg (by simpa using hz)]
        omega
    · intro qj
      rw [h2 qj, deliver_free]
      by_cases hj : qj = a
      · have hnr : qj ∉ rest := by rw [hj]; exact hnd.1
        rw [if_neg hnr, if_pos hj, if_pos (by rw [hj]; exact List.mem_cons_self _ _)]
      · rw [if_neg hj]
        by_cases hr : qj ∈ rest
        · rw [if_pos hr, if_pos (List.mem_cons_of_mem _ hr)]
        · rw [if_neg hr, if_neg]
          intro h
          rcases List.mem_cons.1 h with h | h
          · exact hj h
          · exact hr h

theorem listenersOf_lt (log : EventLog) (hwf : log.wf) (evt qi : Nat)
    (h : qi ∈ listenersOf log evt) : qi < log.queues.length := by
  have := (mem_listenersOf log hwf evt qi).1 h
  exact eventOf_lt log qi (by rw [this.1]; exact this.2)

theorem sum_indicator (l : List Nat) (p : Nat → Prop) [DecidablePred p] :
    (l.map (fun x => if p x then 1 else 0)).sum = (l.filter (fun x => p x)).length := by
  induction l with
  | nil => rfl
  | cons a rest ih =>
    rw [List.map_cons, List.sum_cons, ih]
    by_cases h : p a
    · rw [if_pos h, List.filter_cons_of_pos (by simpa using h), List.length_cons]
      omega
    · rw [if_neg h, List.filter_cons_of_neg (by simpa using h)]
      omega

theorem listeners_count (log : EventLog) (hwf : log.wf) (evt : Nat) (p : Nat → Prop)
    [DecidablePred p] :
    ((listenersOf log evt).filter (fun qj => p qj)).length =
      ((List.range log.queues.length).map
        (fun qj => if (evt ≠ 0 ∧ evt = log.eventOf qj) ∧ p qj then 1 else 0)).sum := by
  rw [sum_indicator]
  apply List.Perm.length_eq
  rw [List.perm_ext_iff_of_nodup ((listenersOf_nodup log hwf evt).filter _)
    ((List.nodup_range _).filter _)]
  intro qj
  rw [List.mem_filter, List.mem_filter, mem_listenersOf log hwf, List.mem_range]
  constructor
  · rintro ⟨⟨h1, h2⟩, h3⟩
    have h3 : p qj := by simpa using h3
    exact ⟨eventOf_lt log qj (by rw [h1]; exact h2), by simpa using ⟨⟨h2, h1.symm⟩, h3⟩⟩
  · rintro ⟨_, h⟩
    have h : (evt ≠ 0 ∧ evt = log.eventOf qj) ∧ p qj := by simpa using h
    exact ⟨⟨h.1.2.symm, h.1.1⟩, by simpa using h.2⟩

theorem processTriple_increments (log : EventLog) (hwf : log.wf) (scan : Nat → Nat)
    (st : InputState) (hs : log.sameIndex st.log) (t : Nat × Nat × Nat) :
    (processTriple scan st t).increments =
      st.increments + (if t.1 &&& 0xff ≠ 0 ∧ t.1 &&& 0x40000000 ≠ 0 then 1 else 0) +
        ((List.range log.queues.length).map (fun qj =>
          if (t.1 &&& 0xff ≠ 0 ∧ t.1 &&& 0xff = log.eventOf qj) ∧ st.log.free qj = 0 then 1
          else 0)).sum ∧
    ∀ qj, (processTriple scan st t).log.free qj =
      if t.1 &&& 0xff ≠ 0 ∧ t.1 &&& 0xff = log.eventOf qj then st.log.free qj - 1
      else st.log.free qj := by
  rw [← listeners_count log hwf (t.1 &&& 0xff) (fun qj => st.log.free qj = 0)]
  unfold processTriple
  simp only []
  by_cases h0 : t.1 &&& 0xff = 0
  · rw [if_pos h0, if_neg (fun h => h.1 h0)]
    have hnil : listenersOf log (t.1 &&& 0xff) = [] := by
      rw [List.eq_nil_iff_forall_not_mem]
      intro qj hqj
      exact ((mem_listenersOf log hwf _ _).1 hqj).2 h0
    rw [hnil]
    refine ⟨rfl, fun qj => ?_⟩
    rw [if_neg (fun h => h.1 h0)]
  · rw [if_neg h0, listenersOf_sameIndex log st.log hs]
    have key : ∀ (st1 : InputState) (k : Nat), st1.log.queues = st.log.queues →
        st1.increments = st.increments + k →
        ((listenersOf log (t.1 &&& 0xff)).foldl
            (deliver (timeStampOf st.log.nsecPerTick t.2.1 t.2.2) scan) st1).increments =
          st.increments + k +
            ((listenersOf log (t.1 &&& 0xff)).filter (fun qj => st.log.free qj = 0)).length ∧
        ∀ qj, ((listenersOf log (t.1 &&& 0xff)).foldl
            (deliver (timeStampOf st.log.nsecPerTick t.2.1 t.2.2) scan) st1).log.free qj =
          if t.1 &&& 0xff ≠ 0 ∧ t.1 &&& 0xff = log.eventOf qj then st.log.free qj - 1
          else st.log.free qj := by
      intro st1 k h1 h2
      have hfree : ∀ qj, st1.log.free qj = st.log.free qj := by
        intro qj; unfold EventLog.free; rw [h1]
      obtain ⟨g1, g2⟩ := foldl_deliver_increments (timeStampOf st.log.nsecPerTick t.2.1 t.2.2)
        scan (listenersOf log (t.1 &&& 0xff)) (listenersOf_nodup log hwf _) st1
        (fun qi hqi => by rw [h1, hs.2.1]; exact listenersOf_lt log hwf _ qi hqi)
      constructor
      · rw [g1, h2]
        congr 1
        congr 1
        apply List.filter_congr
        intro qj _
        rw [hfree]
      · intro qj
        rw [g2 qj, hfree]
        by_cases hm : qj ∈ listenersOf log (t.1 &&& 0xff)
        · have := (mem_listenersOf log hwf _ _).1 hm
          rw [if_pos hm, if_pos ⟨this.2, this.1.symm⟩]
        · rw [if_neg hm, if_neg]
          rintro ⟨h1, h2⟩
          exact hm ((mem_listenersOf log hwf _ _).2 ⟨h2.symm, h1⟩)
    by_cases hb : t.1 &&& 0x40000000 ≠ 0
    · rw [if_pos hb, if_pos ⟨h0, hb⟩]
      exact key _ 1 rfl rfl
    · rw [if_neg hb, if_neg (fun h => hb h.2)]
      exact key _ 0 rfl rfl

theorem foldl_processTriple_increments (log : EventLog) (hwf : log.wf) (scan : Nat → Nat)
    (ts : List (Nat × Nat × Nat)) (st : InputState) (hs : log.sameIndex st.log) :
    (ts.foldl (processTriple scan) st).increments =
      st.increments +
        ((ts.filter (fun t => t.1 &&& 0xff ≠ 0 ∧ t.1 &&& 0x40000000 ≠ 0)).length +
          ((List.range log.queues.length).map (fun qj =>
            (ts.filter (fun t => t.1 &&& 0xff ≠ 0 ∧ t.1 &&& 0xff = log.eventOf qj)).length -
              st.log.free qj)).sum) := by
  induction ts generalizing st with
  | nil => simp
  | cons t rest ih =>
    obtain ⟨h1, h2⟩ := processTriple_increments log hwf scan st hs t
    have hs1 := sameIndex_trans _ _ _ hs (processTriple_sameIndex scan st t).1
    rw [List.foldl_cons, ih _ hs1, h1]
    have hsum : ((List.range log.queues.length).map (fun qj =>
          (if (t.1 &&& 0xff ≠ 0 ∧ t.1 &&& 0xff = log.eventOf qj) ∧ st.log.free qj = 0 then 1
           else 0) +
          ((rest.filter (fun t => t.1 &&& 0xff ≠ 0 ∧ t.1 &&& 0xff = log.eventOf qj)).length -
            (processTriple scan st t).log.free qj))).sum =
        ((List.range log.queues.length).map (fun qj =>
          ((t :: rest).filter
              (fun t => t.1 &&& 0xff ≠ 0 ∧ t.1 &&& 0xff = log.eventOf qj)).length -
            st.log.free qj)).sum := by
      congr 1
      apply List.map_congr_left
      intro qj _
      rw [h2 qj]
      by_cases hm : t.1 &&& 0xff ≠ 0 ∧ t.1 &&& 0xff = log.eventOf qj
      · rw [if_pos hm, List.filter_cons_of_pos (by simpa using hm), List.length_cons]
        by_cases hz : st.log.free qj = 0
        · rw [if_pos ⟨hm, hz⟩, hz]; omega
        · rw [if_neg (fun h => hz h.2)]; omega
      · rw [if_neg hm, if_neg (fun h => hm h.1), List.filter_cons_of_neg (by simpa using hm)]
        omega
    rw [← hsum, List.sum_map_add]
    by_cases hfl : t.1 &&& 0xff ≠ 0 ∧ t.1 &&& 0x40000000 ≠ 0
    · rw [if_pos hfl, List.filter_cons_of_pos (by simpa using hfl), List.length_cons]
      omega
    · rw [if_neg hfl, List.filter_cons_of_neg (by simpa using hfl)]
      omega

/-- C25. For a well-formed log, one call of `eventLogInput` increments the
overflow counter, modulo `2^32`, by the number of triples with a non-zero event
code and bit 30 set plus, for every queue, the number of matching triples
beyond the free elements the queue had, which is the number of deliveries that
find `unused` empty: a delivery increments the counter exactly when the queue
has no free element. A triple with bit 30 set is delivered like any other. -/
theorem overflow_accounting (prec : AaoRecord) (scan : Nat → Nat) (log : EventLog)
    (hwf : log.wf) (hf : prec.ftvlULong = true) :
    (eventLogInput prec scan log).increments =
      ((triples (prec.bptr.take prec.nord)).filter
          (fun t => t.1 &&& 0xff ≠ 0 ∧ t.1 &&& 0x40000000 ≠ 0)).length +
        ((List.range log.queues.length).map (fun qj =>
          ((triples (prec.bptr.take prec.nord)).filter
              (fun t => t.1 &&& 0xff ≠ 0 ∧ t.1 &&& 0xff = log.eventOf qj)).length -
            log.free qj)).sum ∧
    (eventLogInput prec scan log).log.nOverflows =
      BitTbl.u32 (log.nOverflows +
        (((triples (prec.bptr.take prec.nord)).filter
            (fun t => t.1 &&& 0xff ≠ 0 ∧ t.1 &&& 0x40000000 ≠ 0)).length +
          ((List.range log.queues.length).map (fun qj =>
            ((triples (prec.bptr.take prec.nord)).filter
                (fun t => t.1 &&& 0xff ≠ 0 ∧ t.1 &&& 0xff = log.eventOf qj)).length -
              log.free qj)).sum)) ∧
    (∀ (ts : TimeStamp) (st : InputState) (qi : Nat), qi < st.log.queues.length →
      (deliver ts scan st qi).increments =
        st.increments + (if st.log.free qi = 0 then 1 else 0)) ∧
    (∀ (t : Nat × Nat × Nat) (qj : Nat) (q : EventQueue), t.1 &&& 0x40000000 ≠ 0 →
      log.queues[qj]? = some q → q.event ≠ 0 → t.1 &&& 0xff = q.event →
      ∃ q1, (processTriple scan { log := log, requests := [], increments := 0 }
          t).log.queues[qj]? = some q1 ∧
        q1.last = timeStampOf log.nsecPerTick t.2.1 t.2.2 ∧
        q1.que = q.que ++ [timeStampOf log.nsecPerTick t.2.1 t.2.2].take q.unused.length) := by
  have hinc : (eventLogInput prec scan log).increments =
      ((triples (prec.bptr.take prec.nord)).filter
          (fun t => t.1 &&& 0xff ≠ 0 ∧ t.1 &&& 0x40000000 ≠ 0)).length +
        ((List.range log.queues.length).map (fun qj =>
          ((triples (prec.bptr.take prec.nord)).filter
              (fun t => t.1 &&& 0xff ≠ 0 ∧ t.1 &&& 0xff = log.eventOf qj)).length -
            log.free qj)).sum := by
    have h := foldl_processTriple_increments log hwf scan (triples (prec.bptr.take prec.nord))
      { log := log, requests := [], increments := 0 } (sameIndex_refl _)
    unfold eventLogInput
    rw [if_neg (by rw [hf]; simp)]
    simpa using h
  refine ⟨hinc, ?_, fun ts st qi hlt => deliver_increments ts scan st qi hlt, ?_⟩
  · rw [input_acct prec scan log hwf.1, hinc]
  · intro t qj q _ hq he hc
    have h := processTriple_queue log hwf scan { log := log, requests := [], increments := 0 }
      (sameIndex_refl _) rfl t qj
    rw [eventOf_of_getElem log qj q hq, if_pos ⟨by rw [hc]; exact he, hc⟩] at h
    have h1 : (processTriple scan { log := log, requests := [], increments := 0 }
        t).log.queues[qj]? =
        some (q.receive (timeStampOf log.nsecPerTick t.2.1 t.2.2) (scan qj)) := by
      rw [h]
      show (log.queues[qj]?).map _ = _
      rw [hq]
      rfl
    obtain ⟨g1, _, g3⟩ := receive_fields q (timeStampOf log.nsecPerTick t.2.1 t.2.2) (scan qj)
    exact ⟨_, h1, g3, g1⟩

theorem overflow_accounting_witness :
    exTight.wf ∧ (eventLogInput exBurst (fun _ => 1) exTight).log.nOverflows = 3 ∧
    (eventLogInput exBurst (fun _ => 1) exTight).increments = 1 + 2 := by
  have h := overflow_accounting exBurst (fun _ => 1) exTight (by decide) rfl
  refine ⟨by decide, ?_, ?_⟩
  · rw [h.2.1]; decide
  · rw [h.1]; decide

theorem link_parsing_witness :
    ∃ li dev en, (eventLogInitRecord "log=L queue=Q".toList []).ret = 0 ∧
      (eventLogInitRecord "log=L queue=Q".toList []).dpvt = some (li, dev) ∧
      (eventLogInitRecord "log=L queue=Q".toList []).logs[li]? = some en ∧
      en.name = ['L'] ∧ en.queueNames[dev.queue]? = some ['Q'] := by
  obtain ⟨li, dev, en, h1, h2, h3, h4, h5, _⟩ :=
    (link_parsing "log=L queue=Q".toList []).2 (by decide) (by decide)
  exact ⟨li, dev, en, h1, h2, h3, by rw [h4]; decide, by rw [h5]; decide⟩

end EvtTbl
